import Mathlib

/-!
# ThreadPool (lab5/task5.cpp): a shallow embedding

The pool is embedded as a transition system.  Every critical section guarded
by `queue_mutex` is one atomic step, the call `task()` made outside the lock
is one step, and the atomic `active_tasks--` is one step.  A schedule is a
list of such steps taken by the submitting threads, the workers and the
destructor, in any interleaving.
-/

set_option linter.dupNamespace false

namespace ThreadPool

/-- An exception object: its dynamic type and its `what()` message. -/
structure Exn where
  type : String
  what : String
deriving DecidableEq, Repr

/-- What a call `f(args...)` does: it returns a value or it throws. -/
inductive Outcome where
  | value (v : Int)
  | raised (e : Exn)
deriving DecidableEq, Repr

/-- A `std::packaged_task<return_type()>` together with the shared state it
owns the write end of: `fn` is the bound call, `state` is `none` while the
result channel is pending and `some o` once it is resolved. -/
structure PackagedTask where
  fn : Unit → Outcome
  state : Option Outcome

/-- The call `std::bind(f, args...)` of `submit`: invoking it calls `f(args...)`. -/
def bind {α : Type} (f : α → Outcome) (args : α) : Unit → Outcome :=
  fun _ => f args

/-- The exception `std::packaged_task::operator()` throws when its shared
state was already made ready. -/
def promiseAlreadySatisfied : Exn :=
  ⟨"std::future_error", "Promise already satisfied"⟩

/-- The call `(*task)()` on a packaged task: the bound call is evaluated and its
value or its exception is stored in the shared state; the call itself returns
normally.  Invoking a packaged task whose state is already ready throws. -/
def PackagedTask.invoke (p : PackagedTask) : Except Exn PackagedTask :=
  match p.state with
  | some _ => .error promiseAlreadySatisfied
  | none => .ok { p with state := some (p.fn ()) }

/-- Where a worker thread is inside `worker_function`.  `waiting` is the head
of the loop (lines 33-42), `running t` is line 58 with the dequeued closure
`t` in the local `task`, `finished t` is between lines 58 and 61 (the closure
has returned, `active_tasks--` is still to come), `exited` is after the
`return` of line 46. -/
inductive WorkerPC where
  | waiting
  | running (task : Nat)
  | finished (task : Nat)
  | exited
deriving DecidableEq, Repr

/-- One element of `workers`: a `std::thread` running `worker_function`. -/
structure Worker where
  pc : WorkerPC
  joinable : Bool
deriving DecidableEq, Repr

/-- The data members of `class ThreadPool`.  A queued closure (the lambda of
line 99, which captures `task`) is represented by the address of the packaged
task it captures.  The counter `active_tasks` is an `int` that is incremented
once per dequeue and decremented once per finished call; it is kept as an
unbounded integer. -/
structure Pool where
  workers : List Worker
  tasks : List Nat
  stop : Bool
  active_tasks : Int
deriving DecidableEq, Repr

/-- The pool, the heap of packaged tasks allocated by `submit`, whether
`std::terminate` was called, and three history lists that record what
happened: the tasks `submit` accepted, the tasks workers dequeued, and the
tasks whose closure call returned, each in the order it happened. -/
structure World where
  pool : Pool
  heap : List PackagedTask
  terminated : Bool
  accepted : List Nat
  dequeued : List Nat
  executed : List Nat

/-- The state the constructor body leaves: the loop of lines 69-71 has started
`num_threads` workers; `stop` is `false`, `active_tasks` is `0` and the queue
is empty by their member initialisers. -/
def init (num_threads : Nat) : World :=
  { pool := { workers := List.replicate num_threads ⟨.waiting, true⟩
              tasks := []
              stop := false
              active_tasks := 0 }
    heap := []
    terminated := false
    accepted := []
    dequeued := []
    executed := [] }

/-- The constructor `ThreadPool(size_t num_threads)`, as a call that either
throws or yields a pool.  Its body has no `throw` and no test of
`num_threads`. -/
def ThreadPool (num_threads : Nat) : Except Exn World :=
  .ok (init num_threads)

/-- The exception of line 95. -/
def poolClosed : Exn :=
  ⟨"std::runtime_error", "Cannot submit task to stopped ThreadPool"⟩

/-- The method `submit(f, args...)`.  The packaged task and its future are
built first; under the lock, `stop` makes the call throw (the packaged task
and the future die with the stack frame), otherwise the closure is put at the
tail of `tasks` and the future is returned.  The result is what the caller
gets (the handle, or the exception) and the state after the call. -/
def submit {α : Type} (f : α → Outcome) (args : α) (W : World) :
    Except Exn Nat × World :=
  let task : PackagedTask := ⟨bind f args, none⟩
  let result : Nat := W.heap.length
  if W.pool.stop then
    (.error poolClosed, W)
  else
    (.ok result,
      { W with
        pool := { W.pool with tasks := W.pool.tasks ++ [result] }
        heap := W.heap ++ [task]
        accepted := W.accepted ++ [result] })

/-- The call `future.get()` on the handle `h`: `none` while the channel is
pending (the call would block), otherwise the value or the exception. -/
def get (h : Nat) (W : World) : Option Outcome :=
  match W.heap[h]? with
  | some p => p.state
  | none => none

/-- Replace the program counter of worker `w`. -/
def setPC (P : Pool) (w : Nat) (pc : WorkerPC) : Pool :=
  { P with workers := P.workers.modify (fun x => { x with pc := pc }) w }

/-- One step of worker `w` in `worker_function`; `none` when the worker cannot
move (it is blocked in `condition.wait`, or it has returned, or the process
was terminated). -/
def worker_function (w : Nat) (W : World) : Option World :=
  if W.terminated then none else
  match W.pool.workers[w]? with
  | none => none
  | some wk =>
    match wk.pc with
    | .waiting =>
      if !(W.pool.stop || !W.pool.tasks.isEmpty) then none
      else if W.pool.stop && W.pool.tasks.isEmpty then
        some { W with pool := setPC W.pool w .exited }
      else
        match W.pool.tasks with
        | [] => none
        | task :: rest =>
          some { W with
            pool := setPC { W.pool with tasks := rest
                                        active_tasks := W.pool.active_tasks + 1 }
                      w (.running task)
            dequeued := W.dequeued ++ [task] }
    | .running task =>
      match W.heap[task]? with
      | none => none
      | some p =>
        match p.invoke with
        | .ok p' =>
          some { W with
            heap := W.heap.set task p'
            pool := setPC W.pool w (.finished task)
            executed := W.executed ++ [task] }
        | .error _ => some { W with terminated := true }
    | .finished _ =>
      some { W with
        pool := setPC { W.pool with active_tasks := W.pool.active_tasks - 1 }
                  w .waiting }
    | .exited => none

/-- The critical section of `~ThreadPool()` (lines 124-127): `stop = true`. -/
def destructor_stop (W : World) : World :=
  { W with pool := { W.pool with stop := true } }

/-- One iteration of the join loop of `~ThreadPool()` for worker `w`: a thread
that is not joinable is skipped, a joinable one is joined, which returns only
once the thread function has returned.  `none` while the join blocks, or when
the destructor has not set `stop` yet. -/
def destructor_join (w : Nat) (W : World) : Option World :=
  if W.terminated || !W.pool.stop then none else
  match W.pool.workers[w]? with
  | none => none
  | some wk =>
    if !wk.joinable then some W
    else if wk.pc = .exited then
      some { W with
        pool := { W.pool with
          workers := W.pool.workers.modify (fun x => { x with joinable := false }) w } }
    else none

/-- A step of one thread. -/
inductive Action where
  | submit (fn : Unit → Outcome)
  | worker (w : Nat)
  | shutdown
  | join (w : Nat)

/-- The effect of one action, `none` when the thread cannot move. -/
def step : Action → World → Option World
  | .submit fn, W => if W.terminated then none else some (submit fn () W).2
  | .worker w, W => worker_function w W
  | .shutdown, W => if W.terminated then none else some (destructor_stop W)
  | .join w, W => destructor_join w W

/-- Run a schedule; an action whose thread cannot move is skipped. -/
def run : List Action → World → World
  | [], W => W
  | a :: rest, W =>
    match step a W with
    | some W' => run rest W'
    | none => run rest W

/-- The states some schedule reaches from a pool of `num_threads` workers. -/
def Reachable (num_threads : Nat) (W : World) : Prop :=
  ∃ sched : List Action, run sched (init num_threads) = W

/-- The test of line 114, made with the lock held. -/
def wait_all_done (P : Pool) : Bool :=
  P.tasks.isEmpty && P.active_tasks == 0

/-- The method `wait_all()`.  Each element of the list is what the other
threads do while the caller sleeps between two polls.  The result is the
state in which the loop was left, `none` if it is still polling when the list
is used up. -/
def wait_all (W : World) : List (List Action) → Option World
  | [] => if wait_all_done W.pool then some W else none
  | others :: rest =>
    if wait_all_done W.pool then some W else wait_all (run others W) rest

/-- The task a worker holds and has not called yet, if any. -/
def heldTask (wk : Worker) : Option Nat :=
  match wk.pc with
  | .running t => some t
  | _ => none

/-- The tasks in flight: dequeued by a worker whose call `task()` has not
returned yet, listed worker by worker. -/
def inFlight (W : World) : List Nat :=
  W.pool.workers.filterMap heldTask

/-- What holds in every reachable state. -/
structure Inv (W : World) : Prop where
  alive : W.terminated = false
  acc : W.accepted = List.range W.heap.length
  fifo : W.accepted = W.dequeued ++ W.pool.tasks
  flight : List.Perm W.dequeued (inFlight W ++ W.executed)
  resolved : ∀ t p, W.heap[t]? = some p → t ∈ W.executed → p.state = some (p.fn ())
  pending : ∀ t p, W.heap[t]? = some p → t ∉ W.executed → p.state = none
  drained : ∀ wk ∈ W.pool.workers, wk.pc = .exited →
    W.pool.stop = true ∧ W.pool.tasks = []

/-- The five ways a worker can move. -/
inductive WorkerMove (w : Nat) (W : World) (wk : Worker) : World → Prop where
  | exit (hpc : wk.pc = .waiting) (hs : W.pool.stop = true) (hq : W.pool.tasks = []) :
      WorkerMove w W wk { W with pool := setPC W.pool w .exited }
  | dequeue (task : Nat) (rest : List Nat) (hpc : wk.pc = .waiting)
      (hq : W.pool.tasks = task :: rest) :
      WorkerMove w W wk
        { W with
          pool := setPC { W.pool with tasks := rest
                                      active_tasks := W.pool.active_tasks + 1 }
                    w (.running task)
          dequeued := W.dequeued ++ [task] }
  | call (task : Nat) (p : PackagedTask) (hpc : wk.pc = .running task)
      (hp : W.heap[task]? = some p) (hn : p.state = none) :
      WorkerMove w W wk
        { W with
          heap := W.heap.set task { p with state := some (p.fn ()) }
          pool := setPC W.pool w (.finished task)
          executed := W.executed ++ [task] }
  | escape (task : Nat) (p : PackagedTask) (o : Outcome) (hpc : wk.pc = .running task)
      (hp : W.heap[task]? = some p) (hn : p.state = some o) :
      WorkerMove w W wk { W with terminated := true }
  | decrement (task : Nat) (hpc : wk.pc = .finished task) :
      WorkerMove w W wk
        { W with
          pool := setPC { W.pool with active_tasks := W.pool.active_tasks - 1 }
                    w .waiting }

/-- A schedule for two workers: three tasks are submitted, worker 0 dequeues
the first, worker 1 dequeues the second and runs it. -/
def threeSubmitted : List Action :=
  [.submit (fun _ => .value 1), .submit (fun _ => .value 2), .submit (fun _ => .value 3),
   .worker 0, .worker 1, .worker 1]

/-- A schedule for three workers: four tasks are submitted and the workers
2, 0 and 1 dequeue one each, in that order. -/
def fourSubmitted : List Action :=
  [.submit (fun _ => .value 1), .submit (fun _ => .value 2), .submit (fun _ => .value 3),
   .submit (fun _ => .value 4), .worker 2, .worker 0, .worker 1]

/-- Three steps of worker `w`: dequeue, call, decrement. -/
def oneTask (w : Nat) : List Action := [.worker w, .worker w, .worker w]

/-- The scenario of the graceful drain: ten tasks are submitted, the destructor
sets `stop` at once, then the two workers take five tasks each, both return
and are joined. -/
def tenThenShutdown : List Action :=
  (List.range 10).map (fun i => Action.submit (fun _ => .value i)) ++ [.shutdown] ++
  (oneTask 0 ++ oneTask 1 ++ oneTask 0 ++ oneTask 1 ++ oneTask 0 ++ oneTask 1 ++
   oneTask 0 ++ oneTask 1 ++ oneTask 0 ++ oneTask 1) ++
  [.worker 0, .worker 1, .join 0, .join 1]

/-- The scenario of the graceful drain up to the point where both workers have
returned, before the join loop of the destructor starts. -/
def tenDrained : List Action :=
  (List.range 10).map (fun i => Action.submit (fun _ => .value i)) ++ [.shutdown] ++
  (oneTask 0 ++ oneTask 1 ++ oneTask 0 ++ oneTask 1 ++ oneTask 0 ++ oneTask 1 ++
   oneTask 0 ++ oneTask 1 ++ oneTask 0 ++ oneTask 1) ++
  [.worker 0, .worker 1]

/-- A schedule for one worker: a task that throws and a task that returns are
submitted, and the worker dequeues the first. -/
def throwThenReturn : List Action :=
  [.submit (fun _ => .raised ⟨"std::runtime_error", "boom"⟩), .submit (fun _ => .value 7),
   .worker 0]

/-- Two actions are steps of the same thread at the same place; two `submit`
steps may pass different callables. -/
def Action.sameThread : Action → Action → Bool
  | .submit _, .submit _ => true
  | .worker w, .worker v => w == v
  | .shutdown, .shutdown => true
  | .join w, .join v => w == v
  | _, _ => false

/-- Two schedules that differ at most in the callables that are submitted. -/
def sameSchedule : List Action → List Action → Bool
  | [], [] => true
  | a :: s1, b :: s2 => a.sameThread b && sameSchedule s1 s2
  | _, _ => false

/-- Two states that agree on everything but the contents of the packaged
tasks. -/
structure Sim (W1 W2 : World) : Prop where
  pool : W1.pool = W2.pool
  terminated : W1.terminated = W2.terminated
  heap : W1.heap.length = W2.heap.length
  accepted : W1.accepted = W2.accepted
  dequeued : W1.dequeued = W2.dequeued
  executed : W1.executed = W2.executed

/-- Two tasks are submitted and both are run, the first by worker 0 and the
second by worker 1; `other` is the callable of the second task. -/
def twoTasks (other : Unit → Outcome) : List Action :=
  [.submit (fun _ => .value 1), .submit other] ++ oneTask 1 ++ oneTask 0

/-- Whether an action is the destructor setting `stop`. -/
def Action.isShutdown : Action → Bool
  | .shutdown => true
  | _ => false

/-- What the workers do during the sleeps of a caller of `wait_all`: worker 0
dequeues and calls the task during the first sleep and decrements during the
second. -/
def duringWait : List (List Action) :=
  [[.worker 0, .worker 0], [.worker 0], [.worker 0]]

/-- The call `worker.joinable()` on element `w` of `workers`. -/
def joinable (w : Nat) (W : World) : Bool :=
  match W.pool.workers[w]? with
  | some wk => wk.joinable
  | none => false

/-- The library call `std::thread::join()` on a thread object.  On a thread
that is not joinable it throws `std::system_error`; on a joinable thread it
blocks (`none`) until the thread function has returned, and then it returns
and leaves the thread object non-joinable. -/
def thread_join (wk : Worker) : Option (Except Exn Worker) :=
  if !wk.joinable then some (.error ⟨"std::system_error", "Invalid argument"⟩)
  else if wk.pc = .exited then some (.ok { wk with joinable := false })
  else none

/-- What one pass of the join loop of the destructor did with its element:
the guard of line 134 was false and `join()` was not called, or `join()` was
called and returned, or `join()` was called and threw. -/
inductive JoinPass where
  | skipped
  | returned
  | threw (e : Exn)
deriving DecidableEq, Repr

/-- One pass of the loop of lines 133-137 on element `w` of `workers`, with
the branch it took: `if (worker.joinable()) worker.join();`.  The loop runs
after `stop` was set.  An exception that leaves the destructor ends the
process. -/
def join_pass (w : Nat) (W : World) : Option (JoinPass × World) :=
  if W.terminated || !W.pool.stop then none else
  match W.pool.workers[w]? with
  | none => none
  | some wk =>
    if wk.joinable then
      match thread_join wk with
      | none => none
      | some (.ok wk') =>
        some (.returned,
          { W with pool := { W.pool with workers := W.pool.workers.set w wk' } })
      | some (.error e) => some (.threw e, { W with terminated := true })
    else some (.skipped, W)

/-- The workers on which `worker.join()` was called while a schedule ran, in
the order of the calls: the passes of the join loop that did not skip their
element. -/
def joins : List Action → World → List Nat
  | [], _ => []
  | a :: rest, W =>
    match step a W with
    | none => joins rest W
    | some W' =>
      match a with
      | .join w =>
        match join_pass w W with
        | none => joins rest W'
        | some (.skipped, _) => joins rest W'
        | some (_, _) => w :: joins rest W'
      | _ => joins rest W'

/-- The steps of `~ThreadPool()` in program order: the critical section that
sets `stop`, then the join loop over `workers`. -/
def destructor (num_threads : Nat) : List Action :=
  .shutdown :: (List.range num_threads).map .join

/-- The function `factorial` of the demo (lines 160-173).  The result is an
`unsigned long long`, so every product of the loop is taken modulo `2 ^ 64`;
the loop variable `i` runs through `2, ..., n`.  The sleep before the return
has no effect on the value. -/
def factorial (n : Int) : Nat :=
  if n < 0 then 0
  else if n = 0 ∨ n = 1 then 1
  else (List.range' 2 (n.toNat - 1)).foldl (fun result i => result * i % 2 ^ 64) 1

/-- The method `pending_tasks()`: `tasks.size()`, read with the lock held. -/
def pending_tasks (W : World) : Nat :=
  W.pool.tasks.length

/-- The method `thread_count()`: `workers.size()`. -/
def thread_count (W : World) : Nat :=
  W.pool.workers.length

/-- A worker between its dequeue and its `active_tasks--`: it holds a task
whose call is still to be made or has just returned. -/
def busy (wk : Worker) : Bool :=
  match wk.pc with
  | .running _ => true
  | .finished _ => true
  | _ => false

/-- The number of workers between dequeue and decrement. -/
def busyWorkers (W : World) : Nat :=
  W.pool.workers.countP busy

/-- The operations of one pass through the loop of `worker_function`: `lock`
is the construction of the `unique_lock` (line 37), `wait` the return of
`condition.wait` (line 40), `ret` the `return` of line 46, `pop` lines 50-51,
`increment` line 54, `unlock` the end of the scope of the `unique_lock`
(line 55, or the unwinding of the `return`), `call` line 58 and `decrement`
line 61. -/
inductive Op where
  | lock
  | wait
  | ret
  | pop (task : Nat)
  | increment
  | unlock
  | call (task : Nat)
  | decrement
deriving DecidableEq, Repr

/-- One pass through the loop of `worker_function`, as the operations it
performs in program order, for the values of `stop` and `tasks` the worker sees
under the lock.  With the wait predicate false the worker stays in
`condition.wait`. -/
def worker_iteration (stop : Bool) (tasks : List Nat) : List Op :=
  if !(stop || !tasks.isEmpty) then [.lock]
  else if stop && tasks.isEmpty then [.lock, .wait, .unlock, .ret]
  else
    match tasks with
    | [] => [.lock]
    | task :: _ => [.lock, .wait, .pop task, .increment, .unlock, .call task, .decrement]

/-- Whether the thread holds `queue_mutex` after performing `ops`. -/
def lockHeld (ops : List Op) : Bool :=
  ops.foldl (fun held op =>
    match op with
    | .lock => true
    | .unlock => false
    | _ => held) false

/-- Whether the thread holds `queue_mutex` when it performs the operation at
position `k` of `ops`. -/
def heldAt (ops : List Op) (k : Nat) : Bool :=
  lockHeld (ops.take k)

/-- What an operation does to the queue and to the counter. -/
def Op.effect (P : Pool) : Op → Pool
  | .pop _ => { P with tasks := P.tasks.tail }
  | .increment => { P with active_tasks := P.active_tasks + 1 }
  | .decrement => { P with active_tasks := P.active_tasks - 1 }
  | _ => P

end ThreadPool

/-! # ThreadSafeQueue (lab5/task2.cpp) -/

namespace ThreadSafeQueue

/-- The data members of `ThreadSafeQueue<T>`: the queue (front first), the
shutdown flag and the capacity. -/
structure State (T : Type) where
  queue : List T
  shutdown_flag : Bool
  max_size : Nat

/-- The constructor `ThreadSafeQueue(size_t max_size)`: an empty queue that is
not shut down. -/
def init (T : Type) (max_size : Nat) : State T :=
  { queue := [], shutdown_flag := false, max_size := max_size }

/-- The method `push(value)`.  The whole body runs with the mutex held.  `none`
means the caller is blocked in `cond.wait` (the queue is full and not shut
down); otherwise the result is the returned `bool` and the state after. -/
def push {T : Type} (value : T) (s : State T) : Option (Bool × State T) :=
  if !(decide (s.queue.length < s.max_size) || s.shutdown_flag) then none
  else if s.shutdown_flag then some (false, s)
  else some (true, { s with queue := s.queue ++ [value] })

/-- The method `pop(value)`, `value` being what the caller's variable holds
before the call.  `none` means the caller is blocked in `cond.wait` (the queue
is empty and not shut down); otherwise the result is the returned `bool`, the
caller's variable after the call and the state after. -/
def pop {T : Type} (value : T) (s : State T) : Option (Bool × T × State T) :=
  if !(!s.queue.isEmpty || s.shutdown_flag) then none
  else if s.queue.isEmpty && s.shutdown_flag then some (false, value, s)
  else
    match s.queue with
    | [] => none
    | front :: rest => some (true, front, { s with queue := rest })

/-- The method `shutdown()`. -/
def shutdown {T : Type} (s : State T) : State T :=
  { s with shutdown_flag := true }

/-- The method `size()`. -/
def size {T : Type} (s : State T) : Nat :=
  s.queue.length

/-- A call of one thread on the queue; the variable a `pop` writes to holds
`init` before the call. -/
inductive Call (T : Type) where
  | push (value : T)
  | pop (init : T)
  | shutdown

/-- The state after a call, `none` while the caller is blocked. -/
def step {T : Type} : Call T → State T → Option (State T)
  | .push value, s => (push value s).map (fun r => r.2)
  | .pop value, s => (pop value s).map (fun r => r.2.2)
  | .shutdown, s => some (shutdown s)

/-- Run an interleaving of calls; a call that is blocked is skipped. -/
def run {T : Type} : List (Call T) → State T → State T
  | [], s => s
  | c :: rest, s =>
    match step c s with
    | some s' => run rest s'
    | none => run rest s

/-- Call `pop` again and again, at most `fuel` times, and collect the values
delivered, until a call returns `false` or blocks. -/
def drain {T : Type} : Nat → T → State T → List T
  | 0, _, _ => []
  | fuel + 1, value, s =>
    match pop value s with
    | some (true, v, s') => v :: drain fuel v s'
    | _ => []

end ThreadSafeQueue

/-! # PiCalculator::calculatePiParallel (lab5/task4.cpp), the integer bookkeeping -/

namespace PiCalculator

/-- How a call can end without a result: the `std::invalid_argument` of
line 85, or the integer modulo by zero of line 130, which is undefined
behaviour. -/
inductive Fault where
  | invalid_argument
  | modulo_by_zero
deriving DecidableEq, Repr

/-- The dispatch loop (lines 93-110), for the tasks still to create and the
current value of `remainder`: the `task_points` each task is created with. -/
def dispatch (points_per_task : Int) : Nat → Int → List Int
  | 0, _ => []
  | k + 1, remainder =>
    if remainder > 0 then (points_per_task + 1) :: dispatch points_per_task k (remainder - 1)
    else points_per_task :: dispatch points_per_task k remainder

/-- Whether the task created with `task_points` points fails:
`calculatePiPortion` throws exactly when its argument is not positive
(line 37), and `get()` rethrows. -/
def taskFails (task_points : Int) : Bool :=
  decide (task_points ≤ 0)

/-- The `task_points` the collection loop computes again for index `i`
(lines 120-123). -/
def recomputed (total_points num_tasks : Int) (i : Nat) : Int :=
  if (i : Int) < total_points % num_tasks then total_points / num_tasks + 1
  else total_points / num_tasks

/-- The collection loop (lines 116-140) from index `i` on, for the futures
still to visit, each given by the points its task was created with, and the
current value of `total_calculated_points`; `size` is `futures.size()`.  A task
that fails is skipped by the `catch`.  The result is the final
`total_calculated_points`. -/
def collect (total_points num_tasks : Int) (size : Nat) :
    List Int → Nat → Int → Except Fault Int
  | [], _, total_calculated_points => .ok total_calculated_points
  | dispatched :: rest, i, total_calculated_points =>
    if taskFails dispatched then
      collect total_points num_tasks size rest (i + 1) total_calculated_points
    else
      let task_points := recomputed total_points num_tasks i
      if total_points > 1000000 then
        if size / 10 = 0 then .error .modulo_by_zero
        else collect total_points num_tasks size rest (i + 1)
          (total_calculated_points + task_points)
      else collect total_points num_tasks size rest (i + 1)
        (total_calculated_points + task_points)

/-- The points the tasks of `calculatePiParallel(total_points, num_tasks)` are
created with. -/
def dispatched (total_points num_tasks : Int) : List Int :=
  dispatch (total_points / num_tasks) num_tasks.toNat (total_points % num_tasks)

/-- The method `calculatePiParallel(total_points, num_tasks)` as far as its
integers go: the value of `total_calculated_points` after the collection loop.
Both arguments are positive past line 86, so `/` and `%` are the C++ ones. -/
def calculatePiParallel (total_points num_tasks : Int) : Except Fault Int :=
  if total_points ≤ 0 ∨ num_tasks ≤ 0 then .error .invalid_argument
  else
    collect total_points num_tasks (dispatched total_points num_tasks).length
      (dispatched total_points num_tasks) 0 0

/-- The value of `total_calculated_points` at the moment the collection loop
is left, at its end or by the modulo by zero of line 130: within a pass,
line 125 adds the points of the current task before line 130 is reached. -/
def collected (total_points num_tasks : Int) (size : Nat) : List Int → Nat → Int → Int
  | [], _, total_calculated_points => total_calculated_points
  | dispatched :: rest, i, total_calculated_points =>
    if taskFails dispatched then
      collected total_points num_tasks size rest (i + 1) total_calculated_points
    else
      let task_points := recomputed total_points num_tasks i
      if total_points > 1000000 then
        if size / 10 = 0 then total_calculated_points + task_points
        else collected total_points num_tasks size rest (i + 1)
          (total_calculated_points + task_points)
      else collected total_points num_tasks size rest (i + 1)
        (total_calculated_points + task_points)

/-- The value of `total_calculated_points` at the moment the collection loop
of `calculatePiParallel(total_points, num_tasks)` is left, for arguments that
pass the test of line 84. -/
def total_calculated_points (total_points num_tasks : Int) : Int :=
  collected total_points num_tasks (dispatched total_points num_tasks).length
    (dispatched total_points num_tasks) 0 0

end PiCalculator

/-! # VectorSumCalculator (lab5/task1.cpp)

The `long long` sums are kept as unbounded integers: the elements are `int`s,
so no sum of fewer than `2 ^ 32` of them leaves the range of `long long`. -/

namespace VectorSumCalculator

/-- The method `calculateSingleThreaded()`: the loop of lines 42-44 over `data`. -/
def calculateSingleThreaded (data : List Int) : Int :=
  data.foldl (fun total_sum num => total_sum + num) 0

/-- The method `calculateUsingSTL()`: `std::accumulate` from `0LL`. -/
def calculateUsingSTL (data : List Int) : Int :=
  data.foldl (fun init x => init + x) 0

/-- The local sum of the lambda `calculate_chunk` (lines 60-65, 108-115): the
loop over `i` from `start_idx` up to `end_idx`, reading `data[i]`. -/
def calculate_chunk (data : List Int) (start_idx end_idx : Nat) : Int :=
  (List.range' start_idx (end_idx - start_idx)).foldl
    (fun local_sum i => local_sum + data.getD i 0) 0

/-- The loop that creates the threads (lines 75-87, 119-135), for the threads
still to create and the current `start_idx` and `remainder`: the pair
`(start_idx, end_idx)` each thread is started with. -/
def chunks (chunk_size : Nat) : Nat → Nat → Nat → List (Nat × Nat)
  | 0, _, _ => []
  | k + 1, start_idx, remainder =>
    if remainder > 0 then
      (start_idx, start_idx + chunk_size + 1) ::
        chunks chunk_size k (start_idx + chunk_size + 1) (remainder - 1)
    else
      (start_idx, start_idx + chunk_size) ::
        chunks chunk_size k (start_idx + chunk_size) remainder

/-- The chunks of a call with `num_threads` threads: `chunk_size` is
`data.size() / num_threads` and `remainder` starts as
`data.size() % num_threads`. -/
def chunkBounds (data : List Int) (num_threads : Nat) : List (Nat × Nat) :=
  chunks (data.length / num_threads) num_threads 0 (data.length % num_threads)

/-- The local sum thread `t` adds to `total_sum`. -/
def threadSum (data : List Int) (num_threads t : Nat) : Int :=
  match (chunkBounds data num_threads)[t]? with
  | some c => calculate_chunk data c.1 c.2
  | none => 0

/-- The method `calculateMultiThreaded(num_threads)`; `order` is the order in
which the threads take `sum_mutex` to add their local sum to `total_sum`. -/
def calculateMultiThreaded (data : List Int) (num_threads : Nat) (order : List Nat) : Int :=
  order.foldl (fun total_sum t => total_sum + threadSum data num_threads t) 0

/-- The method `calculateMultiThreadedOptimized(num_threads)`: thread `i`
stores its local sum in `partial_sums[i]`, and after the joins the partial
sums are added up in index order. -/
def calculateMultiThreadedOptimized (data : List Int) (num_threads : Nat) : Int :=
  ((chunkBounds data num_threads).map (fun c => calculate_chunk data c.1 c.2)).foldl
    (fun total_sum sum => total_sum + sum) 0

end VectorSumCalculator

/-! # ImageProcessor (lab5/task3.cpp)

An image is the list of its rows.  The threads of the two multi-threaded
filters read `image` only and write whole rows of `processed_image`, each row
by one thread; a schedule is the list of the thread indices in the order in
which the threads take their steps, one row per step. -/

namespace ImageProcessor

/-- The method `getPixel(x, y)`: the coordinates are clamped to the image and
the pixel is read. -/
def getPixel (image : List (List Int)) (width height : Int) (x y : Int) : Int :=
  let x := if x < 0 then 0 else x
  let x := if x ≥ width then width - 1 else x
  let y := if y < 0 then 0 else y
  let y := if y ≥ height then height - 1 else y
  (image.getD y.toNat []).getD x.toNat 0

/-- The method `blurPixel(x, y)`: the two loops over `dy` and `dx` from -1 to 1
add up nine pixels and count them; the result is the quotient of the `int`
division, which truncates. -/
def blurPixel (image : List (List Int)) (width height : Int) (x y : Int) : Int :=
  let sum := [-1, 0, 1].foldl (fun sum dy =>
    [-1, 0, 1].foldl (fun sum dx => sum + getPixel image width height (x + dx) (y + dy)) sum) 0
  let count := [-1, 0, 1].foldl (fun count (_ : Int) =>
    [-1, 0, 1].foldl (fun count (_ : Int) => count + 1) count) (0 : Int)
  Int.tdiv sum count

/-- The assignment `processed_image[y][x] = value`. -/
def setPixel (processed : List (List Int)) (y x : Nat) (value : Int) : List (List Int) :=
  processed.modify (fun row => row.set x value) y

/-- The inner loop over `x` for one row `y` (lines 77-79, 101-103, 148-150). -/
def processRow (image : List (List Int)) (width height : Nat) (processed : List (List Int))
    (y : Nat) : List (List Int) :=
  (List.range width).foldl
    (fun p x => setPixel p y x (blurPixel image width height x y)) processed

/-- The method `applyFilterSingleThread()`: the rows 0 to `height - 1` in turn. -/
def applyFilterSingleThread (image : List (List Int)) (width height : Nat)
    (processed : List (List Int)) : List (List Int) :=
  (List.range height).foldl (processRow image width height) processed

/-- The loop that creates the threads of `applyFilterMultiThread` (lines
108-120), for the threads still to create and the current `current_row` and
`remainder`: the pair `(start_row, end_row)` each thread is started with. -/
def rowChunks (rows_per_thread : Nat) : Nat → Nat → Nat → List (Nat × Nat)
  | 0, _, _ => []
  | k + 1, current_row, remainder =>
    if remainder > 0 then
      (current_row, current_row + rows_per_thread + 1) ::
        rowChunks rows_per_thread k (current_row + rows_per_thread + 1) (remainder - 1)
    else
      (current_row, current_row + rows_per_thread) ::
        rowChunks rows_per_thread k (current_row + rows_per_thread) remainder

/-- The threads of `applyFilterMultiThread` at some moment: for each thread the
loop variable `y` and the bound `end_row` of `process_chunk`; the processed
image; and the record of the rows written so far, in order. -/
structure MultiState where
  threads : List (Nat × Nat)
  processed : List (List Int)
  written : List Nat

/-- One step of thread `t` of `applyFilterMultiThread`: one pass of the loop
over `y` of `process_chunk`; a thread whose loop has ended does nothing. -/
def multiStep (image : List (List Int)) (width height : Nat) (st : MultiState) (t : Nat) :
    MultiState :=
  match st.threads[t]? with
  | some (y, end_row) =>
    if y < end_row then
      { threads := st.threads.set t (y + 1, end_row)
        processed := processRow image width height st.processed y
        written := st.written ++ [y] }
    else st
  | none => st

/-- The state in which `applyFilterMultiThread(num_threads)` starts its threads. -/
def multiInit (height num_threads : Nat) (processed : List (List Int)) : MultiState :=
  { threads := rowChunks (height / num_threads) num_threads 0 (height % num_threads)
    processed := processed
    written := [] }

/-- The state after the threads took their steps in the order `sched`. -/
def multiRun (image : List (List Int)) (width height num_threads : Nat) (sched : List Nat)
    (processed : List (List Int)) : MultiState :=
  sched.foldl (multiStep image width height) (multiInit height num_threads processed)

/-- The method `applyFilterMultiThread(num_threads)` under the schedule `sched`:
the joins return when every thread has ended its loop, and then
`processed_image` is the result; `none` if some thread has rows left when the
schedule is used up. -/
def applyFilterMultiThread (image : List (List Int)) (width height num_threads : Nat)
    (sched : List Nat) (processed : List (List Int)) : Option (List (List Int)) :=
  let final := multiRun image width height num_threads sched processed
  if final.threads.all (fun c => decide (c.2 ≤ c.1)) then some final.processed else none

/-- Where a thread of `applyFilterMultiThreadBalanced` is: before
`current_row.fetch_add(1)`, holding a row it fetched and has not written yet,
or past the `break`. -/
inductive Local where
  | fetching
  | writing (row : Nat)
  | finished
deriving DecidableEq, Repr

/-- The shared counter `current_row`, the threads, the processed image and
the record of the rows written so far. -/
structure BalancedState where
  current_row : Nat
  threads : List Local
  processed : List (List Int)
  written : List Nat

/-- One step of thread `t` of `applyFilterMultiThreadBalanced`: either the
atomic `fetch_add` with the test of line 146, or the loop over `x` that writes
the fetched row. -/
def balancedStep (image : List (List Int)) (width height : Nat) (st : BalancedState)
    (t : Nat) : BalancedState :=
  match st.threads[t]? with
  | some .fetching =>
    let row := st.current_row
    if row ≥ height then
      { st with current_row := st.current_row + 1, threads := st.threads.set t .finished }
    else
      { st with current_row := st.current_row + 1, threads := st.threads.set t (.writing row) }
  | some (.writing row) =>
    { st with
      threads := st.threads.set t .fetching
      processed := processRow image width height st.processed row
      written := st.written ++ [row] }
  | _ => st

/-- The state in which `applyFilterMultiThreadBalanced(num_threads)` starts. -/
def balancedInit (num_threads : Nat) (processed : List (List Int)) : BalancedState :=
  { current_row := 0
    threads := List.replicate num_threads .fetching
    processed := processed
    written := [] }

/-- The state after the threads took their steps in the order `sched`. -/
def balancedRun (image : List (List Int)) (width height num_threads : Nat) (sched : List Nat)
    (processed : List (List Int)) : BalancedState :=
  sched.foldl (balancedStep image width height) (balancedInit num_threads processed)

/-- The method `applyFilterMultiThreadBalanced(num_threads)` under the schedule
`sched`: the result once every thread is past its `break`, `none` if some
thread is not when the schedule is used up. -/
def applyFilterMultiThreadBalanced (image : List (List Int)) (width height num_threads : Nat)
    (sched : List Nat) (processed : List (List Int)) : Option (List (List Int)) :=
  let final := balancedRun image width height num_threads sched processed
  if final.threads.all (fun l => decide (l = .finished)) then some final.processed else none

/-- The image `p` has `height` rows of `width` pixels each. -/
def Sized (width height : Nat) (p : List (List Int)) : Prop :=
  p.length = height ∧ ∀ row ∈ p, row.length = width

/-- The rows the threads of `applyFilterMultiThread` still have to write. -/
def remaining (threads : List (Nat × Nat)) : List Nat :=
  threads.flatMap (fun c => List.range' c.1 (c.2 - c.1))

/-- The row a thread of `applyFilterMultiThreadBalanced` has fetched and not
written yet, if any. -/
def heldRow : Local → Option Nat
  | .writing row => some row
  | _ => none

/-- A row of the blurred image. -/
def blurRow (image : List (List Int)) (width height : Nat) (y : Nat) : List Int :=
  (List.range width).map (fun (x : Nat) => blurPixel image width height x y)

/-- The blurred image: pixel `(x, y)` is `blurPixel(x, y)`. -/
def blurred (image : List (List Int)) (width height : Nat) : List (List Int) :=
  (List.range height).map (blurRow image width height)

/-- A schedule that runs the threads of `applyFilterMultiThread` one after the
other, thread `first` and its successors, each for the rows it has. -/
def oneByOne (first : Nat) : List (Nat × Nat) → List Nat
  | [] => []
  | c :: rest => List.replicate (c.2 - c.1) first ++ oneByOne (first + 1) rest

/-- A schedule for `applyFilterMultiThreadBalanced`: thread 0 fetches and writes
every row and then fetches once more, after which each other thread fetches
once. -/
def firstTakesAll (height num_threads : Nat) : List Nat :=
  List.replicate (2 * height + 1) 0 ++ List.range' 1 (num_threads - 1)

end ImageProcessor

/-! ## Invariants of the reachable states -/

namespace ThreadPool

theorem workers_split {l : List Worker} {w : Nat} {wk : Worker} (g : Worker → Worker)
    (h : l[w]? = some wk) :
    ∃ l1 l2, l = l1 ++ wk :: l2 ∧ l1.length = w ∧ l.modify g w = l1 ++ g wk :: l2 := by
  have hw : w < l.length := by
    rcases Nat.lt_or_ge w l.length with h1 | h1
    · exact h1
    · rw [List.getElem?_eq_none h1] at h; cases h
  obtain ⟨l1, a, l2, h1, h2, h3⟩ := List.exists_of_modify g hw
  have : a = wk := by
    subst h1
    rw [List.getElem?_append_right (by omega)] at h
    simp [h2] at h
    exact h
  subst this
  exact ⟨l1, l2, h1, h2, h3⟩

theorem inv_init (n : Nat) : Inv (init n) := by
  refine ⟨rfl, rfl, rfl, ?_, ?_, ?_, ?_⟩
  · have : inFlight (init n) = [] := by
      simp [inFlight, init, List.filterMap_replicate, heldTask]
    rw [this]; exact List.Perm.refl _
  · intro t p h; simp [init] at h
  · intro t p h; simp [init] at h
  · intro wk h hp
    simp [init, List.mem_replicate] at h
    rw [h.2] at hp; cases hp

theorem executed_lt {W : World} (h : Inv W) {t : Nat} (ht : t ∈ W.executed) :
    t < W.heap.length := by
  have h1 : t ∈ W.dequeued := h.flight.symm.subset (List.mem_append_right _ ht)
  have h2 : t ∈ W.accepted := by rw [h.fifo]; exact List.mem_append_left _ h1
  rw [h.acc] at h2
  exact List.mem_range.mp h2

theorem inv_submit {W : World} (h : Inv W) (fn : Unit → Outcome) :
    Inv (submit fn () W).2 := by
  unfold submit
  by_cases hs : W.pool.stop = true
  · simpa [hs] using h
  · simp only [hs, Bool.false_eq_true, if_false]
    refine ⟨h.alive, ?_, ?_, ?_, ?_, ?_, ?_⟩
    · simp [h.acc, List.range_succ]
    · simp [h.fifo]
    · exact h.flight
    · intro t p hp ht
      have hlt := executed_lt h ht
      simp only [] at hp ht
      rw [List.getElem?_append_left hlt] at hp
      exact h.resolved t p hp ht
    · intro t p hp ht
      simp only [] at hp ht
      rcases Nat.lt_or_ge t W.heap.length with hlt | hge
      · rw [List.getElem?_append_left hlt] at hp
        exact h.pending t p hp ht
      · rw [List.getElem?_append_right hge] at hp
        rcases Nat.eq_zero_or_pos (t - W.heap.length) with h0 | h0
        · rw [h0] at hp; simp at hp; rw [← hp]
        · rw [List.getElem?_eq_none (by simp only [List.length_singleton]; omega)] at hp; cases hp
    · intro wk hwk hpc
      have := h.drained wk hwk hpc
      exact absurd this.1 hs

theorem held_keep {l : List Worker} {w : Nat} {wk : Worker} (g : Worker → Worker)
    (h : l[w]? = some wk) (h1 : heldTask wk = none) (h2 : heldTask (g wk) = none) :
    (l.modify g w).filterMap heldTask = l.filterMap heldTask := by
  obtain ⟨l1, l2, e1, _, e2⟩ := workers_split g h
  rw [e2, e1]
  simp [List.filterMap_append, List.filterMap_cons, h1, h2]

theorem held_take {l : List Worker} {w : Nat} {wk : Worker} (g : Worker → Worker) {t : Nat}
    (h : l[w]? = some wk) (h1 : heldTask wk = none) (h2 : heldTask (g wk) = some t) :
    List.Perm ((l.modify g w).filterMap heldTask) (t :: l.filterMap heldTask) := by
  obtain ⟨l1, l2, e1, _, e2⟩ := workers_split g h
  rw [e2, e1]
  simp only [List.filterMap_append, List.filterMap_cons, h1, h2]
  exact List.perm_middle

theorem held_drop {l : List Worker} {w : Nat} {wk : Worker} (g : Worker → Worker) {t : Nat}
    (h : l[w]? = some wk) (h1 : heldTask wk = some t) (h2 : heldTask (g wk) = none) :
    List.Perm (l.filterMap heldTask) (t :: (l.modify g w).filterMap heldTask) := by
  obtain ⟨l1, l2, e1, _, e2⟩ := workers_split g h
  rw [e2, e1]
  simp only [List.filterMap_append, List.filterMap_cons, h1, h2]
  exact List.perm_middle

theorem mem_modify {l : List Worker} {w : Nat} {wk x : Worker} (g : Worker → Worker)
    (h : l[w]? = some wk) (hx : x ∈ l.modify g w) : x ∈ l ∨ x = g wk := by
  obtain ⟨l1, l2, e1, _, e2⟩ := workers_split g h
  rw [e2] at hx
  rw [e1]
  simp only [List.mem_append, List.mem_cons] at hx ⊢
  tauto

theorem dequeued_nodup {W : World} (h : Inv W) : W.dequeued.Nodup := by
  have h1 : W.accepted.Nodup := by rw [h.acc]; exact List.nodup_range _
  rw [h.fifo] at h1
  exact (List.nodup_append.mp h1).1

theorem held_mem {l : List Worker} {w : Nat} {wk : Worker} {t : Nat}
    (h : l[w]? = some wk) (h1 : wk.pc = .running t) : t ∈ l.filterMap heldTask := by
  rw [List.mem_filterMap]
  exact ⟨wk, List.getElem?_mem h, by simp [heldTask, h1]⟩

theorem running_fresh {W : World} (h : Inv W) {w : Nat} {wk : Worker} {t : Nat}
    (hw : W.pool.workers[w]? = some wk) (hpc : wk.pc = .running t) :
    t ∉ W.executed ∧ t < W.heap.length := by
  have h1 : (inFlight W ++ W.executed).Nodup := h.flight.nodup_iff.mp (dequeued_nodup h)
  have h2 : t ∈ inFlight W := held_mem hw hpc
  constructor
  · intro h3
    exact (List.nodup_append.mp h1).2.2 h2 h3
  · have h3 : t ∈ W.dequeued := h.flight.symm.subset (List.mem_append_left _ h2)
    have h4 : t ∈ W.accepted := by rw [h.fifo]; exact List.mem_append_left _ h3
    rw [h.acc] at h4
    exact List.mem_range.mp h4

theorem worker_function_cases {w : Nat} {W W' : World}
    (h : worker_function w W = some W') :
    W.terminated = false ∧ ∃ wk, W.pool.workers[w]? = some wk ∧ WorkerMove w W wk W' := by
  unfold worker_function at h
  by_cases ht : W.terminated = true
  · simp [ht] at h
  · rw [if_neg ht] at h
    refine ⟨by simpa using ht, ?_⟩
    cases hw : W.pool.workers[w]? with
    | none => simp [hw] at h
    | some wk =>
      refine ⟨wk, rfl, ?_⟩
      simp only [hw] at h
      cases hpc : wk.pc with
      | waiting =>
        simp only [hpc] at h
        cases hq : W.pool.tasks with
        | nil =>
          cases hs : W.pool.stop with
          | false => simp [hq, hs] at h
          | true =>
            simp [hq, hs] at h
            subst h
            exact WorkerMove.exit hpc hs hq
        | cons t rest =>
          simp [hq] at h
          subst h
          exact WorkerMove.dequeue t rest hpc hq
      | running t =>
        simp only [hpc] at h
        cases hp : W.heap[t]? with
        | none => simp [hp] at h
        | some p =>
          simp only [hp] at h
          cases hn : p.state with
          | none =>
            simp [PackagedTask.invoke, hn] at h
            subst h
            exact WorkerMove.call t p hpc hp hn
          | some o =>
            simp [PackagedTask.invoke, hn] at h
            subst h
            exact WorkerMove.escape t p o hpc hp hn
      | finished t =>
        simp only [hpc] at h
        simp at h
        subst h
        exact WorkerMove.decrement t hpc
      | exited => simp [hpc] at h

theorem no_escape {W : World} (h : Inv W) {w : Nat} {wk : Worker} {t : Nat}
    {p : PackagedTask} (hw : W.pool.workers[w]? = some wk) (hpc : wk.pc = .running t)
    (hp : W.heap[t]? = some p) : p.state = none :=
  h.pending t p hp (running_fresh h hw hpc).1

theorem inv_worker {W W' : World} {w : Nat} (h : Inv W)
    (hstep : worker_function w W = some W') : Inv W' := by
  obtain ⟨_, wk, hw, hm⟩ := worker_function_cases hstep
  cases hm with
  | exit hpc hs hq =>
    refine ⟨h.alive, h.acc, h.fifo, ?_, h.resolved, h.pending, ?_⟩
    · have e : inFlight { W with pool := setPC W.pool w .exited } = inFlight W :=
        held_keep _ hw (by simp [heldTask, hpc]) (by simp [heldTask])
      rw [e]; exact h.flight
    · intro x _ _; exact ⟨hs, hq⟩
  | dequeue t rest hpc hq =>
    refine ⟨h.alive, h.acc, ?_, ?_, h.resolved, h.pending, ?_⟩
    · have := h.fifo
      rw [hq] at this
      simpa using this
    · have e : List.Perm
          (inFlight { W with
            pool := setPC { W.pool with tasks := rest
                                        active_tasks := W.pool.active_tasks + 1 }
                      w (.running t)
            dequeued := W.dequeued ++ [t] })
          (t :: inFlight W) :=
        held_take _ hw (by simp [heldTask, hpc]) (by simp [heldTask])
      refine List.Perm.trans ?_ (List.Perm.append_right _ e.symm)
      refine List.Perm.trans (List.perm_append_comm) ?_
      exact List.Perm.cons t h.flight
    · intro x hx hxpc
      rcases mem_modify _ hw hx with hx1 | hx1
      · have := (h.drained x hx1 hxpc).2
        rw [hq] at this; cases this
      · rw [hx1] at hxpc; cases hxpc
  | call t p hpc hp hn =>
    have hfresh := running_fresh h hw hpc
    refine ⟨h.alive, ?_, h.fifo, ?_, ?_, ?_, ?_⟩
    · simpa using h.acc
    · have e : List.Perm (inFlight W)
          (t :: inFlight { W with
            heap := W.heap.set t { p with state := some (p.fn ()) }
            pool := setPC W.pool w (.finished t)
            executed := W.executed ++ [t] }) :=
        held_drop _ hw (by simp [heldTask, hpc]) (by simp [heldTask])
      refine h.flight.trans ((List.Perm.append_right _ e).trans ?_)
      rw [← List.append_assoc]
      exact (List.perm_append_singleton _ _).symm
    · intro t' p' hp' ht'
      simp only [] at hp' ht'
      by_cases e : t = t'
      · subst e
        rw [List.getElem?_set_self hfresh.2] at hp'
        cases hp'; rfl
      · rw [List.getElem?_set_ne e] at hp'
        refine h.resolved t' p' hp' ?_
        rcases List.mem_append.mp ht' with h1 | h1
        · exact h1
        · simp at h1; exact absurd h1.symm e
    · intro t' p' hp' ht'
      simp only [] at hp' ht'
      by_cases e : t = t'
      · subst e; simp at ht'
      · rw [List.getElem?_set_ne e] at hp'
        exact h.pending t' p' hp' (fun h1 => ht' (List.mem_append_left _ h1))
    · intro x hx hxpc
      rcases mem_modify _ hw hx with hx1 | hx1
      · exact h.drained x hx1 hxpc
      · rw [hx1] at hxpc; cases hxpc
  | escape t p o hpc hp hn =>
    rw [no_escape h hw hpc hp] at hn; cases hn
  | decrement t hpc =>
    refine ⟨h.alive, h.acc, h.fifo, ?_, h.resolved, h.pending, ?_⟩
    · have e : inFlight { W with
          pool := setPC { W.pool with active_tasks := W.pool.active_tasks - 1 }
                    w .waiting } = inFlight W :=
        held_keep _ hw (by simp [heldTask, hpc]) (by simp [heldTask])
      rw [e]; exact h.flight
    · intro x hx hxpc
      rcases mem_modify _ hw hx with hx1 | hx1
      · exact h.drained x hx1 hxpc
      · rw [hx1] at hxpc; cases hxpc

theorem inv_stop {W : World} (h : Inv W) : Inv (destructor_stop W) :=
  ⟨h.alive, h.acc, h.fifo, h.flight, h.resolved, h.pending,
    fun x hx hxpc => ⟨rfl, (h.drained x hx hxpc).2⟩⟩

theorem inv_join {W W' : World} {w : Nat} (h : Inv W)
    (hstep : destructor_join w W = some W') : Inv W' := by
  unfold destructor_join at hstep
  split at hstep
  · cases hstep
  · cases hw : W.pool.workers[w]? with
    | none => simp [hw] at hstep
    | some wk =>
      simp only [hw] at hstep
      split at hstep
      · cases hstep; exact h
      · split at hstep
        · cases hstep
          refine ⟨h.alive, h.acc, h.fifo, ?_, h.resolved, h.pending, ?_⟩
          · have e : inFlight { W with
                pool := { W.pool with
                  workers := W.pool.workers.modify
                    (fun x => { x with joinable := false }) w } } = inFlight W :=
              held_keep _ hw (by simp [heldTask, *]) (by simp [heldTask, *])
            rw [e]; exact h.flight
          · intro x hx hxpc
            rcases mem_modify _ hw hx with hx1 | hx1
            · exact h.drained x hx1 hxpc
            · exact h.drained wk (List.getElem?_mem hw) (by assumption)
        · cases hstep

theorem inv_step {W W' : World} {a : Action} (h : Inv W) (hstep : step a W = some W') :
    Inv W' := by
  cases a with
  | submit fn =>
    simp only [step] at hstep
    split at hstep
    · cases hstep
    · cases hstep; exact inv_submit h fn
  | worker w => exact inv_worker h hstep
  | shutdown =>
    simp only [step] at hstep
    split at hstep
    · cases hstep
    · cases hstep; exact inv_stop h
  | join w => exact inv_join h hstep

/-- A property that holds initially and is kept by every step holds after
every schedule. -/
theorem run_induction {P : World → Prop} (hstep : ∀ a W W', P W → step a W = some W' → P W')
    (sched : List Action) : ∀ W, P W → P (run sched W) := by
  induction sched with
  | nil => intro W h; exact h
  | cons a rest ih =>
    intro W h
    simp only [run]
    cases hs : step a W with
    | none => exact ih W h
    | some W' => exact ih W' (hstep a W W' h hs)

theorem inv_run {W : World} (h : Inv W) (sched : List Action) : Inv (run sched W) :=
  run_induction (fun _ _ _ hW hs => inv_step hW hs) sched W h

theorem inv_reachable {n : Nat} {W : World} (h : Reachable n W) : Inv W := by
  obtain ⟨sched, rfl⟩ := h
  exact inv_run (inv_init n) sched

theorem run_append (s1 s2 : List Action) (W : World) :
    run (s1 ++ s2) W = run s2 (run s1 W) := by
  induction s1 generalizing W with
  | nil => rfl
  | cons a rest ih =>
    simp only [List.cons_append, run]
    cases step a W <;> exact ih _

theorem reachable_run {n : Nat} {W : World} (h : Reachable n W) (sched : List Action) :
    Reachable n (run sched W) := by
  obtain ⟨s0, rfl⟩ := h
  exact ⟨s0 ++ sched, run_append s0 sched _⟩

theorem workers_length_step {a : Action} {W W' : World} (h : step a W = some W') :
    W'.pool.workers.length = W.pool.workers.length := by
  cases a with
  | submit fn =>
    simp only [step] at h
    split at h
    · cases h
    · cases h; unfold submit; split <;> rfl
  | worker w =>
    obtain ⟨_, wk, _, hm⟩ := worker_function_cases h
    cases hm <;> simp [setPC]
  | shutdown =>
    simp only [step] at h
    split at h
    · cases h
    · cases h; rfl
  | join w =>
    simp only [step] at h
    unfold destructor_join at h
    split at h
    · cases h
    · split at h
      · cases h
      · split at h
        · cases h; rfl
        · split at h
          · cases h; simp
          · cases h

theorem workers_length {n : Nat} {W : World} (h : Reachable n W) :
    W.pool.workers.length = n := by
  obtain ⟨sched, rfl⟩ := h
  refine run_induction (P := fun W => W.pool.workers.length = n) ?_ sched (init n) ?_
  · intro a W W' hW hs
    rw [workers_length_step hs]; exact hW
  · simp [init]

theorem held_by_one {l : List Worker} (hn : (l.filterMap heldTask).Nodup)
    {w1 w2 : Nat} {wk1 wk2 : Worker} {t : Nat}
    (h1 : l[w1]? = some wk1) (h2 : l[w2]? = some wk2)
    (p1 : wk1.pc = .running t) (p2 : wk2.pc = .running t) : w1 = w2 := by
  induction l generalizing w1 w2 with
  | nil => simp at h1
  | cons x rest ih =>
    cases w1 with
    | zero =>
      cases w2 with
      | zero => rfl
      | succ j =>
        exfalso
        simp only [List.getElem?_cons_zero, Option.some.injEq] at h1
        simp only [List.getElem?_cons_succ] at h2
        subst h1
        have hx : heldTask x = some t := by simp [heldTask, p1]
        rw [List.filterMap_cons, hx] at hn
        exact (List.nodup_cons.mp hn).1 (held_mem h2 p2)
    | succ i =>
      cases w2 with
      | zero =>
        exfalso
        simp only [List.getElem?_cons_zero, Option.some.injEq] at h2
        simp only [List.getElem?_cons_succ] at h1
        subst h2
        have hx : heldTask x = some t := by simp [heldTask, p2]
        rw [List.filterMap_cons, hx] at hn
        exact (List.nodup_cons.mp hn).1 (held_mem h1 p1)
      | succ j =>
        simp only [List.getElem?_cons_succ] at h1 h2
        have hn' : (rest.filterMap heldTask).Nodup := by
          rw [List.filterMap_cons] at hn
          cases hx : heldTask x with
          | none => rw [hx] at hn; exact hn
          | some u => rw [hx] at hn; exact (List.nodup_cons.mp hn).2
        rw [ih hn' h1 h2]

theorem places_perm {W : World} (h : Inv W) :
    List.Perm W.accepted (W.pool.tasks ++ inFlight W ++ W.executed) := by
  rw [h.fifo, List.append_assoc]
  exact List.perm_append_comm.trans (List.Perm.append_left _ h.flight)

theorem fn_stable_step {a : Action} {W W' : World} (h : step a W = some W')
    {t : Nat} {p : PackagedTask} (hp : W.heap[t]? = some p) :
    ∃ p', W'.heap[t]? = some p' ∧ p'.fn = p.fn := by
  have hlt : t < W.heap.length := by
    rcases Nat.lt_or_ge t W.heap.length with h1 | h1
    · exact h1
    · rw [List.getElem?_eq_none h1] at hp; cases hp
  cases a with
  | submit fn =>
    simp only [step] at h
    split at h
    · cases h
    · cases h
      unfold submit
      split
      · exact ⟨p, hp, rfl⟩
      · exact ⟨p, by simp only []; rw [List.getElem?_append_left hlt]; exact hp, rfl⟩
  | worker w =>
    obtain ⟨_, wk, _, hm⟩ := worker_function_cases h
    cases hm with
    | exit _ _ _ => exact ⟨p, hp, rfl⟩
    | dequeue _ _ _ _ => exact ⟨p, hp, rfl⟩
    | call t' q _ hq _ =>
      by_cases e : t' = t
      · subst e
        rw [hp] at hq; cases hq
        exact ⟨{ p with state := some (p.fn ()) },
          by simp only []; rw [List.getElem?_set_self hlt], rfl⟩
      · exact ⟨p, by simp only []; rw [List.getElem?_set_ne e]; exact hp, rfl⟩
    | escape _ _ _ _ _ _ => exact ⟨p, hp, rfl⟩
    | decrement _ _ => exact ⟨p, hp, rfl⟩
  | shutdown =>
    simp only [step] at h
    split at h
    · cases h
    · cases h; exact ⟨p, hp, rfl⟩
  | join w =>
    simp only [step] at h
    unfold destructor_join at h
    split at h
    · cases h
    · split at h
      · cases h
      · split at h
        · cases h; exact ⟨p, hp, rfl⟩
        · split at h
          · cases h; exact ⟨p, hp, rfl⟩
          · cases h

theorem fn_stable_run (sched : List Action) (W : World) {t : Nat} {p : PackagedTask}
    (hp : W.heap[t]? = some p) :
    ∃ p', (run sched W).heap[t]? = some p' ∧ p'.fn = p.fn := by
  refine run_induction (P := fun V => ∃ p', V.heap[t]? = some p' ∧ p'.fn = p.fn)
    ?_ sched W ⟨p, hp, rfl⟩
  intro a V V' ⟨q, hq, hfn⟩ hs
  obtain ⟨q', hq', hfn'⟩ := fn_stable_step hs hq
  exact ⟨q', hq', hfn'.trans hfn⟩

theorem get_of_inv {W : World} (h : Inv W) {t : Nat} {p : PackagedTask}
    (hp : W.heap[t]? = some p) :
    get t W = if t ∈ W.executed then some (p.fn ()) else none := by
  unfold get
  rw [hp]
  by_cases he : t ∈ W.executed
  · simp only [he, if_true]; exact h.resolved t p hp he
  · simp only [he, if_false]; exact h.pending t p hp he

theorem reachable_submit {n : Nat} {W : World} (h : Reachable n W) {α : Type}
    (f : α → Outcome) (args : α) : Reachable n (submit f args W).2 := by
  have hi := inv_reachable h
  have e : run [.submit (bind f args)] W = (submit f args W).2 := by
    simp only [run, step, hi.alive, Bool.false_eq_true, if_false]
    rfl
  rw [← e]
  exact reachable_run h _

theorem setPC_get (P : Pool) (w : Nat) (pc : WorkerPC) {wk : Worker}
    (h : P.workers[w]? = some wk) :
    (setPC P w pc).workers[w]? = some { wk with pc := pc } := by
  simp [setPC, List.getElem?_modify_eq, h]

theorem worker_call {W : World} (h : Inv W) {w : Nat} {wk : Worker} {t : Nat}
    {p : PackagedTask} (hw : W.pool.workers[w]? = some wk) (hpc : wk.pc = .running t)
    (hp : W.heap[t]? = some p) :
    worker_function w W = some { W with
      heap := W.heap.set t { p with state := some (p.fn ()) }
      pool := setPC W.pool w (.finished t)
      executed := W.executed ++ [t] } := by
  have hn := no_escape h hw hpc hp
  unfold worker_function
  simp [h.alive, hw, hpc, hp, PackagedTask.invoke, hn]

theorem worker_decrement {W : World} (ha : W.terminated = false) {w : Nat} {wk : Worker}
    {t : Nat} (hw : W.pool.workers[w]? = some wk) (hpc : wk.pc = .finished t) :
    worker_function w W = some { W with
      pool := setPC { W.pool with active_tasks := W.pool.active_tasks - 1 } w .waiting } := by
  unfold worker_function
  simp [ha, hw, hpc]

theorem worker_dequeue {W : World} (ha : W.terminated = false) {w : Nat} {wk : Worker}
    {task : Nat} {rest : List Nat} (hw : W.pool.workers[w]? = some wk)
    (hpc : wk.pc = .waiting) (hq : W.pool.tasks = task :: rest) :
    worker_function w W = some { W with
      pool := setPC { W.pool with tasks := rest
                                  active_tasks := W.pool.active_tasks + 1 }
                w (.running task)
      dequeued := W.dequeued ++ [task] } := by
  unfold worker_function
  simp [ha, hw, hpc, hq]

theorem worker_exit {W : World} (ha : W.terminated = false) {w : Nat} {wk : Worker}
    (hw : W.pool.workers[w]? = some wk) (hpc : wk.pc = .waiting)
    (hs : W.pool.stop = true) (hq : W.pool.tasks = []) :
    worker_function w W = some { W with pool := setPC W.pool w .exited } := by
  unfold worker_function
  simp [ha, hw, hpc, hq, hs]

theorem worker_blocked {W : World} {w : Nat} {wk : Worker}
    (hw : W.pool.workers[w]? = some wk) (hpc : wk.pc = .waiting)
    (hs : W.pool.stop = false) (hq : W.pool.tasks = []) :
    worker_function w W = none := by
  unfold worker_function
  simp [hw, hpc, hq, hs]

theorem worker_gone {W : World} {w : Nat} {wk : Worker}
    (hw : W.pool.workers[w]? = some wk) (hpc : wk.pc = .exited) :
    worker_function w W = none := by
  unfold worker_function
  simp [hw, hpc]

theorem worker_absent {W : World} {w : Nat} (hw : W.pool.workers[w]? = none) :
    worker_function w W = none := by
  unfold worker_function
  simp [hw]

theorem sim_worker {W1 W2 : World} (i1 : Inv W1) (i2 : Inv W2) (hs : Sim W1 W2) (w : Nat) :
    (worker_function w W1 = none ∧ worker_function w W2 = none) ∨
    ∃ V1 V2, worker_function w W1 = some V1 ∧ worker_function w W2 = some V2 ∧ Sim V1 V2 := by
  have hp := hs.pool
  cases hw : W1.pool.workers[w]? with
  | none =>
    exact Or.inl ⟨worker_absent hw, worker_absent (by rw [← hp]; exact hw)⟩
  | some wk =>
    have hw2 : W2.pool.workers[w]? = some wk := by rw [← hp]; exact hw
    cases hpc : wk.pc with
    | waiting =>
      cases hq : W1.pool.tasks with
      | nil =>
        have hq2 : W2.pool.tasks = [] := by rw [← hp]; exact hq
        cases hst : W1.pool.stop with
        | false =>
          exact Or.inl ⟨worker_blocked hw hpc hst hq,
            worker_blocked hw2 hpc (by rw [← hp]; exact hst) hq2⟩
        | true =>
          refine Or.inr ⟨_, _, worker_exit i1.alive hw hpc hst hq,
            worker_exit i2.alive hw2 hpc (by rw [← hp]; exact hst) hq2, ?_⟩
          exact ⟨by simp only [hp], hs.terminated, hs.heap, hs.accepted, hs.dequeued,
            hs.executed⟩
      | cons task rest =>
        have hq2 : W2.pool.tasks = task :: rest := by rw [← hp]; exact hq
        refine Or.inr ⟨_, _, worker_dequeue i1.alive hw hpc hq,
          worker_dequeue i2.alive hw2 hpc hq2, ?_⟩
        exact ⟨by simp only [hp], hs.terminated, hs.heap, hs.accepted,
          by simp only [hs.dequeued], hs.executed⟩
    | running t =>
      have hl1 := (running_fresh i1 hw hpc).2
      have hl2 := (running_fresh i2 hw2 hpc).2
      refine Or.inr ⟨_, _, worker_call i1 hw hpc (List.getElem?_eq_getElem hl1),
        worker_call i2 hw2 hpc (List.getElem?_eq_getElem hl2), ?_⟩
      exact ⟨by simp only [hp], hs.terminated, by simp [hs.heap], hs.accepted, hs.dequeued,
        by simp only [hs.executed]⟩
    | finished t =>
      refine Or.inr ⟨_, _, worker_decrement i1.alive hw hpc,
        worker_decrement i2.alive hw2 hpc, ?_⟩
      exact ⟨by simp only [hp], hs.terminated, hs.heap, hs.accepted, hs.dequeued,
        hs.executed⟩
    | exited =>
      exact Or.inl ⟨worker_gone hw hpc, worker_gone hw2 hpc⟩


theorem sim_join {W1 W2 : World} (hs : Sim W1 W2) (w : Nat) :
    (destructor_join w W1 = none ∧ destructor_join w W2 = none) ∨
    ∃ V1 V2, destructor_join w W1 = some V1 ∧ destructor_join w W2 = some V2 ∧ Sim V1 V2 := by
  have hp := hs.pool
  have ht := hs.terminated
  unfold destructor_join
  rw [← hp, ← ht]
  split
  · exact Or.inl ⟨rfl, rfl⟩
  · cases hw : W1.pool.workers[w]? with
    | none => exact Or.inl ⟨rfl, rfl⟩
    | some wk =>
      simp only []
      split
      · exact Or.inr ⟨_, _, rfl, rfl, hs⟩
      · split
        · exact Or.inr ⟨_, _, rfl, rfl,
            ⟨rfl, rfl, hs.heap, hs.accepted, hs.dequeued, hs.executed⟩⟩
        · exact Or.inl ⟨rfl, rfl⟩

theorem sim_submit {W1 W2 : World} (hs : Sim W1 W2) (f g : Unit → Outcome) :
    Sim (submit f () W1).2 (submit g () W2).2 := by
  have hp := hs.pool
  unfold submit
  rw [← hp]
  split
  · exact hs
  · exact ⟨by simp only [hs.heap, ← hp], hs.terminated, by simp [hs.heap],
      by simp only [hs.accepted, hs.heap], hs.dequeued, hs.executed⟩

theorem sim_step {W1 W2 : World} (i1 : Inv W1) (i2 : Inv W2) (hs : Sim W1 W2)
    {a b : Action} (hab : a.sameThread b = true) :
    (step a W1 = none ∧ step b W2 = none) ∨
    ∃ V1 V2, step a W1 = some V1 ∧ step b W2 = some V2 ∧ Sim V1 V2 := by
  cases a with
  | submit f =>
    cases b with
    | submit g =>
      refine Or.inr ⟨_, _, ?_, ?_, sim_submit hs f g⟩
      · simp [step, i1.alive]
      · simp [step, i2.alive]
    | worker v => simp [Action.sameThread] at hab
    | shutdown => simp [Action.sameThread] at hab
    | join v => simp [Action.sameThread] at hab
  | worker w =>
    cases b with
    | submit g => simp [Action.sameThread] at hab
    | worker v =>
      simp [Action.sameThread] at hab
      subst hab
      exact sim_worker i1 i2 hs w
    | shutdown => simp [Action.sameThread] at hab
    | join v => simp [Action.sameThread] at hab
  | shutdown =>
    cases b with
    | submit g => simp [Action.sameThread] at hab
    | worker v => simp [Action.sameThread] at hab
    | shutdown =>
      refine Or.inr ⟨destructor_stop W1, destructor_stop W2, ?_, ?_, ?_⟩
      · simp [step, i1.alive]
      · simp [step, i2.alive]
      · exact ⟨by simp only [destructor_stop, hs.pool], hs.terminated, hs.heap, hs.accepted,
          hs.dequeued, hs.executed⟩
    | join v => simp [Action.sameThread] at hab
  | join w =>
    cases b with
    | submit g => simp [Action.sameThread] at hab
    | worker v => simp [Action.sameThread] at hab
    | shutdown => simp [Action.sameThread] at hab
    | join v =>
      simp [Action.sameThread] at hab
      subst hab
      exact sim_join hs w

theorem sim_run (s1 : List Action) : ∀ (s2 : List Action) (W1 W2 : World), Inv W1 → Inv W2 →
    Sim W1 W2 → sameSchedule s1 s2 = true → Sim (run s1 W1) (run s2 W2) := by
  induction s1 with
  | nil =>
    intro s2 W1 W2 _ _ hs h
    cases s2 with
    | nil => exact hs
    | cons b s2 => simp [sameSchedule] at h
  | cons a s1 ih =>
    intro s2 W1 W2 i1 i2 hs h
    cases s2 with
    | nil => simp [sameSchedule] at h
    | cons b s2 =>
      simp only [sameSchedule, Bool.and_eq_true] at h
      rcases sim_step i1 i2 hs h.1 with ⟨e1, e2⟩ | ⟨V1, V2, e1, e2, hV⟩
      · simp only [run, e1, e2]
        exact ih s2 W1 W2 i1 i2 hs h.2
      · simp only [run, e1, e2]
        exact ih s2 V1 V2 (inv_step i1 e1) (inv_step i2 e2) hV h.2

theorem wait_all_done_iff (P : Pool) :
    wait_all_done P = true ↔ P.tasks = [] ∧ P.active_tasks = 0 := by
  simp [wait_all_done, List.isEmpty_iff]

theorem wait_all_idle (others : List (List Action)) :
    ∀ (W W' : World), wait_all W others = some W' →
      W'.pool.tasks = [] ∧ W'.pool.active_tasks = 0 := by
  induction others with
  | nil =>
    intro W W' h
    simp only [wait_all] at h
    split at h
    · cases h; exact (wait_all_done_iff _).mp (by assumption)
    · cases h
  | cons batch rest ih =>
    intro W W' h
    simp only [wait_all] at h
    split at h
    · cases h; exact (wait_all_done_iff _).mp (by assumption)
    · exact ih _ _ h

theorem wait_all_trace (others : List (List Action)) :
    ∀ (W W' : World), wait_all W others = some W' →
      ∃ k, k ≤ others.length ∧ W' = run (others.take k).flatten W := by
  induction others with
  | nil =>
    intro W W' h
    simp only [wait_all] at h
    split at h
    · cases h; exact ⟨0, Nat.le_refl _, rfl⟩
    · cases h
  | cons batch rest ih =>
    intro W W' h
    simp only [wait_all] at h
    split at h
    · cases h; exact ⟨0, Nat.zero_le _, rfl⟩
    · obtain ⟨k, hk, e⟩ := ih _ _ h
      refine ⟨k + 1, by simpa using hk, ?_⟩
      rw [e, List.take_succ_cons, List.flatten_cons, run_append]


theorem stop_step {a : Action} {W W' : World} (h : step a W = some W')
    (ha : a.isShutdown = false) : W'.pool.stop = W.pool.stop := by
  cases a with
  | submit fn =>
    simp only [step] at h
    split at h
    · cases h
    · cases h; unfold submit; split <;> rfl
  | worker w =>
    obtain ⟨_, wk, _, hm⟩ := worker_function_cases h
    cases hm <;> rfl
  | shutdown => simp [Action.isShutdown] at ha
  | join w =>
    simp only [step] at h
    unfold destructor_join at h
    split at h
    · cases h
    · split at h
      · cases h
      · split at h
        · cases h; rfl
        · split at h
          · cases h; rfl
          · cases h

theorem stop_run (sched : List Action) : ∀ (W : World),
    (∀ a ∈ sched, a.isShutdown = false) → (run sched W).pool.stop = W.pool.stop := by
  induction sched with
  | nil => intro W _; rfl
  | cons a rest ih =>
    intro W h
    simp only [run]
    cases hs : step a W with
    | none => exact ih W (fun b hb => h b (List.mem_cons_of_mem _ hb))
    | some V =>
      simp only []
      rw [ih V (fun b hb => h b (List.mem_cons_of_mem _ hb))]
      exact stop_step hs (h a (List.mem_cons_self _ _))

theorem joinable_setPC (W V : World) (w v : Nat) (pc : WorkerPC) (P : Pool)
    (hV : V.pool = setPC P v pc) (hP : P.workers = W.pool.workers) :
    joinable w V = joinable w W := by
  unfold joinable
  rw [hV]
  simp only [setPC, List.getElem?_modify, hP]
  cases W.pool.workers[w]? with
  | none => rfl
  | some wk =>
    by_cases e : v = w <;> simp [e]

theorem joinable_step {a : Action} {W W' : World} (h : step a W = some W') (w : Nat) :
    joinable w W' =
      (joinable w W && !(match a with
        | .join v => decide (v = w) && joinable w W
        | _ => false)) := by
  cases a with
  | submit fn =>
    simp only [step] at h
    split at h
    · cases h
    · cases h
      have : (submit fn () W).2.pool.workers = W.pool.workers := by
        unfold submit; split <;> rfl
      simp [joinable, this]
  | worker v =>
    obtain ⟨_, wk, _, hm⟩ := worker_function_cases h
    have key : joinable w W' = joinable w W := by
      cases hm with
      | exit _ _ _ => exact joinable_setPC W _ w v _ _ rfl rfl
      | dequeue _ _ _ _ => exact joinable_setPC W _ w v _ _ rfl rfl
      | call _ _ _ _ _ => exact joinable_setPC W _ w v _ _ rfl rfl
      | escape _ _ _ _ _ _ => rfl
      | decrement _ _ => exact joinable_setPC W _ w v _ _ rfl rfl
    simp [key]
  | shutdown =>
    simp only [step] at h
    split at h
    · cases h
    · cases h; simp [joinable, destructor_stop]
  | join v =>
    simp only [step] at h
    unfold destructor_join at h
    split at h
    · cases h
    · cases hv : W.pool.workers[v]? with
      | none => simp [hv] at h
      | some wk =>
        simp only [hv] at h
        split at h
        · cases h
          rename_i hj
          by_cases e : v = w
          · subst e
            have : joinable v W = false := by simp [joinable, hv]; simpa using hj
            simp [this]
          · simp [e]
        · split at h
          · cases h
            rename_i hj hpc
            by_cases e : v = w
            · subst e
              simp [joinable, List.getElem?_modify, hv]
            · simp only [joinable, List.getElem?_modify, e, if_false]
              cases W.pool.workers[w]? <;> simp
          · cases h

theorem joinable_of_step {a : Action} {W W' : World} (h : step a W = some W') {w : Nat}
    (hj : joinable w W' = true) : joinable w W = true := by
  rw [joinable_step h w] at hj
  simp only [Bool.and_eq_true] at hj
  exact hj.1

theorem set_eq_modify {α : Type} (l : List α) (f : α → α) (i : Nat) (a : α)
    (h : l[i]? = some a) : l.set i (f a) = l.modify f i := by
  apply List.ext_getElem?
  intro j
  rw [List.getElem?_set, List.getElem?_modify]
  by_cases e : i = j
  · subst e
    have hlt : i < l.length := by
      rcases Nat.lt_or_ge i l.length with hl | hl
      · exact hl
      · rw [List.getElem?_eq_none hl] at h; cases h
    simp [h, hlt]
  · simp [e]

theorem join_pass_state (w : Nat) (W : World) :
    (join_pass w W).map Prod.snd = destructor_join w W := by
  unfold join_pass destructor_join
  split
  · rfl
  · cases hv : W.pool.workers[w]? with
    | none => rfl
    | some wk =>
      simp only []
      cases hj : wk.joinable with
      | false => simp
      | true =>
        simp only [thread_join, hj, Bool.not_true, if_true, Bool.false_eq_true, if_false]
        by_cases hpc : wk.pc = .exited
        · simp only [hpc, if_true, Option.map_some', Bool.not_true, Bool.false_eq_true,
            if_false]
          congr 3
          rw [← set_eq_modify _ _ _ _ hv, hpc]
        · simp [hpc]

theorem join_pass_of_step {v : Nat} {W W' : World} (h : step (.join v) W = some W') :
    join_pass v W = some (if joinable v W then JoinPass.returned else JoinPass.skipped, W') := by
  simp only [step] at h
  unfold destructor_join at h
  unfold join_pass
  split at h
  · cases h
  · rename_i hg
    rw [if_neg hg]
    cases hv : W.pool.workers[v]? with
    | none => simp [hv] at h
    | some wk =>
      simp only [hv] at h
      simp only [joinable, hv]
      cases hj : wk.joinable with
      | false =>
        simp only [hj, Bool.not_false, if_true] at h
        cases h
        simp
      | true =>
        simp only [hj, Bool.not_true, Bool.false_eq_true, if_false] at h
        by_cases hpc : wk.pc = .exited
        · simp only [hpc, if_true] at h
          cases h
          simp only [thread_join, hj, hpc, Bool.not_true, Bool.false_eq_true, if_false,
            if_true]
          congr 4
          rw [← set_eq_modify _ _ _ _ hv, hpc]
        · simp [hpc] at h

theorem joins_cons_none {a : Action} {rest : List Action} {W : World}
    (h : step a W = none) : joins (a :: rest) W = joins rest W := by
  simp only [joins, h]

theorem joins_cons_join {v : Nat} {rest : List Action} {W W' : World}
    (h : step (.join v) W = some W') :
    joins (.join v :: rest) W =
      if joinable v W then v :: joins rest W' else joins rest W' := by
  simp only [joins, h, join_pass_of_step h]
  cases joinable v W <;> rfl

theorem joins_cons_other {a : Action} {rest : List Action} {W W' : World}
    (h : step a W = some W') (ha : ∀ v, a ≠ .join v) :
    joins (a :: rest) W = joins rest W' := by
  cases a with
  | join v => exact absurd rfl (ha v)
  | submit fn => simp only [joins, h]
  | worker v => simp only [joins, h]
  | shutdown => simp only [joins, h]

theorem joins_joinable (sched : List Action) :
    ∀ (W : World) (w : Nat), w ∈ joins sched W → joinable w W = true := by
  induction sched with
  | nil => intro W w h; simp [joins] at h
  | cons a rest ih =>
    intro W w h
    cases hs : step a W with
    | none =>
      rw [joins_cons_none hs] at h
      exact ih W w h
    | some W' =>
      by_cases ha : ∃ v, a = .join v
      · obtain ⟨v, rfl⟩ := ha
        rw [joins_cons_join hs] at h
        by_cases hj : joinable v W = true
        · rw [if_pos hj] at h
          rcases List.mem_cons.mp h with e | h'
          · rw [e]; exact hj
          · exact joinable_of_step hs (ih W' w h')
        · rw [if_neg hj] at h
          exact joinable_of_step hs (ih W' w h)
      · rw [joins_cons_other hs (fun v e => ha ⟨v, e⟩)] at h
        exact joinable_of_step hs (ih W' w h)

theorem joins_nodup (sched : List Action) : ∀ (W : World), (joins sched W).Nodup := by
  induction sched with
  | nil => intro W; simp [joins]
  | cons a rest ih =>
    intro W
    cases hs : step a W with
    | none => rw [joins_cons_none hs]; exact ih W
    | some W' =>
      by_cases ha : ∃ v, a = .join v
      · obtain ⟨v, rfl⟩ := ha
        rw [joins_cons_join hs]
        by_cases hj : joinable v W = true
        · rw [if_pos hj]
          refine List.nodup_cons.mpr ⟨?_, ih W'⟩
          intro hmem
          have h1 := joins_joinable rest W' v hmem
          rw [joinable_step hs v] at h1
          simp [hj] at h1
        · rw [if_neg hj]; exact ih W'
      · rw [joins_cons_other hs (fun v e => ha ⟨v, e⟩)]
        exact ih W'

theorem joinable_run (sched : List Action) : ∀ (W : World) (w : Nat),
    joinable w (run sched W) = (joinable w W && decide (w ∉ joins sched W)) := by
  induction sched with
  | nil => intro W w; simp [run, joins]
  | cons a rest ih =>
    intro W w
    cases hs : step a W with
    | none =>
      rw [joins_cons_none hs]
      simp only [run, hs]
      exact ih W w
    | some W' =>
      simp only [run, hs]
      rw [ih W' w, joinable_step hs w]
      by_cases ha : ∃ v, a = .join v
      · obtain ⟨v, rfl⟩ := ha
        rw [joins_cons_join hs]
        by_cases e : v = w
        · subst e
          by_cases hj : joinable v W = true
          · simp [hj]
          · simp [hj]
        · by_cases hj : joinable v W = true
          · simp [hj, e, Ne.symm e]
          · simp [hj, e]
      · rw [joins_cons_other hs (fun v e => ha ⟨v, e⟩)]
        cases a with
        | join v => exact absurd ⟨v, rfl⟩ ha
        | submit fn => simp
        | worker v => simp
        | shutdown => simp

theorem destructor_stop_again {W : World} (h : W.pool.stop = true) : destructor_stop W = W := by
  cases W with
  | mk pool heap terminated accepted dequeued executed =>
    cases pool with
    | mk workers tasks stop active_tasks =>
      simp only [] at h
      subst h
      rfl

theorem join_loop_again (W : World) (hj : ∀ w, joinable w W = false) (l : List Nat) :
    run (l.map Action.join) W = W ∧ joins (l.map Action.join) W = [] := by
  induction l with
  | nil => exact ⟨rfl, rfl⟩
  | cons v rest ih =>
    simp only [List.map_cons]
    cases hs : step (.join v) W with
    | none =>
      rw [joins_cons_none hs]
      simp only [run, hs]
      exact ih
    | some W' =>
      have e : W' = W := by
        simp only [step] at hs
        unfold destructor_join at hs
        split at hs
        · cases hs
        · cases hv : W.pool.workers[v]? with
          | none => simp [hv] at hs
          | some wk =>
            have hjv := hj v
            simp only [joinable, hv] at hjv
            simp [hv, hjv] at hs
            exact hs.symm
      subst e
      rw [joins_cons_join hs]
      simp only [run, hs, hj v, Bool.false_eq_true, if_false]
      exact ih

theorem stopped_step {a : Action} {W W' : World} (h : step a W = some W')
    (hs : W.pool.stop = true) :
    W'.pool.stop = true ∧ W'.pool.tasks <:+ W.pool.tasks ∧ W'.accepted = W.accepted := by
  cases a with
  | submit fn =>
    simp only [step] at h
    split at h
    · cases h
    · cases h
      unfold submit
      simp [hs]
  | worker w =>
    obtain ⟨_, wk, _, hm⟩ := worker_function_cases h
    cases hm with
    | exit _ _ _ => exact ⟨hs, List.suffix_refl _, rfl⟩
    | dequeue task rest _ hq =>
      refine ⟨hs, ?_, rfl⟩
      simp only [setPC, hq]
      exact List.suffix_cons task rest
    | call _ _ _ _ _ => exact ⟨hs, List.suffix_refl _, rfl⟩
    | escape _ _ _ _ _ _ => exact ⟨hs, List.suffix_refl _, rfl⟩
    | decrement _ _ => exact ⟨hs, List.suffix_refl _, rfl⟩
  | shutdown =>
    simp only [step] at h
    split at h
    · cases h
    · cases h; exact ⟨rfl, List.suffix_refl _, rfl⟩
  | join w =>
    simp only [step] at h
    unfold destructor_join at h
    split at h
    · cases h
    · split at h
      · cases h
      · split at h
        · cases h; exact ⟨hs, List.suffix_refl _, rfl⟩
        · split at h
          · cases h; exact ⟨hs, List.suffix_refl _, rfl⟩
          · cases h

theorem stopped_run (sched : List Action) : ∀ (W : World), W.pool.stop = true →
    (run sched W).pool.stop = true ∧ (run sched W).pool.tasks <:+ W.pool.tasks ∧
    (run sched W).accepted = W.accepted := by
  induction sched with
  | nil => intro W hs; exact ⟨hs, List.suffix_refl _, rfl⟩
  | cons a rest ih =>
    intro W hs
    simp only [run]
    cases hstep : step a W with
    | none => exact ih W hs
    | some V =>
      obtain ⟨h1, h2, h3⟩ := stopped_step hstep hs
      obtain ⟨k1, k2, k3⟩ := ih V h1
      exact ⟨k1, k2.trans h2, k3.trans h3⟩

theorem countP_modify {l : List Worker} {w : Nat} {wk : Worker} (g : Worker → Worker)
    (h : l[w]? = some wk) :
    (l.modify g w).countP busy + (if busy wk then 1 else 0) =
      l.countP busy + (if busy (g wk) then 1 else 0) := by
  obtain ⟨l1, l2, e1, _, e2⟩ := workers_split g h
  rw [e2, e1]
  simp only [List.countP_append, List.countP_cons]
  omega

theorem active_step {a : Action} {W W' : World} (h : step a W = some W')
    (hb : W.pool.active_tasks = busyWorkers W) :
    W'.pool.active_tasks = busyWorkers W' := by
  cases a with
  | submit fn =>
    simp only [step] at h
    split at h
    · cases h
    · cases h
      unfold submit
      split
      · exact hb
      · exact hb
  | worker w =>
    obtain ⟨_, wk, hw, hm⟩ := worker_function_cases h
    cases hm with
    | exit hpc _ _ =>
      have := countP_modify (fun x => { x with pc := WorkerPC.exited }) hw
      simp only [busy, hpc] at this
      simp only [busyWorkers, setPC] at hb ⊢
      rw [hb]; simp at this; omega
    | dequeue task rest hpc _ =>
      have := countP_modify (fun x => { x with pc := WorkerPC.running task }) hw
      simp only [busy, hpc] at this
      simp only [busyWorkers, setPC] at hb ⊢
      rw [hb]; simp at this; omega
    | call task p hpc _ _ =>
      have := countP_modify (fun x => { x with pc := WorkerPC.finished task }) hw
      simp only [busy, hpc] at this
      simp only [busyWorkers, setPC] at hb ⊢
      rw [hb]; simp at this; omega
    | escape _ _ _ _ _ _ => exact hb
    | decrement task hpc =>
      have := countP_modify (fun x => { x with pc := WorkerPC.waiting }) hw
      simp only [busy, hpc] at this
      simp only [busyWorkers, setPC] at hb ⊢
      rw [hb]; simp at this; omega
  | shutdown =>
    simp only [step] at h
    split at h
    · cases h
    · cases h; exact hb
  | join w =>
    simp only [step] at h
    unfold destructor_join at h
    split at h
    · cases h
    · cases hw : W.pool.workers[w]? with
      | none => simp [hw] at h
      | some wk =>
        simp only [hw] at h
        split at h
        · cases h; exact hb
        · split at h
          · cases h
            have := countP_modify (fun x => { x with joinable := false }) hw
            simp only [busy] at this
            simp only [busyWorkers] at hb ⊢
            rw [hb]; simp at this; omega
          · cases h

theorem active_eq_busy (n : Nat) (sched : List Action) :
    (run sched (init n)).pool.active_tasks = busyWorkers (run sched (init n)) := by
  refine run_induction (P := fun W => W.pool.active_tasks = busyWorkers W) ?_ sched (init n) ?_
  · intro a W W' hW hs
    exact active_step hs hW
  · simp [init, busyWorkers, List.countP_replicate, busy]

theorem busy_of_in_flight {W : World} {t : Nat} (h : t ∈ inFlight W) : 1 ≤ busyWorkers W := by
  unfold inFlight at h
  obtain ⟨wk, hwk, hh⟩ := List.mem_filterMap.mp h
  have hb : busy wk = true := by
    unfold heldTask at hh
    unfold busy
    cases hpc : wk.pc <;> simp [hpc] at hh ⊢
  exact List.countP_pos_iff.mpr ⟨wk, hwk, hb⟩

theorem in_flight_of_unfinished {W : World} (hi : Inv W) {t : Nat} (hd : t ∈ W.dequeued)
    (he : t ∉ W.executed) : t ∈ inFlight W := by
  have := hi.flight.subset hd
  rcases List.mem_append.mp this with h | h
  · exact h
  · exact absurd h he

theorem no_worker_step {a : Action} {W W' : World} (h : step a W = some W')
    (hw : W.pool.workers = []) :
    W'.pool.workers = [] ∧ W'.dequeued = W.dequeued ∧ W'.executed = W.executed ∧
    W'.pool.active_tasks = W.pool.active_tasks ∧ W.pool.tasks <+: W'.pool.tasks := by
  cases a with
  | submit fn =>
    simp only [step] at h
    split at h
    · cases h
    · cases h
      unfold submit
      split
      · exact ⟨hw, rfl, rfl, rfl, List.prefix_refl _⟩
      · exact ⟨hw, rfl, rfl, rfl, List.prefix_append _ _⟩
  | worker w =>
    have : worker_function w W = none := worker_absent (by rw [hw]; rfl)
    simp only [step] at h
    rw [this] at h; cases h
  | shutdown =>
    simp only [step] at h
    split at h
    · cases h
    · cases h; exact ⟨hw, rfl, rfl, rfl, List.prefix_refl _⟩
  | join w =>
    simp only [step] at h
    unfold destructor_join at h
    split at h
    · cases h
    · simp [hw] at h

theorem no_worker_run (sched : List Action) : ∀ (W : World), W.pool.workers = [] →
    (run sched W).pool.workers = [] ∧ (run sched W).dequeued = W.dequeued ∧
    (run sched W).executed = W.executed ∧
    (run sched W).pool.active_tasks = W.pool.active_tasks ∧
    W.pool.tasks <+: (run sched W).pool.tasks := by
  induction sched with
  | nil => intro W hw; exact ⟨hw, rfl, rfl, rfl, List.prefix_refl _⟩
  | cons a rest ih =>
    intro W hw
    simp only [run]
    cases hs : step a W with
    | none => exact ih W hw
    | some V =>
      obtain ⟨h1, h2, h3, h4, h5⟩ := no_worker_step hs hw
      obtain ⟨k1, k2, k3, k4, k5⟩ := ih V h1
      exact ⟨k1, k2.trans h2, k3.trans h3, k4.trans h4, h5.trans k5⟩

theorem wait_all_stuck (others : List (List Action)) : ∀ (W : World),
    W.pool.workers = [] → W.pool.tasks ≠ [] → wait_all W others = none := by
  induction others with
  | nil =>
    intro W _ hq
    have hd : wait_all_done W.pool = false := by
      cases hb : wait_all_done W.pool with
      | false => rfl
      | true => exact absurd ((wait_all_done_iff _).mp hb).1 hq
    simp [wait_all, hd]
  | cons batch rest ih =>
    intro W hw hq
    have hd : wait_all_done W.pool = false := by
      cases hb : wait_all_done W.pool with
      | false => rfl
      | true => exact absurd ((wait_all_done_iff _).mp hb).1 hq
    simp only [wait_all, hd, Bool.false_eq_true, if_false]
    obtain ⟨k1, _, _, _, k5⟩ := no_worker_run batch W hw
    refine ih _ k1 ?_
    intro e
    rw [e] at k5
    exact hq (List.prefix_nil.mp k5)

theorem factorial_loop (k : Nat) :
    (List.range' 2 k).foldl (fun result i => result * i % 2 ^ 64) 1 =
      (k + 1).factorial % 2 ^ 64 := by
  induction k with
  | zero => decide
  | succ k ih =>
    rw [List.range'_concat, List.foldl_append, ih]
    simp only [List.foldl_cons, List.foldl_nil, Nat.one_mul]
    rw [Nat.factorial_succ (k + 1), Nat.mul_comm (k + 1 + 1), Nat.mod_mul_mod]
    congr 2
    omega

theorem factorial_of_nat (m : Nat) : factorial (m : Int) = m.factorial % 2 ^ 64 := by
  unfold factorial
  have h0 : ¬ ((m : Int) < 0) := by omega
  rw [if_neg h0]
  by_cases h1 : (m : Int) = 0 ∨ (m : Int) = 1
  · rw [if_pos h1]
    rcases h1 with h | h
    · have : m = 0 := by omega
      subst this; decide
    · have : m = 1 := by omega
      subst this; decide
  · rw [if_neg h1]
    have hm : 2 ≤ m := by
      rcases Nat.lt_or_ge m 2 with h | h
      · exfalso; apply h1
        rcases Nat.eq_zero_or_pos m with h2 | h2
        · left; omega
        · right; omega
      · exact h
    simp only [Int.toNat_ofNat]
    rw [factorial_loop]
    congr 2
    omega

theorem join_pass_never_throws (w : Nat) (W W' : World) (e : Exn) :
    join_pass w W ≠ some (.threw e, W') := by
  intro h
  unfold join_pass at h
  split at h
  · cases h
  · cases hv : W.pool.workers[w]? with
    | none => simp [hv] at h
    | some wk =>
      simp only [hv] at h
      cases hj : wk.joinable with
      | false => simp [hj] at h
      | true =>
        by_cases hpc : wk.pc = .exited
        · simp [hj, thread_join, hpc] at h
        · simp [hj, thread_join, hpc] at h

theorem join_pass_returned {w : Nat} {W W' : World}
    (h : join_pass w W = some (.returned, W')) :
    joinable w W = true ∧ joinable w W' = false := by
  unfold join_pass at h
  split at h
  · cases h
  · cases hv : W.pool.workers[w]? with
    | none => simp [hv] at h
    | some wk =>
      simp only [hv] at h
      cases hj : wk.joinable with
      | false => simp [hj] at h
      | true =>
        by_cases hpc : wk.pc = .exited
        · simp only [hj, thread_join, hpc, Bool.not_true, Bool.false_eq_true, if_false,
            if_true, Option.some.injEq, Prod.mk.injEq, true_and] at h
          subst h
          have hlt : w < W.pool.workers.length := by
            rcases Nat.lt_or_ge w W.pool.workers.length with hl | hl
            · exact hl
            · rw [List.getElem?_eq_none hl] at hv; cases hv
          simp [joinable, hv, hj, List.getElem?_set, hlt]
        · simp [hj, thread_join, hpc] at h

theorem join_step_exited {v : Nat} {W W' : World} (h : step (.join v) W = some W')
    (he : ∀ wk ∈ W.pool.workers, wk.pc = .exited) :
    W'.terminated = W.terminated ∧ W'.pool.stop = W.pool.stop ∧
    ∀ wk ∈ W'.pool.workers, wk.pc = .exited := by
  simp only [step] at h
  unfold destructor_join at h
  split at h
  · cases h
  · cases hv : W.pool.workers[v]? with
    | none => simp [hv] at h
    | some wk =>
      simp only [hv] at h
      split at h
      · cases h; exact ⟨rfl, rfl, he⟩
      · split at h
        · cases h
          refine ⟨rfl, rfl, ?_⟩
          intro x hx
          rcases mem_modify _ hv hx with hx | hx
          · exact he x hx
          · rw [hx]; exact he wk (List.getElem?_mem hv)
        · cases h

theorem join_step_blocked {v : Nat} {W : World} (h : step (.join v) W = none)
    (ht : W.terminated = false) (hs : W.pool.stop = true)
    (he : ∀ wk ∈ W.pool.workers, wk.pc = .exited) : joinable v W = false := by
  simp only [step] at h
  unfold destructor_join at h
  simp only [ht, hs, Bool.not_true, Bool.or_self, Bool.false_eq_true, if_false] at h
  cases hv : W.pool.workers[v]? with
  | none => simp [joinable, hv]
  | some wk =>
    simp only [hv] at h
    have hpc := he wk (List.getElem?_mem hv)
    split at h
    · cases h
    · simp [hpc] at h

theorem join_loop_joins (l : List Nat) : ∀ (W : World), W.terminated = false →
    W.pool.stop = true → (∀ wk ∈ W.pool.workers, wk.pc = .exited) → l.Nodup →
    joins (l.map Action.join) W = l.filter (fun w => joinable w W) := by
  induction l with
  | nil => intros; rfl
  | cons v rest ih =>
    intro W ht hs he hnd
    simp only [List.map_cons]
    have hnd' := List.nodup_cons.mp hnd
    cases hstep : step (.join v) W with
    | none =>
      rw [joins_cons_none hstep, ih W ht hs he hnd'.2]
      simp [List.filter_cons, join_step_blocked hstep ht hs he]
    | some W' =>
      rw [joins_cons_join hstep]
      obtain ⟨h1, h2, h3⟩ := join_step_exited hstep he
      have hcongr : rest.filter (fun w => joinable w W') =
          rest.filter (fun w => joinable w W) := by
        apply List.filter_congr
        intro w hw
        rw [joinable_step hstep w]
        have hne : v ≠ w := fun e => hnd'.1 (e ▸ hw)
        simp [hne]
      rw [ih W' (h1.trans ht) (h2.trans hs) h3 hnd'.2, hcongr]
      cases hj : joinable v W <;> simp [List.filter_cons, hj]

theorem destructor_joins_all (W : World) (ht : W.terminated = false)
    (he : ∀ wk ∈ W.pool.workers, wk.pc = .exited ∧ wk.joinable = true) :
    joins (destructor W.pool.workers.length) W = List.range W.pool.workers.length ∧
    (run (destructor W.pool.workers.length) W).pool.stop = true ∧
    ∀ w, joinable w (run (destructor W.pool.workers.length) W) = false := by
  have hstep : step .shutdown W = some (destructor_stop W) := by
    simp [step, ht]
  have hj : joins (destructor W.pool.workers.length) W = List.range W.pool.workers.length := by
    unfold destructor
    rw [joins_cons_other hstep (fun v h => Action.noConfusion h)]
    rw [join_loop_joins _ (destructor_stop W) ht rfl (fun wk h => (he wk h).1)
      (List.nodup_range _)]
    apply List.filter_eq_self.mpr
    intro w hw
    have hlt : w < W.pool.workers.length := List.mem_range.mp hw
    have hget : (destructor_stop W).pool.workers[w]? = some (W.pool.workers[w]) :=
      List.getElem?_eq_getElem hlt
    simp only [joinable, hget]
    exact (he _ (List.getElem_mem hlt)).2
  refine ⟨hj, ?_, ?_⟩
  · unfold destructor
    simp only [run, hstep]
    exact (stopped_run _ (destructor_stop W) rfl).1
  · intro w
    rw [joinable_run, hj]
    rcases Nat.lt_or_ge w W.pool.workers.length with hl | hl
    · simp [hl]
    · simp [joinable, List.getElem?_eq_none hl]

theorem workers_length_run (sched : List Action) (W : World) :
    (run sched W).pool.workers.length = W.pool.workers.length :=
  run_induction (P := fun V => V.pool.workers.length = W.pool.workers.length)
    (fun _ _ _ hW hs => (workers_length_step hs).trans hW) sched W rfl

theorem destructor_again (W : World) (hs : W.pool.stop = true)
    (hj : ∀ w, joinable w W = false) :
    run (destructor W.pool.workers.length) W = W ∧
    joins (destructor W.pool.workers.length) W = [] := by
  have hloop := join_loop_again W hj (List.range W.pool.workers.length)
  unfold destructor
  cases hstep : step .shutdown W with
  | none =>
    rw [joins_cons_none hstep]
    simp only [run, hstep]
    exact hloop
  | some W' =>
    have e : W' = W := by
      simp only [step] at hstep
      split at hstep
      · cases hstep
      · cases hstep; exact destructor_stop_again hs
    subst e
    rw [joins_cons_other hstep (fun v h => Action.noConfusion h)]
    simp only [run, hstep]
    exact hloop

theorem destructor_twice (W : World) (ht : W.terminated = false)
    (he : ∀ wk ∈ W.pool.workers, wk.pc = .exited ∧ wk.joinable = true) :
    run (destructor W.pool.workers.length) (run (destructor W.pool.workers.length) W) =
      run (destructor W.pool.workers.length) W ∧
    joins (destructor W.pool.workers.length) (run (destructor W.pool.workers.length) W) =
      [] := by
  obtain ⟨_, hs, hj⟩ := destructor_joins_all W ht he
  have h := destructor_again (run (destructor W.pool.workers.length) W) hs hj
  rw [workers_length_run] at h
  exact h

theorem joins_count (sched : List Action) (W : World) (w : Nat)
    (hj : joinable w W = true) :
    (joins sched W).count w = if joinable w (run sched W) then 0 else 1 := by
  rw [joinable_run sched W w, hj]
  by_cases hm : w ∈ joins sched W
  · simp only [Bool.true_and, hm, not_true_eq_false, decide_False, Bool.false_eq_true,
      if_false]
    exact List.count_eq_one_of_mem (joins_nodup sched W) hm
  · simp only [Bool.true_and, hm, not_false_eq_true, decide_True, if_true]
    exact List.count_eq_zero_of_not_mem hm

end ThreadPool

/-! ## The claims about the pool -/

namespace ThreadPool

/-- C1: while `stop` is true, `submit` throws the `std::runtime_error` of line 95
for every callable and arguments; it returns no handle and the state after the
call is the state before it: the queue, `active_tasks`, `stop`, the heap of
packaged tasks and the record of executed tasks are untouched, so nothing was
enqueued and the callable was not called. -/
theorem submit_on_stopped_pool_throws {α : Type} (f : α → Outcome) (args : α) (W : World)
    (hstop : W.pool.stop = true) :
    submit f args W = (Except.error poolClosed, W) ∧
    poolClosed.type = "std::runtime_error" ∧
    (submit f args W).2.pool.tasks = W.pool.tasks ∧
    (submit f args W).2.pool.active_tasks = W.pool.active_tasks ∧
    (submit f args W).2.pool.stop = W.pool.stop ∧
    (submit f args W).2.executed = W.executed := by
  have e : submit f args W = (Except.error poolClosed, W) := by
    unfold submit; simp [hstop]
  rw [e]
  exact ⟨rfl, rfl, rfl, rfl, rfl, rfl⟩

/-- Witness for C1: a pool of two workers after the destructor set `stop`. -/
theorem submit_on_stopped_pool_throws_witness :
    (destructor_stop (init 2)).pool.stop = true ∧
    submit (fun p : Int × Int => Outcome.value (p.1 * p.2)) (6, 7) (destructor_stop (init 2))
      = (Except.error poolClosed, destructor_stop (init 2)) :=
  ⟨rfl, (submit_on_stopped_pool_throws _ (6, 7) (destructor_stop (init 2)) rfl).1⟩

/-- C2: in every reachable state the accepted tasks are, counted with
multiplicity, exactly the queued ones, the ones in flight and the executed
ones, and no task is accepted twice; so each accepted task is in exactly one
place.  A task in flight is held by one worker only, no task is dequeued
twice, no closure is executed twice, and no packaged task was ever invoked a
second time (that would throw and terminate the process). -/
theorem accepted_task_in_exactly_one_place (n : Nat) (W : World) (h : Reachable n W) :
    W.accepted.Nodup ∧
    List.Perm W.accepted (W.pool.tasks ++ inFlight W ++ W.executed) ∧
    (∀ t ∈ W.accepted, (W.pool.tasks ++ inFlight W ++ W.executed).count t = 1) ∧
    (∀ (w1 w2 : Nat) (wk1 wk2 : Worker) (t : Nat), W.pool.workers[w1]? = some wk1 → W.pool.workers[w2]? = some wk2 →
      wk1.pc = .running t → wk2.pc = .running t → w1 = w2) ∧
    W.dequeued.Nodup ∧ W.executed.Nodup ∧ W.terminated = false := by
  have hi := inv_reachable h
  have hacc : W.accepted.Nodup := by rw [hi.acc]; exact List.nodup_range _
  have hperm := places_perm hi
  have hall : (W.pool.tasks ++ inFlight W ++ W.executed).Nodup := hperm.nodup_iff.mp hacc
  have hfe : (inFlight W ++ W.executed).Nodup := by
    rw [List.append_assoc] at hall
    exact (List.nodup_append.mp hall).2.1
  refine ⟨hacc, hperm, ?_, ?_, dequeued_nodup hi, (List.nodup_append.mp hfe).2.1, hi.alive⟩
  · intro t ht
    exact List.count_eq_one_of_mem hall (hperm.subset ht)
  · intro w1 w2 wk1 wk2 t h1 h2 p1 p2
    exact held_by_one (List.nodup_append.mp hfe).1 h1 h2 p1 p2

/-- Witness for C2: two workers, three submissions; task 2 is queued, task 0
is in flight at worker 0 and task 1 was executed by worker 1. -/
theorem accepted_task_in_exactly_one_place_witness :
    Reachable 2 (run threeSubmitted (init 2)) ∧
    (run threeSubmitted (init 2)).accepted = [0, 1, 2] ∧
    (run threeSubmitted (init 2)).pool.tasks = [2] ∧
    inFlight (run threeSubmitted (init 2)) = [0] ∧
    (run threeSubmitted (init 2)).executed = [1] ∧
    (run threeSubmitted (init 2)).accepted.Nodup ∧
    List.Perm (run threeSubmitted (init 2)).accepted
      ((run threeSubmitted (init 2)).pool.tasks ++ inFlight (run threeSubmitted (init 2)) ++
        (run threeSubmitted (init 2)).executed) :=
  ⟨⟨threeSubmitted, rfl⟩, rfl, rfl, rfl, rfl,
    (accepted_task_in_exactly_one_place 2 _ ⟨threeSubmitted, rfl⟩).1,
    (accepted_task_in_exactly_one_place 2 _ ⟨threeSubmitted, rfl⟩).2.1⟩

/-- C3: in every reachable state, with any number of workers, the tasks in the
order the workers dequeued them are a prefix of the tasks in the order
`submit` accepted them; what is left of the accepted sequence is the queue. -/
theorem dequeue_order_is_prefix_of_submit_order (n : Nat) (W : World) (h : Reachable n W) :
    W.dequeued <+: W.accepted ∧ W.accepted = W.dequeued ++ W.pool.tasks := by
  have hi := inv_reachable h
  exact ⟨⟨W.pool.tasks, hi.fifo.symm⟩, hi.fifo⟩

/-- Witness for C3: three workers dequeue in the order 2, 0, 1 of their thread
index; the dequeued tasks are still 0, 1, 2, in submission order. -/
theorem dequeue_order_is_prefix_of_submit_order_witness :
    Reachable 3 (run fourSubmitted (init 3)) ∧
    (run fourSubmitted (init 3)).dequeued = [0, 1, 2] ∧
    (run fourSubmitted (init 3)).accepted = [0, 1, 2, 3] ∧
    (run fourSubmitted (init 3)).dequeued <+: (run fourSubmitted (init 3)).accepted :=
  ⟨⟨fourSubmitted, rfl⟩, rfl, rfl,
    (dequeue_order_is_prefix_of_submit_order 3 _ ⟨fourSubmitted, rfl⟩).1⟩

/-- C4: for a pool constructed with at least one worker, in every reachable
state in which every worker has left its loop the queue is empty, no task is
in flight, and every task `submit` accepted has been executed and its result
channel holds the outcome of its call. -/
theorem all_workers_exited_means_drained (n : Nat) (W : World) (hn : 1 ≤ n)
    (h : Reachable n W) (hexit : ∀ wk ∈ W.pool.workers, wk.pc = .exited) :
    W.pool.tasks = [] ∧ inFlight W = [] ∧ W.pool.stop = true ∧
    (∀ t ∈ W.accepted, t ∈ W.executed ∧
      ∃ p, W.heap[t]? = some p ∧ p.state = some (p.fn ())) := by
  have hi := inv_reachable h
  have hlen := workers_length h
  have hne : W.pool.workers ≠ [] := by
    intro e; rw [e] at hlen; simp at hlen; omega
  obtain ⟨wk, hwk⟩ := List.exists_mem_of_ne_nil _ hne
  have hd := hi.drained wk hwk (hexit wk hwk)
  have hfl : inFlight W = [] := by
    unfold inFlight
    rw [List.filterMap_eq_nil_iff]
    intro x hx
    simp [heldTask, hexit x hx]
  refine ⟨hd.2, hfl, hd.1, ?_⟩
  intro t ht
  have hperm := places_perm hi
  rw [hd.2, hfl] at hperm
  have hex : t ∈ W.executed := by simpa using hperm.subset ht
  refine ⟨hex, ?_⟩
  have hlt := executed_lt hi hex
  refine ⟨W.heap[t], List.getElem?_eq_getElem hlt, ?_⟩
  exact hi.resolved t _ (List.getElem?_eq_getElem hlt) hex

/-- Witness for C4: ten tasks are submitted, the destructor sets `stop` before
any of them started, the two workers drain the queue and return. -/
theorem all_workers_exited_means_drained_witness :
    Reachable 2 (run tenThenShutdown (init 2)) ∧
    (∀ wk ∈ (run tenThenShutdown (init 2)).pool.workers, wk.pc = .exited) ∧
    (run tenThenShutdown (init 2)).accepted = [0, 1, 2, 3, 4, 5, 6, 7, 8, 9] ∧
    (run tenThenShutdown (init 2)).pool.tasks = [] ∧
    (∀ t ∈ (run tenThenShutdown (init 2)).accepted,
      t ∈ (run tenThenShutdown (init 2)).executed ∧
      ∃ p, (run tenThenShutdown (init 2)).heap[t]? = some p ∧ p.state = some (p.fn ())) :=
  ⟨⟨tenThenShutdown, rfl⟩, by decide, by decide,
    (all_workers_exited_means_drained 2 _ (by decide) ⟨tenThenShutdown, rfl⟩ (by decide)).1,
    (all_workers_exited_means_drained 2 _ (by decide) ⟨tenThenShutdown, rfl⟩ (by decide)).2.2.2⟩

/-- C5: on a reachable open pool `submit` accepts every callable `f` with
arguments `args` and returns a handle; in every state that follows, once the
task is among the executed ones its handle holds exactly the outcome of
`f(args)`, the value returned or the exception thrown (same type, same
message), and before that the handle is pending. -/
theorem handle_holds_outcome_of_call {α : Type} (n : Nat) (W : World) (hW : Reachable n W)
    (f : α → Outcome) (args : α) (hopen : W.pool.stop = false) (sched : List Action) :
    (submit f args W).1 = Except.ok W.heap.length ∧
    (W.heap.length ∈ (run sched (submit f args W).2).executed →
      get W.heap.length (run sched (submit f args W).2) = some (f args)) ∧
    (W.heap.length ∉ (run sched (submit f args W).2).executed →
      get W.heap.length (run sched (submit f args W).2) = none) := by
  have hr : Reachable n (run sched (submit f args W).2) :=
    reachable_run (reachable_submit hW f args) sched
  have hi := inv_reachable hr
  have h0 : (submit f args W).2.heap[W.heap.length]? = some ⟨bind f args, none⟩ := by
    unfold submit
    simp [hopen]
  obtain ⟨p, hp, hfn⟩ := fn_stable_run sched _ h0
  have hg := get_of_inv hi hp
  have hv : p.fn () = f args := by rw [hfn]; rfl
  refine ⟨by unfold submit; simp [hopen], ?_, ?_⟩
  · intro he; rw [hg, if_pos he, hv]
  · intro he; rw [hg, if_neg he]

/-- Witness for C5: the two lambdas of the demo on a pool of four workers, the
product of 6 and 7 and the task that throws. -/
theorem handle_holds_outcome_of_call_witness :
    Reachable 4 (init 4) ∧ (init 4).pool.stop = false ∧
    get 0 (run (oneTask 0) (submit (fun p : Int × Int => Outcome.value (p.1 * p.2)) (6, 7)
      (init 4)).2) = some (.value 42) ∧
    get 0 (run (oneTask 2) (submit (fun _ : Unit => Outcome.raised
      ⟨"std::runtime_error", "Test exception from task"⟩) () (init 4)).2)
      = some (.raised ⟨"std::runtime_error", "Test exception from task"⟩) :=
  ⟨⟨[], rfl⟩, rfl,
    (handle_holds_outcome_of_call 4 (init 4) ⟨[], rfl⟩
      (fun p : Int × Int => Outcome.value (p.1 * p.2)) (6, 7) rfl (oneTask 0)).2.1
      (by decide),
    (handle_holds_outcome_of_call 4 (init 4) ⟨[], rfl⟩
      (fun _ : Unit => Outcome.raised ⟨"std::runtime_error", "Test exception from task"⟩)
      () rfl (oneTask 2)).2.1 (by decide)⟩

/-- C6: in a reachable state let worker `w` hold the dequeued task `t` whose
call throws `e`.  The step `task()` returns normally: the process is not
terminated, the exception is stored in the result channel, and the worker is
at the decrement.  Its next step decrements `active_tasks` and puts it back at
the head of the loop; the pool it leaves is the one a returning task leaves
(it does not depend on the outcome).  If the queue is not empty, the step
after that dequeues the task at the head. -/
theorem throwing_task_leaves_worker_in_loop (n : Nat) (W : World) (hW : Reachable n W)
    (w : Nat) (wk : Worker) (t : Nat) (p : PackagedTask) (e : Exn)
    (hw : W.pool.workers[w]? = some wk) (hpc : wk.pc = .running t)
    (hp : W.heap[t]? = some p) (he : p.fn () = .raised e) :
    ∃ W1 W2, worker_function w W = some W1 ∧ W1.terminated = false ∧
      W1.pool = setPC W.pool w (.finished t) ∧ get t W1 = some (.raised e) ∧
      worker_function w W1 = some W2 ∧ W2.terminated = false ∧
      W2.pool = setPC { W.pool with active_tasks := W.pool.active_tasks - 1 } w .waiting ∧
      W2.pool.workers[w]? = some { wk with pc := .waiting } ∧
      (∀ task rest, W.pool.tasks = task :: rest →
        ∃ W3, worker_function w W2 = some W3 ∧ W3.dequeued = W.dequeued ++ [task] ∧
          W3.pool.tasks = rest ∧ W3.pool.workers[w]? = some { wk with pc := .running task }) := by
  have hi := inv_reachable hW
  have hlt := (running_fresh hi hw hpc).2
  let W1 : World := { W with
    heap := W.heap.set t { p with state := some (p.fn ()) }
    pool := setPC W.pool w (.finished t)
    executed := W.executed ++ [t] }
  let W2 : World := { W1 with
    pool := setPC { W1.pool with active_tasks := W1.pool.active_tasks - 1 } w .waiting }
  have h1 : worker_function w W = some W1 := worker_call hi hw hpc hp
  have hw1 : W1.pool.workers[w]? = some { wk with pc := .finished t } :=
    setPC_get W.pool w (.finished t) hw
  have h2 : worker_function w W1 = some W2 := worker_decrement (W := W1) hi.alive hw1 rfl
  have hw2 : W2.pool.workers[w]? = some { wk with pc := .waiting } := by
    simp only [W2, W1, setPC, List.modify_modify_eq]
    rw [List.getElem?_modify_eq, hw]; rfl
  refine ⟨W1, W2, h1, hi.alive, rfl, ?_, h2, hi.alive, ?_, hw2, ?_⟩
  · simp only [get, W1]
    rw [List.getElem?_set_self hlt, he]
  · simp only [W2, W1, setPC, List.modify_modify_eq]; rfl
  · intro task rest hq
    have h3 := worker_dequeue (W := W2) hi.alive hw2 rfl hq
    refine ⟨_, h3, rfl, rfl, ?_⟩
    simp only [W2, W1, setPC, List.modify_modify_eq]
    rw [List.getElem?_modify_eq, hw]; rfl

/-- Witness for C6: worker 0 holds a task that throws, a second task is queued. -/
theorem throwing_task_leaves_worker_in_loop_witness :
    Reachable 1 (run throwThenReturn (init 1)) ∧
    (run throwThenReturn (init 1)).pool.workers[0]? = some ⟨.running 0, true⟩ ∧
    (run throwThenReturn (init 1)).pool.tasks = [1] ∧
    (∃ W1 W2, worker_function 0 (run throwThenReturn (init 1)) = some W1 ∧
      W1.terminated = false ∧
      W1.pool = setPC (run throwThenReturn (init 1)).pool 0 (.finished 0) ∧
      get 0 W1 = some (.raised ⟨"std::runtime_error", "boom"⟩) ∧
      worker_function 0 W1 = some W2) :=
  ⟨⟨throwThenReturn, rfl⟩, rfl, rfl,
    (throwing_task_leaves_worker_in_loop 1 (run throwThenReturn (init 1))
      ⟨throwThenReturn, rfl⟩ 0 ⟨.running 0, true⟩ 0
      ⟨fun _ => .raised ⟨"std::runtime_error", "boom"⟩, none⟩
      ⟨"std::runtime_error", "boom"⟩ rfl rfl rfl rfl).imp
      (fun _ h => h.imp (fun _ h' => ⟨h'.1, h'.2.1, h'.2.2.1, h'.2.2.2.1, h'.2.2.2.2.1⟩))⟩

/-- C7: take two executions of a pool of `n` workers whose schedules are the
same thread steps in the same order and differ at most in the callables that
are submitted.  If the task with handle `h` has the same callable in both,
then its handle shows the same thing in both: pending in both, or resolved
with the same outcome in both, whatever the other tasks return or throw.  The
pool members are the same in both as well. -/
theorem task_outcome_is_independent_of_other_tasks (n : Nat) (s1 s2 : List Action)
    (hsched : sameSchedule s1 s2 = true) (h : Nat) (p1 p2 : PackagedTask)
    (h1 : (run s1 (init n)).heap[h]? = some p1) (h2 : (run s2 (init n)).heap[h]? = some p2)
    (hsame : p1.fn = p2.fn) :
    get h (run s1 (init n)) = get h (run s2 (init n)) ∧
    (run s1 (init n)).pool = (run s2 (init n)).pool := by
  have i1 : Inv (run s1 (init n)) := inv_run (inv_init n) s1
  have i2 : Inv (run s2 (init n)) := inv_run (inv_init n) s2
  have hs : Sim (run s1 (init n)) (run s2 (init n)) :=
    sim_run s1 s2 (init n) (init n) (inv_init n) (inv_init n) ⟨rfl, rfl, rfl, rfl, rfl, rfl⟩ hsched
  refine ⟨?_, hs.pool⟩
  rw [get_of_inv i1 h1, get_of_inv i2 h2, hs.executed, hsame]

/-- Witness for C7: the second task throws in one execution and returns in the
other; the handle of the first task holds the value 1 in both. -/
theorem task_outcome_is_independent_of_other_tasks_witness :
    sameSchedule (twoTasks (fun _ => .raised ⟨"std::runtime_error", "boom"⟩))
      (twoTasks (fun _ => .value 5)) = true ∧
    get 1 (run (twoTasks (fun _ => .raised ⟨"std::runtime_error", "boom"⟩)) (init 2))
      = some (.raised ⟨"std::runtime_error", "boom"⟩) ∧
    get 1 (run (twoTasks (fun _ => .value 5)) (init 2)) = some (.value 5) ∧
    get 0 (run (twoTasks (fun _ => .raised ⟨"std::runtime_error", "boom"⟩)) (init 2))
      = some (.value 1) ∧
    get 0 (run (twoTasks (fun _ => .raised ⟨"std::runtime_error", "boom"⟩)) (init 2))
      = get 0 (run (twoTasks (fun _ => .value 5)) (init 2)) :=
  ⟨rfl, rfl, rfl, rfl,
    (task_outcome_is_independent_of_other_tasks 2
      (twoTasks (fun _ => .raised ⟨"std::runtime_error", "boom"⟩))
      (twoTasks (fun _ => .value 5)) rfl 0
      ⟨fun _ => .value 1, some (.value 1)⟩ ⟨fun _ => .value 1, some (.value 1)⟩
      rfl rfl rfl).1⟩

/-- C8: the test of `wait_all` succeeds exactly when the queue is empty and
`active_tasks` is zero.  Whenever `wait_all` returns, it left the loop in a
state with an empty queue and a zero counter; from a state with a task queued
or a non-zero counter it does not return but polls again after the other
threads moved; from an idle state it returns at once. -/
theorem wait_all_leaves_loop_only_when_idle (W : World) :
    (wait_all_done W.pool = true ↔ W.pool.tasks = [] ∧ W.pool.active_tasks = 0) ∧
    (∀ others W', wait_all W others = some W' →
      W'.pool.tasks = [] ∧ W'.pool.active_tasks = 0) ∧
    (W.pool.tasks ≠ [] ∨ W.pool.active_tasks ≠ 0 →
      wait_all W [] = none ∧
      ∀ batch rest, wait_all W (batch :: rest) = wait_all (run batch W) rest) ∧
    (W.pool.tasks = [] ∧ W.pool.active_tasks = 0 → ∀ others, wait_all W others = some W) := by
  refine ⟨wait_all_done_iff _, fun others W' h => wait_all_idle others W W' h, ?_, ?_⟩
  · intro h
    have hd : wait_all_done W.pool = false := by
      cases hb : wait_all_done W.pool with
      | false => rfl
      | true =>
        have := (wait_all_done_iff _).mp hb
        rcases h with h | h
        · exact absurd this.1 h
        · exact absurd this.2 h
    refine ⟨by simp [wait_all, hd], fun batch rest => by simp [wait_all, hd]⟩
  · intro h others
    have hd := (wait_all_done_iff _).mpr h
    cases others <;> simp [wait_all, hd]

/-- Witness for C8: one task is queued on a pool of one worker; `wait_all`
keeps polling while the task is queued, then while it runs, and returns after
the decrement. -/
theorem wait_all_leaves_loop_only_when_idle_witness :
    (run [.submit (fun _ => .value 1)] (init 1)).pool.tasks = [0] ∧
    wait_all (run [.submit (fun _ => .value 1)] (init 1)) [] = none ∧
    wait_all (run [.submit (fun _ => .value 1)] (init 1)) [[.worker 0, .worker 0]] = none ∧
    (wait_all (run [.submit (fun _ => .value 1)] (init 1)) duringWait).map
      (fun V => (V.pool.tasks, V.pool.active_tasks, V.executed)) = some ([], 0, [0]) :=
  ⟨rfl,
    ((wait_all_leaves_loop_only_when_idle
      (run [.submit (fun _ => .value 1)] (init 1))).2.2.1 (Or.inl (by decide))).1,
    rfl, rfl⟩

/-- C9: `wait_all` only observes.  The state in which it returns is the state
the steps of the other threads produce from the state in which it was called,
so with no step of another thread it is that very state.  If `stop` was false
at the call and the destructor did not run meanwhile, `stop` is still false at
the return and a `submit` made then is accepted. -/
theorem wait_all_leaves_pool_as_others_made_it (W W' : World) (others : List (List Action))
    (h : wait_all W others = some W') :
    (∃ k, k ≤ others.length ∧ W' = run (others.take k).flatten W) ∧
    ((∀ batch ∈ others, batch = []) → W' = W) ∧
    (W.pool.stop = false → (∀ batch ∈ others, ∀ a ∈ batch, a.isShutdown = false) →
      W'.pool.stop = false ∧
      ∀ (α : Type) (f : α → Outcome) (args : α),
        (submit f args W').1 = Except.ok W'.heap.length ∧
        (submit f args W').2.pool.tasks = W'.pool.tasks ++ [W'.heap.length]) := by
  obtain ⟨k, hk, e⟩ := wait_all_trace others W W' h
  refine ⟨⟨k, hk, e⟩, ?_, ?_⟩
  · intro hall
    have : (others.take k).flatten = [] := by
      rw [List.flatten_eq_nil_iff]
      intro l hl
      exact hall l (List.mem_of_mem_take hl)
    rw [e, this]; rfl
  · intro hs hno
    have hstop : W'.pool.stop = false := by
      rw [e, stop_run _ W ?_, hs]
      intro a ha
      obtain ⟨l, hl, hal⟩ := List.mem_flatten.mp ha
      exact hno l (List.mem_of_mem_take hl) a hal
    refine ⟨hstop, fun α f args => ?_⟩
    unfold submit
    simp [hstop]

/-- Witness for C9: after `wait_all` returned on a running pool a new task is
accepted and queued. -/
theorem wait_all_leaves_pool_as_others_made_it_witness :
    wait_all (run [.submit (fun _ => .value 1)] (init 1)) duringWait
      = some (run (duringWait.take 2).flatten (run [.submit (fun _ => .value 1)] (init 1))) ∧
    (run (duringWait.take 2).flatten (run [.submit (fun _ => .value 1)] (init 1))).pool.stop
      = false ∧
    (submit (fun _ : Unit => Outcome.value 2) ()
      (run (duringWait.take 2).flatten (run [.submit (fun _ => .value 1)] (init 1)))).1
      = Except.ok 1 :=
  ⟨rfl, rfl,
    (((wait_all_leaves_pool_as_others_made_it (run [.submit (fun _ => .value 1)] (init 1))
      (run (duringWait.take 2).flatten (run [.submit (fun _ => .value 1)] (init 1)))
      duringWait rfl).2.2 rfl (by decide)).2 Unit (fun _ => Outcome.value 2) ()).1⟩

/-- C10, as stated, fails at `num_threads == 0`: the constructor throws nothing
and yields a pool, one with no worker. -/
theorem construct_zero_threads_succeeds :
    (¬ ∃ e : Exn, ThreadPool 0 = Except.error e) ∧
    ∃ W : World, ThreadPool 0 = Except.ok W ∧ W.pool.workers = [] ∧ W.pool.stop = false :=
  ⟨fun ⟨_, h⟩ => Except.noConfusion h, init 0, rfl, rfl, rfl⟩

/-- C10, amended: the constructor succeeds for every `num_threads`, zero
included; it yields a running pool with `num_threads` workers at the head of
their loop, an empty queue and a zero counter. -/
theorem construct_succeeds_for_every_size (num_threads : Nat) :
    ∃ W : World, ThreadPool num_threads = Except.ok W ∧
      W.pool.workers.length = num_threads ∧
      (∀ wk ∈ W.pool.workers, wk.pc = .waiting ∧ wk.joinable = true) ∧
      W.pool.tasks = [] ∧ W.pool.stop = false ∧ W.pool.active_tasks = 0 := by
  refine ⟨init num_threads, rfl, by simp [init], ?_, rfl, rfl, rfl⟩
  intro wk h
  simp only [init, List.mem_replicate] at h
  rw [h.2]; exact ⟨rfl, rfl⟩

/-- C11: the join loop of the destructor calls `join()` only inside the guard
`worker.joinable()`, so no call of `join()` throws, whereas `join()` on a
thread that is no longer joinable would throw; a call that returns was made on
a joinable worker and leaves it non-joinable, and the loop pass changes the
state exactly as the join step of the pool does.  When all workers have
returned and none was joined yet, the steps of the destructor call `join()` on
the workers `0, ..., n - 1`, once each and in this order, and leave `stop` set
and no worker joinable; the same steps run a second time leave that state as
it is and call `join()` on no worker.  More generally, on any pool that is
already shut down (`stop` is set and no worker is joinable) the steps of the
destructor change nothing and call `join()` on no worker.  In every execution
the workers on which `join()` was called are pairwise different, a worker is
non-joinable at the end exactly if `join()` was called on it, and then it was
called exactly once. -/
theorem shutdown_is_idempotent_and_joins_once :
    (∀ (w : Nat) (W : World), (join_pass w W).map Prod.snd = step (.join w) W) ∧
    (∀ (w : Nat) (W W' : World) (e : Exn), join_pass w W ≠ some (.threw e, W')) ∧
    (∀ wk : Worker, wk.joinable = false →
      thread_join wk = some (.error ⟨"std::system_error", "Invalid argument"⟩)) ∧
    (∀ (w : Nat) (W W' : World), join_pass w W = some (.returned, W') →
      joinable w W = true ∧ joinable w W' = false) ∧
    (∀ W : World, W.terminated = false →
      (∀ wk ∈ W.pool.workers, wk.pc = .exited ∧ wk.joinable = true) →
      joins (destructor W.pool.workers.length) W = List.range W.pool.workers.length ∧
      (run (destructor W.pool.workers.length) W).pool.stop = true ∧
      (∀ w, joinable w (run (destructor W.pool.workers.length) W) = false) ∧
      run (destructor W.pool.workers.length) (run (destructor W.pool.workers.length) W) =
        run (destructor W.pool.workers.length) W ∧
      joins (destructor W.pool.workers.length) (run (destructor W.pool.workers.length) W) =
        []) ∧
    (∀ W : World, W.pool.stop = true → (∀ w, joinable w W = false) →
      run (destructor W.pool.workers.length) W = W ∧
      joins (destructor W.pool.workers.length) W = []) ∧
    (∀ (n : Nat) (sched : List Action), (joins sched (init n)).Nodup) ∧
    (∀ (n : Nat) (sched : List Action) (w : Nat), w < n →
      (joinable w (run sched (init n)) = false ↔ w ∈ joins sched (init n))) ∧
    (∀ (n : Nat) (sched : List Action) (w : Nat), w < n →
      (joins sched (init n)).count w =
        if joinable w (run sched (init n)) then 0 else 1) := by
  refine ⟨fun w W => join_pass_state w W, join_pass_never_throws, ?_,
    fun w W W' h => join_pass_returned h, ?_, destructor_again,
    fun n sched => joins_nodup sched (init n), ?_, ?_⟩
  · intro wk h
    simp [thread_join, h]
  · intro W ht he
    obtain ⟨h1, h2, h3⟩ := destructor_joins_all W ht he
    obtain ⟨h4, h5⟩ := destructor_twice W ht he
    exact ⟨h1, h2, h3, h4, h5⟩
  · intro n sched w hw
    have h0 : joinable w (init n) = true := by
      simp [joinable, init, List.getElem?_replicate, hw]
    rw [joinable_run sched (init n) w, h0]
    simp
  · intro n sched w hw
    have h0 : joinable w (init n) = true := by
      simp [joinable, init, List.getElem?_replicate, hw]
    exact joins_count sched (init n) w h0

/-- Witness for C11: in the graceful drain of ten tasks by two workers, once
both workers have returned the steps of the destructor call `join()` on
worker 0 and then on worker 1 and leave no worker joinable, and a second run
of these steps changes nothing; likewise on the state in which both workers
were joined by single join steps. -/
theorem shutdown_is_idempotent_and_joins_once_witness :
    (run tenDrained (init 2)).terminated = false ∧
    (∀ wk ∈ (run tenDrained (init 2)).pool.workers, wk.pc = .exited ∧ wk.joinable = true) ∧
    joins (destructor 2) (run tenDrained (init 2)) = [0, 1] ∧
    (∀ w, joinable w (run (destructor 2) (run tenDrained (init 2))) = false) ∧
    run (destructor 2) (run (destructor 2) (run tenDrained (init 2))) =
      run (destructor 2) (run tenDrained (init 2)) ∧
    (run tenThenShutdown (init 2)).pool.stop = true ∧
    joins tenThenShutdown (init 2) = [0, 1] ∧
    run (destructor 2) (run tenThenShutdown (init 2)) = run tenThenShutdown (init 2) ∧
    joins (destructor 2) (run tenThenShutdown (init 2)) = [] :=
  ⟨by decide, by decide,
    (shutdown_is_idempotent_and_joins_once.2.2.2.2.1 (run tenDrained (init 2)) (by decide)
      (by decide)).1,
    (shutdown_is_idempotent_and_joins_once.2.2.2.2.1 (run tenDrained (init 2)) (by decide)
      (by decide)).2.2.1,
    (shutdown_is_idempotent_and_joins_once.2.2.2.2.1 (run tenDrained (init 2)) (by decide)
      (by decide)).2.2.2.1,
    by decide, by decide,
    (shutdown_is_idempotent_and_joins_once.2.2.2.2.2.1 (run tenThenShutdown (init 2))
      (by decide)
      (fun w => match w with
        | 0 => by decide
        | 1 => by decide
        | _ + 2 => rfl)).1,
    by decide⟩

/-- C12: for every `n` from 0 to 20 `factorial(n)` is exactly `n!`, and `n!` is
below `2 ^ 64`, as is every smaller factorial the loop passes through, so no
product wraps; in particular the four values of the demo. -/
theorem factorial_exact_up_to_twenty (n : Int) (h0 : 0 ≤ n) (h20 : n ≤ 20) :
    factorial n = n.toNat.factorial ∧
    (∀ k, k ≤ n.toNat → k.factorial < 2 ^ 64) ∧
    factorial 5 = 120 ∧ factorial 10 = 3628800 ∧ factorial 15 = 1307674368000 ∧
    factorial 20 = 2432902008176640000 := by
  obtain ⟨m, rfl⟩ := Int.eq_ofNat_of_zero_le h0
  have hm : m ≤ 20 := by omega
  refine ⟨?_, ?_, by decide, by decide, by decide, by decide⟩
  · interval_cases m <;> decide
  · intro k hk
    simp only [Int.toNat_ofNat] at hk
    have hk20 : k ≤ 20 := le_trans hk hm
    calc k.factorial ≤ (20).factorial := Nat.factorial_le hk20
      _ < 2 ^ 64 := by decide

/-- Witness for C12: the largest argument of the range. -/
theorem factorial_exact_up_to_twenty_witness :
    factorial 20 = (20).factorial ∧ factorial 20 = 2432902008176640000 :=
  ⟨(factorial_exact_up_to_twenty 20 (by decide) (by decide)).1, by decide⟩

/-- C13: in every reachable state `pending_tasks()` is the length of the queue,
and that is the number of tasks `submit` accepted minus the number of tasks the
workers dequeued; the queued tasks are the accepted ones not yet dequeued. -/
theorem pending_tasks_is_accepted_minus_dequeued (n : Nat) (W : World) (h : Reachable n W) :
    pending_tasks W = W.pool.tasks.length ∧
    pending_tasks W = W.accepted.length - W.dequeued.length ∧
    W.dequeued.length ≤ W.accepted.length ∧
    W.pool.tasks = W.accepted.drop W.dequeued.length := by
  have hi := inv_reachable h
  refine ⟨rfl, ?_, ?_, ?_⟩
  · rw [hi.fifo]; simp [pending_tasks]
  · rw [hi.fifo]; simp
  · rw [hi.fifo]; simp

/-- Witness for C13: four tasks accepted, three dequeued, one pending. -/
theorem pending_tasks_is_accepted_minus_dequeued_witness :
    Reachable 3 (run fourSubmitted (init 3)) ∧
    pending_tasks (run fourSubmitted (init 3)) = 1 ∧
    (run fourSubmitted (init 3)).accepted.length = 4 ∧
    (run fourSubmitted (init 3)).dequeued.length = 3 ∧
    pending_tasks (run fourSubmitted (init 3)) =
      (run fourSubmitted (init 3)).accepted.length -
        (run fourSubmitted (init 3)).dequeued.length :=
  ⟨⟨fourSubmitted, rfl⟩, rfl, rfl, rfl,
    (pending_tasks_is_accepted_minus_dequeued 3 _ ⟨fourSubmitted, rfl⟩).2.1⟩

/-- C15: a pool constructed with `N` threads reports `thread_count() = N` in
every reachable state; a `submit`, a worker step and a `wait_all` each leave
the number of workers as it was. -/
theorem thread_count_is_constant (N : Nat) (W : World) (h : Reachable N W) :
    thread_count W = N ∧
    (∀ (α : Type) (f : α → Outcome) (args : α),
      thread_count (submit f args W).2 = thread_count W) ∧
    (∀ w W', worker_function w W = some W' → thread_count W' = thread_count W) ∧
    (∀ others W', wait_all W others = some W' → thread_count W' = thread_count W) := by
  refine ⟨workers_length h, ?_, ?_, ?_⟩
  · intro α f args
    unfold submit thread_count
    split <;> rfl
  · intro w W' hw
    exact workers_length_step (a := .worker w) hw
  · intro others W' hw
    obtain ⟨k, _, e⟩ := wait_all_trace others W W' hw
    have h1 : Reachable N W' := by rw [e]; exact reachable_run h _
    exact (workers_length h1).trans (workers_length h).symm

/-- Witness for C15: a pool of two workers still has two after ten tasks were
submitted and run and the pool was shut down; a fresh pool of four has four. -/
theorem thread_count_is_constant_witness :
    Reachable 2 (run tenThenShutdown (init 2)) ∧
    thread_count (run tenThenShutdown (init 2)) = 2 ∧
    thread_count (init 4) = 4 :=
  ⟨⟨tenThenShutdown, rfl⟩,
    (thread_count_is_constant 2 _ ⟨tenThenShutdown, rfl⟩).1,
    (thread_count_is_constant 4 _ ⟨[], rfl⟩).1⟩

/-- C16: on every state with `stop` false `submit` puts exactly one task at the
tail of the queue: the new queue is the old queue followed by the new task.
The flag `stop`, the counter `active_tasks` and the workers are as before. -/
theorem submit_appends_at_tail {α : Type} (f : α → Outcome) (args : α) (W : World)
    (hopen : W.pool.stop = false) :
    (submit f args W).1 = Except.ok W.heap.length ∧
    (submit f args W).2.pool.tasks = W.pool.tasks ++ [W.heap.length] ∧
    (submit f args W).2.pool.tasks.length = W.pool.tasks.length + 1 ∧
    (submit f args W).2.pool.tasks.take W.pool.tasks.length = W.pool.tasks ∧
    (submit f args W).2.pool.stop = W.pool.stop ∧
    (submit f args W).2.pool.active_tasks = W.pool.active_tasks ∧
    (submit f args W).2.pool.workers = W.pool.workers ∧
    (submit f args W).2.heap = W.heap ++ [⟨bind f args, none⟩] := by
  unfold submit
  simp [hopen]

/-- Witness for C16: a third task submitted behind two queued ones. -/
theorem submit_appends_at_tail_witness :
    (run [.submit (fun _ => .value 1), .submit (fun _ => .value 2)] (init 1)).pool.tasks
      = [0, 1] ∧
    (submit (fun _ : Unit => Outcome.value 3) ()
      (run [.submit (fun _ => .value 1), .submit (fun _ => .value 2)] (init 1))).2.pool.tasks
      = (run [.submit (fun _ => .value 1), .submit (fun _ => .value 2)] (init 1)).pool.tasks
        ++ [2] :=
  ⟨rfl, (submit_appends_at_tail (fun _ : Unit => Outcome.value 3) ()
    (run [.submit (fun _ => .value 1), .submit (fun _ => .value 2)] (init 1)) rfl).2.1⟩

/-- C17: `stop` is false after construction, and once it is true it stays true:
no step of a submitter, of a worker or of the destructor, no schedule of such
steps, no `submit` and no `wait_all` leads from a state with `stop` true to a
state with `stop` false. -/
theorem stop_is_monotonic :
    (∀ n : Nat, (init n).pool.stop = false) ∧
    (∀ (a : Action) (W W' : World), step a W = some W' → W.pool.stop = true →
      W'.pool.stop = true) ∧
    (∀ (sched : List Action) (W : World), W.pool.stop = true →
      (run sched W).pool.stop = true) ∧
    (∀ (α : Type) (f : α → Outcome) (args : α) (W : World), W.pool.stop = true →
      (submit f args W).2.pool.stop = true) ∧
    (∀ (W W' : World) (others : List (List Action)), wait_all W others = some W' →
      W.pool.stop = true → W'.pool.stop = true) := by
  refine ⟨fun _ => rfl, ?_, ?_, ?_, ?_⟩
  · intro a W W' h hs
    exact (stopped_step h hs).1
  · intro sched W hs
    exact (stopped_run sched W hs).1
  · intro α f args W hs
    unfold submit
    simp [hs]
  · intro W W' others h hs
    obtain ⟨k, _, e⟩ := wait_all_trace others W W' h
    rw [e]
    exact (stopped_run _ W hs).1

/-- Witness for C17: after the destructor set `stop`, submissions, worker steps
and joins leave it set. -/
theorem stop_is_monotonic_witness :
    (init 2).pool.stop = false ∧
    (destructor_stop (init 2)).pool.stop = true ∧
    (run (.submit (fun _ => .value 1) :: tenThenShutdown) (destructor_stop (init 2))).pool.stop
      = true :=
  ⟨stop_is_monotonic.1 2, rfl,
    stop_is_monotonic.2.2.1 (.submit (fun _ => .value 1) :: tenThenShutdown)
      (destructor_stop (init 2)) rfl⟩

/-- C19: from a state with `stop` set, whatever the threads do, the queue never
grows: it is always a suffix of the queue at that time, no task is accepted
any more, and `stop` stays set.  The test of `stop` and the enqueue are one
critical section of `submit`: a `submit` that sees `stop` false has its task
in the queue when a later destructor sets `stop`, and the task stays queued
there; a `submit` that sees `stop` true enqueues nothing. -/
theorem queue_never_grows_after_stop (W : World) (hstop : W.pool.stop = true)
    (sched : List Action) :
    (run sched W).pool.tasks <:+ W.pool.tasks ∧
    (run sched W).pool.tasks.length ≤ W.pool.tasks.length ∧
    (run sched W).accepted = W.accepted ∧
    (run sched W).pool.stop = true ∧
    (∀ (α : Type) (f : α → Outcome) (args : α),
      (submit f args (run sched W)).2.pool.tasks = (run sched W).pool.tasks) ∧
    (∀ (α : Type) (f : α → Outcome) (args : α) (V : World), V.pool.stop = false →
      (destructor_stop (submit f args V).2).pool.tasks = V.pool.tasks ++ [V.heap.length]) := by
  obtain ⟨h1, h2, h3⟩ := stopped_run sched W hstop
  refine ⟨h2, h2.length_le, h3, h1, ?_, ?_⟩
  · intro α f args
    unfold submit
    simp [h1]
  · intro α f args V hV
    unfold submit destructor_stop
    simp [hV]

/-- Witness for C19: two tasks are queued when `stop` is set; a third
submission is refused, and after one task was dequeued the queue is the one
task left. -/
theorem queue_never_grows_after_stop_witness :
    (run [.submit (fun _ => .value 1), .submit (fun _ => .value 2), .shutdown]
      (init 1)).pool.stop = true ∧
    (run [.submit (fun _ => .value 1), .submit (fun _ => .value 2), .shutdown]
      (init 1)).pool.tasks = [0, 1] ∧
    (run [.submit (fun _ => .value 3), .worker 0]
      (run [.submit (fun _ => .value 1), .submit (fun _ => .value 2), .shutdown]
        (init 1))).pool.tasks = [1] ∧
    (run [.submit (fun _ => .value 3), .worker 0]
      (run [.submit (fun _ => .value 1), .submit (fun _ => .value 2), .shutdown]
        (init 1))).pool.tasks.length ≤
    (run [.submit (fun _ => .value 1), .submit (fun _ => .value 2), .shutdown]
      (init 1)).pool.tasks.length :=
  ⟨rfl, rfl, rfl,
    (queue_never_grows_after_stop
      (run [.submit (fun _ => .value 1), .submit (fun _ => .value 2), .shutdown] (init 1))
      rfl [.submit (fun _ => .value 3), .worker 0]).2.1⟩

/-- C18: in a reachable state let worker `w` be at the head of its loop.  If
the wait predicate is false (`stop` false and the queue empty) the worker is
blocked.  If it is true the worker moves, and it returns if and only if `stop`
is true and the queue is empty.  Whenever the queue is not empty, with `stop`
true as well as with `stop` false, the worker removes the task at the front
and its next step calls that task. -/
theorem worker_exits_iff_stopped_and_empty (n : Nat) (W : World) (hW : Reachable n W)
    (w : Nat) (wk : Worker) (hw : W.pool.workers[w]? = some wk) (hpc : wk.pc = .waiting) :
    (W.pool.stop = false ∧ W.pool.tasks = [] → worker_function w W = none) ∧
    (W.pool.stop = true ∨ W.pool.tasks ≠ [] →
      ∃ W', worker_function w W = some W' ∧
        (W'.pool.workers[w]? = some { wk with pc := .exited } ↔
          W.pool.stop = true ∧ W.pool.tasks = []) ∧
        (∀ task rest, W.pool.tasks = task :: rest →
          W'.pool.tasks = rest ∧ W'.dequeued = W.dequeued ++ [task] ∧
          W'.pool.workers[w]? = some { wk with pc := .running task } ∧
          W'.pool.stop = W.pool.stop ∧
          ∃ W'', worker_function w W' = some W'' ∧ W''.executed = W.executed ++ [task] ∧
            W''.terminated = false)) := by
  have hi := inv_reachable hW
  refine ⟨fun h => worker_blocked hw hpc h.1 h.2, ?_⟩
  intro hpred
  cases hq : W.pool.tasks with
  | nil =>
    have hs : W.pool.stop = true := by
      rcases hpred with h | h
      · exact h
      · exact absurd hq h
    refine ⟨_, worker_exit hi.alive hw hpc hs hq, ?_, ?_⟩
    · constructor
      · intro _; exact ⟨hs, rfl⟩
      · intro _; exact setPC_get W.pool w .exited hw
    · intro task rest h; cases h
  | cons task rest =>
    let W1 : World := { W with
      pool := setPC { W.pool with tasks := rest
                                  active_tasks := W.pool.active_tasks + 1 }
                w (.running task)
      dequeued := W.dequeued ++ [task] }
    have h1 : worker_function w W = some W1 := worker_dequeue hi.alive hw hpc hq
    have hw1 : W1.pool.workers[w]? = some { wk with pc := .running task } :=
      setPC_get { W.pool with tasks := rest
                              active_tasks := W.pool.active_tasks + 1 } w (.running task) hw
    refine ⟨W1, h1, ?_, ?_⟩
    · constructor
      · intro h
        rw [hw1] at h
        simp at h
      · intro h; cases h.2
    · intro task' rest' h
      cases h
      have hi1 : Inv W1 := inv_worker hi h1
      have hlt := (running_fresh hi1 hw1 rfl).2
      have h2 := worker_call hi1 hw1 rfl (List.getElem?_eq_getElem hlt)
      exact ⟨rfl, rfl, hw1, rfl, _, h2, rfl, hi.alive⟩

/-- Witness for C18: with `stop` already set and one task queued, the worker
dequeues the task and calls it; with `stop` set and the queue empty it
returns. -/
theorem worker_exits_iff_stopped_and_empty_witness :
    Reachable 1 (run [.submit (fun _ => .value 1), .shutdown] (init 1)) ∧
    (run [.submit (fun _ => .value 1), .shutdown] (init 1)).pool.stop = true ∧
    (run [.submit (fun _ => .value 1), .shutdown] (init 1)).pool.tasks = [0] ∧
    (∃ W', worker_function 0 (run [.submit (fun _ => .value 1), .shutdown] (init 1))
        = some W' ∧ W'.pool.tasks = [] ∧ W'.dequeued = [0] ∧
      ∃ W'', worker_function 0 W' = some W'' ∧ W''.executed = [0]) ∧
    (run [.submit (fun _ => .value 1), .shutdown, .worker 0, .worker 0, .worker 0, .worker 0]
      (init 1)).pool.workers = [⟨.exited, true⟩] :=
  ⟨⟨_, rfl⟩, rfl, rfl,
    ((worker_exits_iff_stopped_and_empty 1
      (run [.submit (fun _ => .value 1), .shutdown] (init 1)) ⟨_, rfl⟩ 0 ⟨.waiting, true⟩
      rfl rfl).2 (Or.inl rfl)).imp
      (fun _ h => ⟨h.1, (h.2.2 0 [] rfl).1, (h.2.2 0 [] rfl).2.1,
        (h.2.2 0 [] rfl).2.2.2.2.imp (fun _ k => ⟨k.1, k.2.1⟩)⟩),
    rfl⟩

/-- C20, as stated, fails: in a pass that dequeues task 0 the increment is the
operation before the unlock, and the mutex is held when it is performed. -/
theorem increment_is_not_after_unlock :
    worker_iteration false [0] =
      [.lock, .wait, .pop 0, .increment, .unlock, .call 0, .decrement] ∧
    ¬ ((worker_iteration false [0]).indexOf Op.unlock <
        (worker_iteration false [0]).indexOf Op.increment) ∧
    heldAt (worker_iteration false [0]) ((worker_iteration false [0]).indexOf Op.increment)
      = true := by
  decide

/-- C20, amended: in every pass that finds a task at the front of the queue
the operations are, in this order: dequeue the task, increment the counter,
release the lock, call the closure, decrement the counter.  The increment is
made with the lock held, in the critical section of the dequeue; the call and
the decrement are made without it.  The operations up to the unlock change the
queue and the counter as the atomic dequeue step of worker `w` does. -/
theorem increment_happens_under_lock (stop : Bool) (task : Nat) (rest : List Nat)
    (W : World) (w : Nat) (wk : Worker) (halive : W.terminated = false)
    (hw : W.pool.workers[w]? = some wk) (hpc : wk.pc = .waiting)
    (hq : W.pool.tasks = task :: rest) (hs : W.pool.stop = stop) :
    worker_iteration stop (task :: rest) =
      [.lock, .wait, .pop task, .increment, .unlock, .call task, .decrement] ∧
    heldAt (worker_iteration stop (task :: rest)) 2 = true ∧
    heldAt (worker_iteration stop (task :: rest)) 3 = true ∧
    heldAt (worker_iteration stop (task :: rest)) 5 = false ∧
    heldAt (worker_iteration stop (task :: rest)) 6 = false ∧
    ∃ W', worker_function w W = some W' ∧
      W'.pool.tasks =
        (((worker_iteration stop (task :: rest)).take 5).foldl Op.effect W.pool).tasks ∧
      W'.pool.active_tasks =
        (((worker_iteration stop (task :: rest)).take 5).foldl Op.effect W.pool).active_tasks := by
  have e : worker_iteration stop (task :: rest) =
      [.lock, .wait, .pop task, .increment, .unlock, .call task, .decrement] := by
    cases stop <;> simp [worker_iteration]
  rw [e]
  refine ⟨rfl, rfl, rfl, rfl, rfl, _, worker_dequeue halive hw hpc hq, ?_, ?_⟩
  · simp [Op.effect, setPC, hq]
  · simp [Op.effect, setPC]

/-- Witness for C20: the worker of a pool with one queued task. -/
theorem increment_happens_under_lock_witness :
    (run [.submit (fun _ => .value 1)] (init 1)).pool.tasks = [0] ∧
    worker_iteration false [0] =
      [.lock, .wait, .pop 0, .increment, .unlock, .call 0, .decrement] ∧
    heldAt (worker_iteration false [0]) 3 = true :=
  ⟨rfl,
    (increment_happens_under_lock false 0 [] (run [.submit (fun _ => .value 1)] (init 1)) 0
      ⟨.waiting, true⟩ rfl rfl rfl rfl rfl).1,
    (increment_happens_under_lock false 0 [] (run [.submit (fun _ => .value 1)] (init 1)) 0
      ⟨.waiting, true⟩ rfl rfl rfl rfl rfl).2.2.1⟩

/-- C21: with at least two workers there is an execution in which two tasks
are dequeued in the order of their submission, task 0 by worker 0 and then
task 1 by worker 1, and the call of task 1 returns before the call of
task 0. -/
theorem completion_order_can_differ (n : Nat) (hn : 2 ≤ n) :
    ∃ sched : List Action,
      Reachable n (run sched (init n)) ∧
      (run sched (init n)).accepted = [0, 1] ∧
      (run sched (init n)).dequeued = [0, 1] ∧
      (run sched (init n)).executed = [1, 0] ∧
      get 0 (run sched (init n)) = some (.value 10) ∧
      get 1 (run sched (init n)) = some (.value 11) := by
  obtain ⟨m, rfl⟩ : ∃ m, n = m + 2 := ⟨n - 2, by omega⟩
  refine ⟨[.submit (fun _ => .value 10), .submit (fun _ => .value 11),
    .worker 0, .worker 1, .worker 1, .worker 0], ⟨_, rfl⟩, ?_, ?_, ?_, ?_, ?_⟩ <;>
    simp [run, step, submit, worker_function, init, setPC, List.replicate_succ,
      PackagedTask.invoke, get, bind]

/-- Witness for C21: the pool of four workers of the demo. -/
theorem completion_order_can_differ_witness :
    ∃ sched : List Action,
      (run sched (init 4)).dequeued = [0, 1] ∧ (run sched (init 4)).executed = [1, 0] :=
  (completion_order_can_differ 4 (by decide)).imp (fun _ h => ⟨h.2.2.1, h.2.2.2.1⟩)

/-- C23: in every reachable state, a task that was dequeued and whose call has
not returned is counted in `active_tasks`, so every accepted task is queued,
or counted as running, or executed.  Hence, when the queue is empty and
`active_tasks` is zero, every task `submit` accepted has been executed and its
result channel is resolved. -/
theorem idle_means_all_accepted_finished (n : Nat) (W : World) (h : Reachable n W) :
    (∀ t ∈ W.dequeued, t ∉ W.executed → 1 ≤ W.pool.active_tasks) ∧
    (∀ t ∈ W.accepted, t ∈ W.pool.tasks ∨ 1 ≤ W.pool.active_tasks ∨ t ∈ W.executed) ∧
    (W.pool.tasks = [] → W.pool.active_tasks = 0 →
      ∀ t ∈ W.accepted, t ∈ W.executed ∧
        ∃ p, W.heap[t]? = some p ∧ p.state = some (p.fn ())) := by
  have hi := inv_reachable h
  obtain ⟨sched, rfl⟩ := h
  have hb := active_eq_busy n sched
  have key : ∀ t ∈ (run sched (init n)).dequeued, t ∉ (run sched (init n)).executed →
      1 ≤ (run sched (init n)).pool.active_tasks := by
    intro t hd he
    rw [hb]
    exact Int.ofNat_le.mpr (busy_of_in_flight (in_flight_of_unfinished hi hd he))
  have key2 : ∀ t ∈ (run sched (init n)).accepted, t ∈ (run sched (init n)).pool.tasks ∨
      1 ≤ (run sched (init n)).pool.active_tasks ∨ t ∈ (run sched (init n)).executed := by
    intro t ht
    rw [hi.fifo] at ht
    rcases List.mem_append.mp ht with hd | hq
    · by_cases he : t ∈ (run sched (init n)).executed
      · exact Or.inr (Or.inr he)
      · exact Or.inr (Or.inl (key t hd he))
    · exact Or.inl hq
  refine ⟨key, key2, ?_⟩
  intro hq ha t ht
  have hex : t ∈ (run sched (init n)).executed := by
    rcases key2 t ht with h1 | h1 | h1
    · rw [hq] at h1; cases h1
    · rw [ha] at h1; exact absurd h1 (by decide)
    · exact h1
  have hlt := executed_lt hi hex
  exact ⟨hex, _, List.getElem?_eq_getElem hlt,
    hi.resolved t _ (List.getElem?_eq_getElem hlt) hex⟩

/-- Witness for C23: after ten tasks were drained the queue is empty, the
counter is zero and the ten tasks are executed. -/
theorem idle_means_all_accepted_finished_witness :
    Reachable 2 (run tenThenShutdown (init 2)) ∧
    (run tenThenShutdown (init 2)).pool.tasks = [] ∧
    (run tenThenShutdown (init 2)).pool.active_tasks = 0 ∧
    (run tenThenShutdown (init 2)).accepted.length = 10 ∧
    (∀ t ∈ (run tenThenShutdown (init 2)).accepted,
      t ∈ (run tenThenShutdown (init 2)).executed ∧
        ∃ p, (run tenThenShutdown (init 2)).heap[t]? = some p ∧ p.state = some (p.fn ())) :=
  ⟨⟨tenThenShutdown, rfl⟩, by decide, by decide, by decide,
    (idle_means_all_accepted_finished 2 _ ⟨tenThenShutdown, rfl⟩).2.2 (by decide) (by decide)⟩

/-- C24: the constructor succeeds with `num_threads == 0` and yields a pool
without workers.  In every state such a pool reaches no task was dequeued or
executed, the queue holds all accepted tasks, the counter is zero and every
handle is pending.  A `submit` on the running pool is accepted and enqueues;
every step leaves the old queue as a prefix of the new one; once a task is
queued `wait_all` never returns; the destructor, whose join loop is empty,
completes and leaves the accepted tasks queued and unexecuted. -/
theorem pool_without_workers_never_runs_a_task (W : World) (h : Reachable 0 W) :
    ThreadPool 0 = Except.ok (init 0) ∧ (init 0).pool.workers = [] ∧
    W.pool.workers = [] ∧ W.dequeued = [] ∧ W.executed = [] ∧
    W.pool.tasks = W.accepted ∧ W.pool.active_tasks = 0 ∧
    (∀ t ∈ W.accepted, get t W = none) ∧
    (W.pool.stop = false → ∀ (α : Type) (f : α → Outcome) (args : α),
      (submit f args W).1 = Except.ok W.heap.length ∧
      (submit f args W).2.pool.tasks = W.pool.tasks ++ [W.heap.length]) ∧
    (∀ (a : Action) (W' : World), step a W = some W' → W.pool.tasks <+: W'.pool.tasks) ∧
    (W.pool.tasks ≠ [] → ∀ others, wait_all W others = none) ∧
    run (destructor 0) W = destructor_stop W ∧
    (run (destructor 0) W).pool.tasks = W.accepted ∧
    (run (destructor 0) W).executed = [] := by
  have hi := inv_reachable h
  obtain ⟨sched, rfl⟩ := h
  obtain ⟨k1, k2, k3, k4, _⟩ := no_worker_run sched (init 0) rfl
  have hd : (run sched (init 0)).dequeued = [] := k2
  have he : (run sched (init 0)).executed = [] := k3
  have hq : (run sched (init 0)).pool.tasks = (run sched (init 0)).accepted := by
    rw [hi.fifo, hd]; rfl
  have hrun : run (destructor 0) (run sched (init 0)) = destructor_stop (run sched (init 0)) := by
    simp [destructor, run, step, hi.alive]
  refine ⟨rfl, rfl, k1, hd, he, hq, k4, ?_, ?_, ?_, ?_, hrun, ?_, ?_⟩
  · intro t ht
    have hlt : t < (run sched (init 0)).heap.length := by
      rw [hi.acc] at ht; exact List.mem_range.mp ht
    rw [get_of_inv hi (List.getElem?_eq_getElem hlt), he]
    simp
  · intro hs α f args
    unfold submit
    simp [hs]
  · intro a W' hs
    exact (no_worker_step hs k1).2.2.2.2
  · intro hne others
    exact wait_all_stuck others _ k1 hne
  · rw [hrun]; exact hq
  · rw [hrun]; exact he

/-- Witness for C24: two tasks are submitted to a pool without workers; worker
steps, polls of `wait_all` and the destructor leave them queued. -/
theorem pool_without_workers_never_runs_a_task_witness :
    Reachable 0 (run [.submit (fun _ => .value 1), .submit (fun _ => .value 2), .worker 0]
      (init 0)) ∧
    (run [.submit (fun _ => .value 1), .submit (fun _ => .value 2), .worker 0]
      (init 0)).pool.tasks = [0, 1] ∧
    (run [.submit (fun _ => .value 1), .submit (fun _ => .value 2), .worker 0]
      (init 0)).executed = [] ∧
    wait_all (run [.submit (fun _ => .value 1), .submit (fun _ => .value 2), .worker 0]
      (init 0)) [[.worker 0], [.worker 0, .worker 1]] = none ∧
    (run (destructor 0) (run [.submit (fun _ => .value 1), .submit (fun _ => .value 2),
      .worker 0] (init 0))).pool.tasks = [0, 1] :=
  ⟨⟨_, rfl⟩, rfl,
    (pool_without_workers_never_runs_a_task _ ⟨[.submit (fun _ => .value 1),
      .submit (fun _ => .value 2), .worker 0], rfl⟩).2.2.2.2.1,
    (pool_without_workers_never_runs_a_task _ ⟨[.submit (fun _ => .value 1),
      .submit (fun _ => .value 2), .worker 0], rfl⟩).2.2.2.2.2.2.2.2.2.2.1 (by decide) _,
    rfl⟩

/-- C25: for every `int` `n` below `2 ^ 31 - 1`, `factorial(n)` is 0 when `n`
is negative and `n!` reduced modulo `2 ^ 64` otherwise; from 21 on this is not
`n!`, and from 66 on it is 0. -/
theorem factorial_is_reduced_mod_two_pow_64 (n : Int) (hlo : -2 ^ 31 ≤ n)
    (hhi : n < 2 ^ 31 - 1) :
    (n < 0 → factorial n = 0) ∧
    (0 ≤ n → factorial n = n.toNat.factorial % 2 ^ 64) ∧
    (21 ≤ n → factorial n ≠ n.toNat.factorial) ∧
    (66 ≤ n → factorial n = 0) := by
  refine ⟨?_, ?_, ?_, ?_⟩
  · intro h
    unfold factorial
    rw [if_pos h]
  · intro h
    obtain ⟨m, rfl⟩ := Int.eq_ofNat_of_zero_le h
    rw [factorial_of_nat]
    rfl
  · intro h
    obtain ⟨m, rfl⟩ := Int.eq_ofNat_of_zero_le (by omega : (0 : Int) ≤ n)
    have hm : 21 ≤ m := by omega
    rw [factorial_of_nat]
    simp only [Int.toNat_ofNat]
    have h1 : (21).factorial ≤ m.factorial := Nat.factorial_le hm
    have h2 : 2 ^ 64 ≤ (21).factorial := by decide
    have h3 : m.factorial % 2 ^ 64 < 2 ^ 64 := Nat.mod_lt _ (by decide)
    omega
  · intro h
    obtain ⟨m, rfl⟩ := Int.eq_ofNat_of_zero_le (by omega : (0 : Int) ≤ n)
    have hm : 66 ≤ m := by omega
    rw [factorial_of_nat]
    have h1 : (66).factorial ∣ m.factorial := Nat.factorial_dvd_factorial hm
    have h2 : 2 ^ 64 ∣ (66).factorial := by decide
    exact Nat.mod_eq_zero_of_dvd (h2.trans h1)

/-- Witness for C25: `factorial(21)` is `21!` minus `2 * 2 ^ 64`, `factorial(65)`
is `2 ^ 63`, `factorial(66)` is 0 and `factorial(-3)` is 0. -/
theorem factorial_is_reduced_mod_two_pow_64_witness :
    factorial 21 = 14197454024290336768 ∧ (21).factorial = 51090942171709440000 ∧
    factorial 65 = 9223372036854775808 ∧ factorial 66 = 0 ∧ factorial (-3) = 0 :=
  ⟨by decide, by decide, by decide,
    (factorial_is_reduced_mod_two_pow_64 66 (by decide) (by decide)).2.2.2 (by decide),
    (factorial_is_reduced_mod_two_pow_64 (-3) (by decide) (by decide)).1 (by decide)⟩

end ThreadPool

/-! ## The claims about the queue -/

namespace ThreadSafeQueue

theorem push_inserts {T : Type} {value : T} {s s' : State T}
    (h : push value s = some (true, s')) :
    s.queue.length < s.max_size ∧ s.shutdown_flag = false ∧
    s' = { s with queue := s.queue ++ [value] } := by
  unfold push at h
  split at h
  · cases h
  · split at h
    · cases h
    · rename_i h1 h2
      simp only [Option.some.injEq, Prod.mk.injEq, true_and] at h
      have hs : s.shutdown_flag = false := by simpa using h2
      simp [hs] at h1
      exact ⟨h1, hs, h.symm⟩

theorem size_step {T : Type} {c : Call T} {s s' : State T} (h : step c s = some s')
    (hb : s.queue.length ≤ s.max_size) :
    s'.queue.length ≤ s'.max_size ∧ s'.max_size = s.max_size := by
  cases c with
  | push value =>
    simp only [step, Option.map_eq_some'] at h
    obtain ⟨⟨b, t⟩, hp, rfl⟩ := h
    cases b with
    | true =>
      obtain ⟨h1, _, rfl⟩ := push_inserts hp
      refine ⟨?_, rfl⟩
      simp only [List.length_append, List.length_singleton]
      exact h1
    | false =>
      unfold push at hp
      split at hp
      · cases hp
      · split at hp
        · cases hp; exact ⟨hb, rfl⟩
        · cases hp
  | pop value =>
    simp only [step, Option.map_eq_some'] at h
    obtain ⟨⟨b, v, t⟩, hp, rfl⟩ := h
    unfold pop at hp
    split at hp
    · cases hp
    · split at hp
      · cases hp; exact ⟨hb, rfl⟩
      · split at hp
        · cases hp
        · rename_i front rest hq
          cases hp
          simp only [hq, List.length_cons] at hb
          exact ⟨by simp only []; omega, rfl⟩
  | shutdown =>
    simp only [step, Option.some.injEq] at h
    subst h
    exact ⟨hb, rfl⟩

theorem size_run {T : Type} (calls : List (Call T)) : ∀ (s : State T),
    s.queue.length ≤ s.max_size →
    (run calls s).queue.length ≤ (run calls s).max_size ∧ (run calls s).max_size = s.max_size := by
  induction calls with
  | nil => intro s hb; exact ⟨hb, rfl⟩
  | cons c rest ih =>
    intro s hb
    simp only [run]
    cases hs : step c s with
    | none => exact ih s hb
    | some s' =>
      obtain ⟨h1, h2⟩ := size_step hs hb
      obtain ⟨k1, k2⟩ := ih s' h1
      exact ⟨k1, k2.trans h2⟩


theorem pop_front {T : Type} (value : T) (s : State T) {front : T} {rest : List T}
    (hq : s.queue = front :: rest) :
    pop value s = some (true, front, { s with queue := rest }) := by
  unfold pop
  simp [hq]

theorem pop_closed {T : Type} (value : T) (s : State T) (hq : s.queue = [])
    (hs : s.shutdown_flag = true) : pop value s = some (false, value, s) := by
  unfold pop
  simp [hq, hs]

theorem pop_blocked {T : Type} (value : T) (s : State T) (hq : s.queue = [])
    (hs : s.shutdown_flag = false) : pop value s = none := by
  unfold pop
  simp [hq, hs]

theorem drain_closed {T : Type} (q : List T) : ∀ (value : T) (s : State T),
    s.queue = q → s.shutdown_flag = true → drain (q.length + 1) value s = q := by
  induction q with
  | nil =>
    intro value s hq hs
    simp [drain, pop_closed value s hq hs]
  | cons front rest ih =>
    intro value s hq hs
    have := ih front { s with queue := rest } rfl hs
    have e : drain ((front :: rest).length + 1) value s =
        front :: drain (rest.length + 1) front { s with queue := rest } := by
      rw [List.length_cons, drain, pop_front value s hq]
    rw [e, this]

/-- C27: in every interleaving of `push`, `pop` and `shutdown` on a queue
constructed with capacity `max_size` the number of stored elements is at most
`max_size`.  A `push` that inserts starts from a state with fewer than
`max_size` elements and appends its value; with `max_size == 0` no `push`
inserts and the queue stays empty. -/
theorem size_never_exceeds_max_size {T : Type} (max_size : Nat) (calls : List (Call T)) :
    size (run calls (init T max_size)) ≤ max_size ∧
    (run calls (init T max_size)).max_size = max_size ∧
    (∀ (s s' : State T) (value : T), push value s = some (true, s') →
      s.queue.length < s.max_size ∧ s'.queue = s.queue ++ [value]) ∧
    (∀ (s s' : State T) (value : T), s.max_size = 0 → push value s ≠ some (true, s')) ∧
    (max_size = 0 → (run calls (init T max_size)).queue = []) := by
  obtain ⟨h1, h2⟩ := size_run calls (init T max_size) (Nat.zero_le _)
  have h2' : (run calls (init T max_size)).max_size = max_size := h2
  refine ⟨by rw [h2'] at h1; exact h1, h2', ?_, ?_, ?_⟩
  · intro s s' value h
    obtain ⟨k1, _, k3⟩ := push_inserts h
    exact ⟨k1, by rw [k3]⟩
  · intro s s' value h0 h
    have := (push_inserts h).1
    omega
  · intro h0
    rw [h2'] at h1
    exact List.length_eq_zero.mp (by omega)

/-- Witness for C27: capacity 2; the third `push` is blocked, and after a `pop`
the next `push` inserts again. -/
theorem size_never_exceeds_max_size_witness :
    (run [.push 1, .push 2, .push 3] (init Nat 2)).queue = [1, 2] ∧
    (run [.push 1, .push 2, .push 3, .pop 0, .push 4] (init Nat 2)).queue = [2, 4] ∧
    size (run [.push 1, .push 2, .push 3, .pop 0, .push 4] (init Nat 2)) ≤ 2 ∧
    (run [.push 1, .pop 0, .push 2] (init Nat 0)).queue = [] :=
  ⟨rfl, rfl,
    (size_never_exceeds_max_size 2 [.push 1, .push 2, .push 3, .pop 0, .push 4]).1,
    (size_never_exceeds_max_size 0 [.push 1, .pop 0, .push 2]).2.2.2.2 rfl⟩

/-- C28: `pop` is blocked exactly when the queue is empty and not shut down.
It returns `false` exactly when the queue is empty and shut down, and then the
caller's variable and the state are untouched.  Whenever the queue is not
empty, shut down or not, it returns `true`, delivers the oldest element and
removes exactly that one; so after `shutdown` repeated `pop`s deliver the
whole queue in order.  A `push` on a queue that is shut down returns `false`
and leaves the state as it is. -/
theorem pop_fails_only_when_empty_and_shut_down {T : Type} (s : State T) (value : T) :
    (pop value s = none ↔ s.queue = [] ∧ s.shutdown_flag = false) ∧
    ((∃ v s', pop value s = some (false, v, s')) ↔ s.queue = [] ∧ s.shutdown_flag = true) ∧
    (∀ v s', pop value s = some (false, v, s') → v = value ∧ s' = s) ∧
    (∀ front rest, s.queue = front :: rest →
      pop value s = some (true, front, { s with queue := rest })) ∧
    drain (s.queue.length + 1) value (shutdown s) = s.queue ∧
    (s.shutdown_flag = true → ∀ v, push v s = some (false, s)) ∧
    (∀ v, push v (shutdown s) = some (false, shutdown s)) := by
  have hpush : ∀ (t : State T), t.shutdown_flag = true → ∀ v, push v t = some (false, t) := by
    intro t ht v
    unfold push
    simp [ht]
  refine ⟨?_, ?_, ?_, fun front rest hq => pop_front value s hq,
    drain_closed s.queue value (shutdown s) rfl rfl, hpush s, hpush (shutdown s) rfl⟩
  · cases hq : s.queue with
    | nil =>
      cases hs : s.shutdown_flag with
      | false => simp [pop_blocked value s hq hs]
      | true => simp [pop_closed value s hq hs]
    | cons front rest => simp [pop_front value s hq]
  · cases hq : s.queue with
    | nil =>
      cases hs : s.shutdown_flag with
      | false => simp [pop_blocked value s hq hs]
      | true => simp [pop_closed value s hq hs]
    | cons front rest => simp [pop_front value s hq]
  · intro v s' h
    cases hq : s.queue with
    | nil =>
      cases hs : s.shutdown_flag with
      | false => rw [pop_blocked value s hq hs] at h; cases h
      | true =>
        rw [pop_closed value s hq hs] at h
        cases h; exact ⟨rfl, rfl⟩
    | cons front rest =>
      rw [pop_front value s hq] at h
      cases h

/-- Witness for C28: three values are pushed, then the queue is shut down; a
further `push` is refused, the three values come out in the order pushed, and
the next `pop` returns `false`. -/
theorem pop_fails_only_when_empty_and_shut_down_witness :
    (run [.push 7, .push 8, .push 9] (init Nat 10)).queue = [7, 8, 9] ∧
    push 5 (shutdown (run [.push 7, .push 8, .push 9] (init Nat 10)))
      = some (false, shutdown (run [.push 7, .push 8, .push 9] (init Nat 10))) ∧
    drain 4 0 (shutdown (run [.push 7, .push 8, .push 9] (init Nat 10))) = [7, 8, 9] ∧
    pop 0 (run [.pop 0, .pop 0, .pop 0]
      (shutdown (run [.push 7, .push 8, .push 9] (init Nat 10))))
      = some (false, 0, run [.pop 0, .pop 0, .pop 0]
        (shutdown (run [.push 7, .push 8, .push 9] (init Nat 10)))) :=
  ⟨rfl,
    (pop_fails_only_when_empty_and_shut_down
      (run [.push 7, .push 8, .push 9] (init Nat 10)) 0).2.2.2.2.2.2 5,
    (pop_fails_only_when_empty_and_shut_down
      (run [.push 7, .push 8, .push 9] (init Nat 10)) 0).2.2.2.2.1,
    rfl⟩

end ThreadSafeQueue

/-! ## The claims about calculatePiParallel -/

namespace PiCalculator

theorem dispatch_length (p : Int) : ∀ (k : Nat) (r : Int), (dispatch p k r).length = k := by
  intro k
  induction k with
  | zero => intro r; rfl
  | succ k ih =>
    intro r
    unfold dispatch
    split <;> simp [ih]

theorem dispatch_get (p : Int) : ∀ (k : Nat) (r : Int) (i : Nat), 0 ≤ r → i < k →
    (dispatch p k r)[i]? = some (if (i : Int) < r then p + 1 else p) := by
  intro k
  induction k with
  | zero => intro r i _ hi; omega
  | succ k ih =>
    intro r i hr hi
    unfold dispatch
    by_cases h : r > 0
    · rw [if_pos h]
      cases i with
      | zero => simp [h]
      | succ j =>
        rw [List.getElem?_cons_succ, ih (r - 1) j (by omega) (by omega)]
        congr 1
        have : ((j : Int) < r - 1) ↔ (((j + 1 : Nat) : Int) < r) := by push_cast; omega
        simp only [this]
    · rw [if_neg h]
      have hr0 : r = 0 := by omega
      subst hr0
      cases i with
      | zero => simp
      | succ j =>
        rw [List.getElem?_cons_succ, ih 0 j (by omega) (by omega)]
        have h1 : ¬ ((j : Int) < 0) := by omega
        have h2 : ¬ (((j + 1 : Nat) : Int) < 0) := by omega
        rw [if_neg h1, if_neg h2]

theorem dispatch_sum (p : Int) : ∀ (k : Nat) (r : Int), 0 ≤ r → r ≤ k →
    (dispatch p k r).sum = p * k + r := by
  intro k
  induction k with
  | zero =>
    intro r h0 h1
    simp only [dispatch, List.sum_nil]
    push_cast at h1 ⊢
    omega
  | succ k ih =>
    intro r h0 h1
    unfold dispatch
    by_cases h : r > 0
    · rw [if_pos h, List.sum_cons, ih (r - 1) (by omega) (by push_cast at h1; omega)]
      push_cast
      ring
    · rw [if_neg h]
      have hr0 : r = 0 := by omega
      subst hr0
      rw [List.sum_cons, ih 0 (by omega) (by omega)]
      push_cast
      ring

theorem collect_fault (total_points num_tasks : Int) (size : Nat) (d : Int) (rest : List Int)
    (i : Nat) (acc : Int) (hbig : total_points > 1000000) (hsize : size / 10 = 0)
    (hd : taskFails d = false) :
    collect total_points num_tasks size (d :: rest) i acc = .error .modulo_by_zero := by
  simp only [collect, hd, Bool.false_eq_true, if_false, hbig, if_true, hsize]

theorem collect_ok (total_points num_tasks : Int) (size : Nat)
    (hc : total_points ≤ 1000000 ∨ size / 10 ≠ 0) : ∀ (l : List Int) (i : Nat) (acc : Int),
    (∀ j d, l[j]? = some d → taskFails d = false ∧ recomputed total_points num_tasks (i + j) = d) →
    collect total_points num_tasks size l i acc = .ok (acc + l.sum) := by
  intro l
  induction l with
  | nil => intro i acc _; simp [collect]
  | cons d rest ih =>
    intro i acc h
    obtain ⟨hd, hr⟩ := h 0 d (List.getElem?_cons_zero)
    have hrest : ∀ j e, rest[j]? = some e →
        taskFails e = false ∧ recomputed total_points num_tasks (i + 1 + j) = e := by
      intro j e hj
      have := h (j + 1) e (by simpa using hj)
      rw [show i + (j + 1) = i + 1 + j by omega] at this
      exact this
    have hr' : recomputed total_points num_tasks i = d := by simpa using hr
    simp only [collect, hd, Bool.false_eq_true, if_false, hr']
    rcases hc with hc | hc
    · have : ¬ total_points > 1000000 := by omega
      rw [if_neg this, ih (i + 1) (acc + d) hrest, List.sum_cons, Int.add_assoc]
    · by_cases hb : total_points > 1000000
      · rw [if_pos hb, if_neg hc, ih (i + 1) (acc + d) hrest, List.sum_cons, Int.add_assoc]
      · rw [if_neg hb, ih (i + 1) (acc + d) hrest, List.sum_cons, Int.add_assoc]


theorem dispatched_length (total_points num_tasks : Int) :
    (dispatched total_points num_tasks).length = num_tasks.toNat :=
  dispatch_length _ _ _

theorem dispatched_get (total_points num_tasks : Int) (hn : 1 ≤ num_tasks) (i : Nat)
    (hi : (i : Int) < num_tasks) :
    (dispatched total_points num_tasks)[i]? = some (recomputed total_points num_tasks i) := by
  unfold dispatched recomputed
  exact dispatch_get _ _ _ i (Int.emod_nonneg _ (by omega)) (by omega)

theorem dispatched_sum (total_points num_tasks : Int) (hn : 1 ≤ num_tasks) :
    (dispatched total_points num_tasks).sum = total_points := by
  unfold dispatched
  have h0 : 0 ≤ total_points % num_tasks := Int.emod_nonneg _ (by omega)
  have h1 : total_points % num_tasks < num_tasks := Int.emod_lt_of_pos _ (by omega)
  have hk : ((num_tasks.toNat : Nat) : Int) = num_tasks := Int.toNat_of_nonneg (by omega)
  rw [dispatch_sum _ _ _ h0 (by rw [hk]; omega), hk, Int.mul_comm]
  exact Int.ediv_add_emod total_points num_tasks

theorem collect_hyp (total_points num_tasks : Int) (hn : 1 ≤ num_tasks)
    (hok : ∀ d ∈ dispatched total_points num_tasks, taskFails d = false) :
    ∀ j d, (dispatched total_points num_tasks)[j]? = some d →
      taskFails d = false ∧ recomputed total_points num_tasks (0 + j) = d := by
  intro j d hj
  refine ⟨hok d (List.getElem?_mem hj), ?_⟩
  have hlt : j < (dispatched total_points num_tasks).length := by
    rcases Nat.lt_or_ge j (dispatched total_points num_tasks).length with h | h
    · exact h
    · rw [List.getElem?_eq_none h] at hj; cases hj
  rw [dispatched_length] at hlt
  have := dispatched_get total_points num_tasks hn j (by omega)
  rw [this] at hj
  simpa using hj

theorem modulo_by_zero_below_ten_tasks (total_points num_tasks : Int)
    (hbig : 1000000 < total_points) (hn : 1 ≤ num_tasks) (hlt : num_tasks < 10) :
    calculatePiParallel total_points num_tasks = .error .modulo_by_zero := by
  unfold calculatePiParallel
  rw [if_neg (by omega)]
  have hlen := dispatched_length total_points num_tasks
  have h0 := dispatched_get total_points num_tasks hn 0 (by simpa using hn)
  cases hl : dispatched total_points num_tasks with
  | nil => rw [hl] at h0; simp at h0
  | cons d rest =>
    rw [hl] at h0 hlen
    simp only [List.getElem?_cons_zero, Option.some.injEq] at h0
    have hsize : (d :: rest).length / 10 = 0 := by
      rw [hlen]; omega
    have hd : taskFails d = false := by
      have hq : 1 ≤ total_points / num_tasks :=
        Int.le_ediv_of_mul_le (by omega) (by omega)
      unfold taskFails
      rw [h0]
      unfold recomputed
      split <;> simp <;> omega
    exact collect_fault _ _ _ d rest 0 0 hbig hsize hd

/-- C26 fails on the code: with more than 1000000 points and fewer than ten
tasks `futures.size() / 10` is zero and the collection loop takes `i` modulo
zero at its first pass.  Shown on the calls the program itself makes: the one
of `main` with 8 tasks and those of `benchmarkPerformance(5000000)` with 2, 4
and 8 tasks; with 16 tasks the divisor is 1 and the loop runs to its end. -/
theorem progress_report_divides_by_zero :
    calculatePiParallel 100000000 8 = .error .modulo_by_zero ∧
    calculatePiParallel 5000000 2 = .error .modulo_by_zero ∧
    calculatePiParallel 5000000 4 = .error .modulo_by_zero ∧
    calculatePiParallel 5000000 8 = .error .modulo_by_zero ∧
    (dispatched 100000000 8).length / 10 = 0 ∧
    calculatePiParallel 5000000 16 = .ok 5000000 :=
  ⟨rfl, rfl, rfl, rfl, rfl, rfl⟩

/-- What holds of the two loops for `total_points >= 1` and `num_tasks >= 1`:
the dispatch loop creates `num_tasks` tasks whose points add up to
`total_points`, and the points the collection loop computes again for index
`i` are those task `i` was created with.  When no task fails, a run of the
collection loop that reaches its end leaves `total_calculated_points` equal to
`total_points`; the loop reaches its end when `total_points` is at most
1000000 or there are at least ten tasks. -/
theorem dispatch_and_collection_agree (total_points num_tasks : Int) (ht : 1 ≤ total_points)
    (hn : 1 ≤ num_tasks) :
    (dispatched total_points num_tasks).length = num_tasks.toNat ∧
    (dispatched total_points num_tasks).sum = total_points ∧
    (∀ i : Nat, (i : Int) < num_tasks →
      (dispatched total_points num_tasks)[i]? = some (recomputed total_points num_tasks i)) ∧
    ((∀ d ∈ dispatched total_points num_tasks, taskFails d = false) →
      ∀ c, calculatePiParallel total_points num_tasks = .ok c → c = total_points) ∧
    ((∀ d ∈ dispatched total_points num_tasks, taskFails d = false) →
      total_points ≤ 1000000 ∨ 10 ≤ num_tasks →
      calculatePiParallel total_points num_tasks = .ok total_points) := by
  have hlen := dispatched_length total_points num_tasks
  have hsum := dispatched_sum total_points num_tasks hn
  have hfull : (∀ d ∈ dispatched total_points num_tasks, taskFails d = false) →
      total_points ≤ 1000000 ∨ (dispatched total_points num_tasks).length / 10 ≠ 0 →
      calculatePiParallel total_points num_tasks = .ok total_points := by
    intro hok hc
    unfold calculatePiParallel
    rw [if_neg (by omega), collect_ok _ _ _ hc _ 0 0 (collect_hyp _ _ hn hok), hsum]
    simp
  refine ⟨hlen, hsum, fun i hi => dispatched_get _ _ hn i hi, ?_, ?_⟩
  · intro hok c hc
    by_cases hcond : total_points ≤ 1000000 ∨ (dispatched total_points num_tasks).length / 10 ≠ 0
    · rw [hfull hok hcond] at hc
      cases hc; rfl
    · exfalso
      have hbig : 1000000 < total_points := by omega
      have hten : num_tasks < 10 := by
        have : (dispatched total_points num_tasks).length / 10 = 0 := by
          by_contra h; exact hcond (Or.inr h)
        rw [hlen] at this
        omega
      rw [modulo_by_zero_below_ten_tasks _ _ hbig hn hten] at hc
      cases hc
  · intro hok hc
    refine hfull hok ?_
    rcases hc with h | h
    · exact Or.inl h
    · right
      rw [hlen]
      omega

theorem collect_ok_collected (total_points num_tasks : Int) (size : Nat) :
    ∀ (l : List Int) (i : Nat) (c r : Int),
      collect total_points num_tasks size l i c = .ok r →
      collected total_points num_tasks size l i c = r := by
  intro l
  induction l with
  | nil =>
    intro i c r h
    simp only [collect] at h
    cases h
    rfl
  | cons d rest ih =>
    intro i c r h
    unfold collect at h
    unfold collected
    by_cases hf : taskFails d = true
    · rw [if_pos hf] at h ⊢
      exact ih _ _ _ h
    · rw [if_neg hf] at h ⊢
      simp only [] at h ⊢
      by_cases hb : total_points > 1000000
      · rw [if_pos hb] at h ⊢
        by_cases hz : size / 10 = 0
        · rw [if_pos hz] at h
          cases h
        · rw [if_neg hz] at h ⊢
          exact ih _ _ _ h
      · rw [if_neg hb] at h ⊢
        exact ih _ _ _ h

/-- C30 fails on the code.  In `calculatePiParallel(5000000, 2)` the two tasks
are created with 2500000 points each; these add up to 5000000, they are the
points the collection loop computes again for the indices 0 and 1, and no task
fails.  Yet the first pass of the collection loop takes `i` modulo zero at
line 130, right after line 125 added the points of task 0: the loop is left
with `total_calculated_points` equal to 2500000 and the call does not end with
5000000 points collected.  With 16 tasks the same total is collected in
full. -/
theorem collection_stops_short_of_total :
    dispatched 5000000 2 = [2500000, 2500000] ∧
    (dispatched 5000000 2).sum = 5000000 ∧
    [recomputed 5000000 2 0, recomputed 5000000 2 1] = dispatched 5000000 2 ∧
    (dispatched 5000000 2).map taskFails = [false, false] ∧
    calculatePiParallel 5000000 2 = .error .modulo_by_zero ∧
    calculatePiParallel 5000000 2 ≠ .ok 5000000 ∧
    total_calculated_points 5000000 2 = 2500000 ∧
    calculatePiParallel 5000000 16 = .ok 5000000 ∧
    total_calculated_points 5000000 16 = 5000000 :=
  ⟨by decide, by decide, by decide, by decide, rfl,
    fun h => Except.noConfusion (Eq.trans (Eq.symm h)
      (rfl : calculatePiParallel 5000000 2 = .error .modulo_by_zero)),
    by decide, rfl, by decide⟩

end PiCalculator

/-! ## The claims about VectorSumCalculator -/

namespace VectorSumCalculator

theorem foldl_add {α : Type} (f : α → Int) (l : List α) : ∀ (a : Int),
    l.foldl (fun acc x => acc + f x) a = a + (l.map f).sum := by
  induction l with
  | nil => intro a; simp
  | cons x rest ih =>
    intro a
    simp only [List.foldl_cons, List.map_cons, List.sum_cons]
    rw [ih]
    omega

theorem single_eq_sum (data : List Int) : calculateSingleThreaded data = data.sum := by
  unfold calculateSingleThreaded
  have := foldl_add (fun x : Int => x) data 0
  simpa using this

theorem chunk_eq_sum (data : List Int) (s e : Nat) :
    calculate_chunk data s e = ((List.range' s (e - s)).map (fun i => data.getD i 0)).sum := by
  unfold calculate_chunk
  rw [foldl_add (fun i => data.getD i 0)]
  simp

theorem chunks_length (q : Nat) : ∀ (k s r : Nat), (chunks q k s r).length = k := by
  intro k
  induction k with
  | zero => intro s r; rfl
  | succ k ih =>
    intro s r
    unfold chunks
    split <;> simp [ih]

theorem chunks_get (q : Nat) : ∀ (k s r i : Nat), i < k →
    (chunks q k s r)[i]? = some (s + i * q + min i r, s + (i + 1) * q + min (i + 1) r) := by
  intro k
  induction k with
  | zero => intro s r i hi; omega
  | succ k ih =>
    intro s r i hi
    unfold chunks
    by_cases h : r > 0
    · rw [if_pos h]
      cases i with
      | zero =>
        simp only [List.getElem?_cons_zero, Nat.zero_mul, Nat.zero_add, Nat.one_mul]
        congr 2 <;> omega
      | succ j =>
        rw [List.getElem?_cons_succ, ih _ _ j (by omega)]
        simp only [Nat.add_mul, Nat.one_mul]
        congr 2 <;> omega
    · rw [if_neg h]
      have hr : r = 0 := by omega
      subst hr
      cases i with
      | zero => simp
      | succ j =>
        rw [List.getElem?_cons_succ, ih _ _ j (by omega)]
        simp only [Nat.add_mul, Nat.one_mul]
        congr 2 <;> omega

theorem chunks_ranges (q : Nat) : ∀ (k s r : Nat), r ≤ k →
    (chunks q k s r).flatMap (fun c => List.range' c.1 (c.2 - c.1)) =
      List.range' s (k * q + r) := by
  intro k
  induction k with
  | zero =>
    intro s r hr
    have : r = 0 := by omega
    subst this
    simp [chunks]
  | succ k ih =>
    intro s r hr
    unfold chunks
    by_cases h : r > 0
    · rw [if_pos h, List.flatMap_cons, ih _ _ (by omega)]
      simp only []
      have e1 : s + q + 1 - s = q + 1 := by omega
      rw [e1]
      have := List.range'_append s (q + 1) (k * q + (r - 1)) 1
      rw [Nat.one_mul, ← Nat.add_assoc] at this
      rw [this]
      congr 1
      rw [Nat.add_mul]
      omega
    · rw [if_neg h, List.flatMap_cons, ih _ _ (by omega)]
      simp only []
      have e1 : s + q - s = q := by omega
      rw [e1]
      have := List.range'_append s q (k * q + r) 1
      rw [Nat.one_mul] at this
      rw [this]
      congr 1
      rw [Nat.add_mul]
      omega


theorem map_getD_range (data : List Int) :
    (List.range' 0 data.length).map (fun i => data.getD i 0) = data := by
  apply List.ext_getElem
  · simp
  · intro i h1 h2
    simp only [List.getElem_map, List.getElem_range', Nat.one_mul, Nat.zero_add]
    rw [List.getD_eq_getElem _ _ h2]

theorem sum_flatMap {α : Type} (f : α → List Nat) (g : Nat → Int) (l : List α) :
    ((l.flatMap f).map g).sum = (l.map (fun c => ((f c).map g).sum)).sum := by
  induction l with
  | nil => simp
  | cons x rest ih =>
    simp only [List.flatMap_cons, List.map_append, List.sum_append, List.map_cons,
      List.sum_cons, ih]

theorem bounds_sum (data : List Int) (num_threads : Nat) (hn : 1 ≤ num_threads) :
    ((chunkBounds data num_threads).map (fun c => calculate_chunk data c.1 c.2)).sum
      = data.sum := by
  have hr : data.length % num_threads ≤ num_threads :=
    Nat.le_of_lt (Nat.mod_lt _ (by omega))
  have h1 := chunks_ranges (data.length / num_threads) num_threads 0 _ hr
  have h2 : num_threads * (data.length / num_threads) + data.length % num_threads
      = data.length := Nat.div_add_mod _ _
  rw [h2] at h1
  have h3 := sum_flatMap (fun c : Nat × Nat => List.range' c.1 (c.2 - c.1))
    (fun i => data.getD i 0) (chunkBounds data num_threads)
  unfold chunkBounds at h3 ⊢
  rw [h1, map_getD_range] at h3
  rw [h3]
  congr 1
  apply List.map_congr_left
  intro c _
  exact chunk_eq_sum data c.1 c.2

theorem thread_sums (data : List Int) (num_threads : Nat) :
    (List.range num_threads).map (threadSum data num_threads) =
      (chunkBounds data num_threads).map (fun c => calculate_chunk data c.1 c.2) := by
  have hlen : (chunkBounds data num_threads).length = num_threads := chunks_length _ _ _ _
  apply List.ext_getElem
  · simp [hlen]
  · intro i h1 h2
    simp only [List.getElem_map, List.getElem_range]
    unfold threadSum
    have hi : i < (chunkBounds data num_threads).length := by simpa using h2
    rw [List.getElem?_eq_getElem hi]


theorem bounds_get (data : List Int) (num_threads i : Nat) (c : Nat × Nat)
    (h : (chunkBounds data num_threads)[i]? = some c) :
    i < num_threads ∧
    c = (i * (data.length / num_threads) + min i (data.length % num_threads),
      i * (data.length / num_threads) + data.length / num_threads +
        min (i + 1) (data.length % num_threads)) := by
  have hlen : (chunkBounds data num_threads).length = num_threads := chunks_length _ _ _ _
  have hi : i < num_threads := by
    rcases Nat.lt_or_ge i num_threads with h1 | h1
    · exact h1
    · rw [List.getElem?_eq_none (by rw [hlen]; exact h1)] at h; cases h
  refine ⟨hi, ?_⟩
  unfold chunkBounds at h
  rw [chunks_get _ _ _ _ i hi] at h
  simp only [Nat.zero_add, Nat.add_mul, Nat.one_mul, Option.some.injEq] at h
  exact h.symm

/-- C22: for every vector and every `num_threads >= 1`, whatever the order in
which the threads add their local sums, `calculateMultiThreaded` returns what
`calculateSingleThreaded` returns, and so do `calculateMultiThreadedOptimized`
and `calculateUsingSTL`.  There are `num_threads` chunks; their index ranges,
put one after the other, are exactly `0, 1, ..., size - 1`; each chunk starts
where the one before ends, the first starts at 0 and the last ends at `size`;
chunk `i` has `size / num_threads` elements, one more when
`i < size % num_threads`. -/
theorem multi_threaded_sum_equals_single (data : List Int) (num_threads : Nat)
    (hn : 1 ≤ num_threads) (order : List Nat) (horder : order.Perm (List.range num_threads)) :
    calculateMultiThreaded data num_threads order = calculateSingleThreaded data ∧
    calculateMultiThreadedOptimized data num_threads = calculateSingleThreaded data ∧
    calculateUsingSTL data = calculateSingleThreaded data ∧
    (chunkBounds data num_threads).length = num_threads ∧
    (chunkBounds data num_threads).flatMap (fun c => List.range' c.1 (c.2 - c.1))
      = List.range data.length ∧
    (∀ i c, (chunkBounds data num_threads)[i]? = some c →
      c.1 ≤ c.2 ∧ c.2 ≤ data.length ∧
      c.2 - c.1 = data.length / num_threads +
        (if i < data.length % num_threads then 1 else 0)) ∧
    (∀ i c c', (chunkBounds data num_threads)[i]? = some c →
      (chunkBounds data num_threads)[i + 1]? = some c' → c'.1 = c.2) ∧
    (∀ c, (chunkBounds data num_threads)[0]? = some c → c.1 = 0) ∧
    (∀ c, (chunkBounds data num_threads)[num_threads - 1]? = some c → c.2 = data.length) := by
  have hsum := bounds_sum data num_threads hn
  have hdiv : num_threads * (data.length / num_threads) + data.length % num_threads
      = data.length := Nat.div_add_mod _ _
  have hmod : data.length % num_threads < num_threads := Nat.mod_lt _ (by omega)
  refine ⟨?_, ?_, rfl, chunks_length _ _ _ _, ?_, ?_, ?_, ?_, ?_⟩
  · unfold calculateMultiThreaded
    rw [foldl_add (threadSum data num_threads), Int.zero_add, horder.map _ |>.sum_eq,
      thread_sums, hsum, single_eq_sum]
  · unfold calculateMultiThreadedOptimized
    have := foldl_add (fun x : Int => x)
      ((chunkBounds data num_threads).map (fun c => calculate_chunk data c.1 c.2)) 0
    simp only [List.map_id', Int.zero_add] at this
    rw [this, hsum, single_eq_sum]
  · have h1 := chunks_ranges (data.length / num_threads) num_threads 0 _ (Nat.le_of_lt hmod)
    rw [hdiv] at h1
    unfold chunkBounds
    rw [h1, List.range_eq_range']
  · intro i c h
    obtain ⟨hi, rfl⟩ := bounds_get data num_threads i c h
    have hle : i * (data.length / num_threads) + data.length / num_threads
        ≤ num_threads * (data.length / num_threads) := by
      have := Nat.mul_le_mul_right (data.length / num_threads) (Nat.succ_le_of_lt hi)
      rw [Nat.succ_mul] at this
      exact this
    simp only []
    generalize data.length / num_threads = q at *
    generalize data.length % num_threads = r at *
    generalize i * q = P at *
    generalize num_threads * q = N at *
    refine ⟨by omega, by omega, ?_⟩
    split <;> omega
  · intro i c c' h h'
    obtain ⟨_, rfl⟩ := bounds_get data num_threads i c h
    obtain ⟨_, rfl⟩ := bounds_get data num_threads (i + 1) c' h'
    simp only [Nat.add_mul, Nat.one_mul]
  · intro c h
    obtain ⟨_, rfl⟩ := bounds_get data num_threads 0 c h
    simp
  · intro c h
    obtain ⟨_, rfl⟩ := bounds_get data num_threads (num_threads - 1) c h
    have e : (num_threads - 1) * (data.length / num_threads) + data.length / num_threads
        = num_threads * (data.length / num_threads) := by
      have := Nat.succ_mul (num_threads - 1) (data.length / num_threads)
      rw [Nat.succ_eq_add_one, Nat.sub_add_cancel hn] at this
      exact this.symm
    simp only []
    rw [e]
    generalize data.length / num_threads = q at *
    generalize data.length % num_threads = r at *
    generalize num_threads * q = N at *
    omega

/-- Witness for C22: ten numbers and three threads that finish in the order
2, 0, 1; the chunks are the indices 0-3, 4-6 and 7-9. -/
theorem multi_threaded_sum_equals_single_witness :
    chunkBounds [5, 1, 4, 2, 8, 7, 3, 9, 6, 10] 3 = [(0, 4), (4, 7), (7, 10)] ∧
    calculateSingleThreaded [5, 1, 4, 2, 8, 7, 3, 9, 6, 10] = 55 ∧
    calculateMultiThreaded [5, 1, 4, 2, 8, 7, 3, 9, 6, 10] 3 [2, 0, 1] = 55 ∧
    calculateMultiThreaded [5, 1, 4, 2, 8, 7, 3, 9, 6, 10] 3 [2, 0, 1]
      = calculateSingleThreaded [5, 1, 4, 2, 8, 7, 3, 9, 6, 10] ∧
    calculateMultiThreadedOptimized [5, 1, 4, 2, 8, 7, 3, 9, 6, 10] 3
      = calculateSingleThreaded [5, 1, 4, 2, 8, 7, 3, 9, 6, 10] :=
  ⟨by decide, by decide, by decide,
    (multi_threaded_sum_equals_single [5, 1, 4, 2, 8, 7, 3, 9, 6, 10] 3 (by decide)
      [2, 0, 1] (by decide)).1,
    (multi_threaded_sum_equals_single [5, 1, 4, 2, 8, 7, 3, 9, 6, 10] 3 (by decide)
      [2, 0, 1] (by decide)).2.1⟩

end VectorSumCalculator

/-! ## The claims about ImageProcessor -/

namespace ImageProcessor

theorem rowFold_get (v : Nat → Int) : ∀ (k : Nat) (row : List Int),
    ((List.range k).foldl (fun r x => r.set x (v x)) row).length = row.length ∧
    ∀ j, ((List.range k).foldl (fun r x => r.set x (v x)) row)[j]? =
      if j < k then (row[j]?).map (fun _ => v j) else row[j]? := by
  intro k
  induction k with
  | zero => intro row; simp
  | succ k ih =>
    intro row
    rw [List.range_succ, List.foldl_append]
    simp only [List.foldl_cons, List.foldl_nil, List.length_set]
    refine ⟨(ih row).1, ?_⟩
    intro j
    rw [List.getElem?_set, (ih row).2 j]
    by_cases e : k = j
    · subst e
      simp only [if_true, Nat.lt_irrefl, if_false, Nat.lt_succ_self, (ih row).1]
      by_cases hk : k < row.length
      · simp [hk, List.getElem?_eq_getElem hk]
      · simp [hk, List.getElem?_eq_none (Nat.le_of_not_lt hk)]
    · simp only [e, if_false]
      by_cases hj : j < k
      · have : j < k + 1 := by omega
        simp [hj, this]
      · have : ¬ j < k + 1 := by omega
        simp [hj, this]

theorem rowFold (v : Nat → Int) (width : Nat) (row : List Int) (h : row.length = width) :
    (List.range width).foldl (fun r x => r.set x (v x)) row = (List.range width).map v := by
  apply List.ext_getElem?
  intro j
  rw [(rowFold_get v width row).2 j]
  by_cases hj : j < width
  · have hj' : j < row.length := by omega
    simp [hj, List.getElem?_eq_getElem hj']
  · have hj' : row.length ≤ j := by omega
    rw [if_neg hj, List.getElem?_eq_none hj', List.getElem?_eq_none]
    rw [List.length_map, List.length_range]
    omega

theorem modifyFold (v : Nat → Int) (y : Nat) (l : List Nat) : ∀ (p : List (List Int)),
    l.foldl (fun p x => setPixel p y x (v x)) p =
      p.modify (fun row => l.foldl (fun r x => r.set x (v x)) row) y := by
  induction l with
  | nil => intro p; exact (List.modify_id y p).symm
  | cons x rest ih =>
    intro p
    simp only [List.foldl_cons]
    rw [ih, setPixel, List.modify_modify_eq]
    rfl

theorem processRow_eq (image : List (List Int)) (width height : Nat) (p : List (List Int))
    (hp : Sized width height p) (y : Nat) :
    processRow image width height p y = p.modify (fun _ => blurRow image width height y) y ∧
    Sized width height (processRow image width height p y) := by
  have e : processRow image width height p y =
      p.modify (fun _ => blurRow image width height y) y := by
    unfold processRow
    rw [modifyFold (fun x => blurPixel image width height x y)]
    apply List.ext_getElem?
    intro j
    rw [List.getElem?_modify, List.getElem?_modify]
    cases hj : p[j]? with
    | none => rfl
    | some row =>
      by_cases e : y = j
      · simp only [e, if_true, Option.map_eq_map, Option.map_some']
        rw [rowFold _ width row (hp.2 row (List.getElem?_mem hj))]
        unfold blurRow
        rfl
      · simp [e]
  refine ⟨e, ?_⟩
  rw [e]
  refine ⟨by rw [List.length_modify]; exact hp.1, ?_⟩
  intro row hrow
  obtain ⟨j, hj⟩ := List.getElem?_of_mem hrow
  rw [List.getElem?_modify] at hj
  cases hpj : p[j]? with
  | none => rw [hpj] at hj; cases hj
  | some old =>
    rw [hpj] at hj
    by_cases e : y = j
    · simp only [e, if_true, Option.map_eq_map, Option.map_some', Option.some.injEq] at hj
      rw [← hj]
      unfold blurRow
      rw [List.length_map, List.length_range]
    · simp only [e, if_false, Option.map_eq_map, Option.map_some', Option.some.injEq] at hj
      rw [← hj]
      exact hp.2 old (List.getElem?_mem hpj)


theorem rowsFold_get (image : List (List Int)) (width height : Nat) (rows : List Nat) :
    ∀ (p : List (List Int)), Sized width height p →
      Sized width height (rows.foldl (processRow image width height) p) ∧
      ∀ j, (rows.foldl (processRow image width height) p)[j]? =
        if j ∈ rows then (p[j]?).map (fun _ => blurRow image width height j) else p[j]? := by
  induction rows with
  | nil => intro p hp; exact ⟨hp, fun _ => by simp⟩
  | cons y rest ih =>
    intro p hp
    obtain ⟨e, hs⟩ := processRow_eq image width height p hp y
    obtain ⟨h1, h2⟩ := ih _ hs
    refine ⟨h1, ?_⟩
    intro j
    simp only [List.foldl_cons]
    rw [h2 j, e, List.getElem?_modify]
    by_cases hy : y = j
    · subst hy
      cases p[y]? <;> simp
    · by_cases hr : j ∈ rest
      · cases p[j]? <;> simp [hr, hy]
      · have : ¬ (j ∈ y :: rest) := by
          simp only [List.mem_cons, not_or]
          exact ⟨fun h => hy h.symm, hr⟩
        cases p[j]? <;> simp [hr, hy, this]

theorem rowsFold_all (image : List (List Int)) (width height : Nat) (rows : List Nat)
    (p : List (List Int)) (hp : Sized width height p) (hall : ∀ j, j < height → j ∈ rows) :
    rows.foldl (processRow image width height) p = blurred image width height := by
  apply List.ext_getElem?
  intro j
  rw [(rowsFold_get image width height rows p hp).2 j]
  unfold blurred
  by_cases hj : j < height
  · have hj' : j < p.length := by rw [hp.1]; exact hj
    rw [if_pos (hall j hj), List.getElem?_eq_getElem hj',
      List.getElem?_map, List.getElem?_range hj]
    rfl
  · have hj' : p.length ≤ j := by rw [hp.1]; omega
    have h1 : p[j]? = none := List.getElem?_eq_none hj'
    have h2 : ((List.range height).map (blurRow image width height))[j]? = none := by
      apply List.getElem?_eq_none
      rw [List.length_map, List.length_range]
      omega
    rw [h1, h2]
    split <;> rfl

theorem single_eq_blurred (image : List (List Int)) (width height : Nat)
    (p : List (List Int)) (hp : Sized width height p) :
    applyFilterSingleThread image width height p = blurred image width height :=
  rowsFold_all image width height (List.range height) p hp
    (fun _ hj => List.mem_range.mpr hj)

theorem rowChunks_ranges (q : Nat) : ∀ (k s r : Nat), r ≤ k →
    (rowChunks q k s r).flatMap (fun c => List.range' c.1 (c.2 - c.1)) =
      List.range' s (k * q + r) := by
  intro k
  induction k with
  | zero =>
    intro s r hr
    have : r = 0 := by omega
    subst this
    simp [rowChunks]
  | succ k ih =>
    intro s r hr
    unfold rowChunks
    by_cases h : r > 0
    · rw [if_pos h, List.flatMap_cons, ih _ _ (by omega)]
      simp only []
      have e1 : s + q + 1 - s = q + 1 := by omega
      rw [e1]
      have := List.range'_append s (q + 1) (k * q + (r - 1)) 1
      rw [Nat.one_mul, ← Nat.add_assoc] at this
      rw [this]
      congr 1
      rw [Nat.add_mul]
      omega
    · rw [if_neg h, List.flatMap_cons, ih _ _ (by omega)]
      simp only []
      have e1 : s + q - s = q := by omega
      rw [e1]
      have := List.range'_append s q (k * q + r) 1
      rw [Nat.one_mul] at this
      rw [this]
      congr 1
      rw [Nat.add_mul]
      omega


theorem split_set {α : Type} : ∀ {l : List α} {t : Nat} {c : α} (c' : α), l[t]? = some c →
    ∃ l1 l2, l = l1 ++ c :: l2 ∧ l1.length = t ∧ l.set t c' = l1 ++ c' :: l2 := by
  intro l
  induction l with
  | nil => intro t c c' h; simp at h
  | cons x rest ih =>
    intro t c c' h
    cases t with
    | zero =>
      simp only [List.getElem?_cons_zero, Option.some.injEq] at h
      subst h
      exact ⟨[], rest, rfl, rfl, rfl⟩
    | succ j =>
      simp only [List.getElem?_cons_succ] at h
      obtain ⟨l1, l2, e1, e2, e3⟩ := ih c' h
      refine ⟨x :: l1, l2, by rw [e1]; rfl, by simp [e2], ?_⟩
      simp only [List.set_cons_succ, e3, List.cons_append]

theorem perm_move {α : Type} (a b c : List α) (y : α) :
    (a ++ [y] ++ (b ++ c)).Perm (a ++ (b ++ y :: c)) := by
  rw [List.append_assoc]
  refine List.Perm.append_left a ?_
  simp only [List.singleton_append]
  exact (List.perm_middle).symm

theorem multiStep_inv (image : List (List Int)) (width height : Nat) (p0 : List (List Int))
    (st : MultiState) (t : Nat)
    (h1 : st.processed = st.written.foldl (processRow image width height) p0)
    (h2 : (st.written ++ remaining st.threads).Perm (List.range height)) :
    (multiStep image width height st t).processed =
      (multiStep image width height st t).written.foldl (processRow image width height) p0 ∧
    ((multiStep image width height st t).written ++
      remaining (multiStep image width height st t).threads).Perm (List.range height) := by
  unfold multiStep
  cases ht : st.threads[t]? with
  | none => exact ⟨h1, h2⟩
  | some c =>
    obtain ⟨y, e⟩ := c
    simp only []
    by_cases hy : y < e
    · rw [if_pos hy]
      refine ⟨by simp only [List.foldl_append, List.foldl_cons, List.foldl_nil, h1], ?_⟩
      obtain ⟨l1, l2, e1, _, e3⟩ := split_set (y + 1, e) ht
      simp only [e3]
      rw [e1] at h2
      refine List.Perm.trans ?_ h2
      unfold remaining
      simp only [List.flatMap_append, List.flatMap_cons]
      have hr : List.range' y (e - y) = y :: List.range' (y + 1) (e - (y + 1)) := by
        have : e - y = (e - (y + 1)) + 1 := by omega
        rw [this, List.range'_succ]
      rw [hr]
      exact perm_move _ _ _ y
    · rw [if_neg hy]; exact ⟨h1, h2⟩

theorem multiRun_inv (image : List (List Int)) (width height : Nat) (p0 : List (List Int))
    (sched : List Nat) : ∀ (st : MultiState),
    st.processed = st.written.foldl (processRow image width height) p0 →
    (st.written ++ remaining st.threads).Perm (List.range height) →
    (sched.foldl (multiStep image width height) st).processed =
      (sched.foldl (multiStep image width height) st).written.foldl
        (processRow image width height) p0 ∧
    ((sched.foldl (multiStep image width height) st).written ++
      remaining (sched.foldl (multiStep image width height) st).threads).Perm
        (List.range height) := by
  induction sched with
  | nil => intro st h1 h2; exact ⟨h1, h2⟩
  | cons t rest ih =>
    intro st h1 h2
    obtain ⟨k1, k2⟩ := multiStep_inv image width height p0 st t h1 h2
    exact ih _ k1 k2

theorem remaining_done (threads : List (Nat × Nat))
    (h : threads.all (fun c => decide (c.2 ≤ c.1)) = true) : remaining threads = [] := by
  unfold remaining
  induction threads with
  | nil => rfl
  | cons c rest ih =>
    simp only [List.all_cons, Bool.and_eq_true, decide_eq_true_eq] at h
    rw [List.flatMap_cons, ih h.2]
    have : c.2 - c.1 = 0 := by omega
    rw [this]
    rfl

theorem multiInit_inv (height num_threads : Nat) (hn : 1 ≤ num_threads)
    (p0 : List (List Int)) :
    ((multiInit height num_threads p0).written ++
      remaining (multiInit height num_threads p0).threads).Perm (List.range height) := by
  unfold multiInit remaining
  simp only [List.nil_append]
  rw [rowChunks_ranges _ _ _ _ (Nat.le_of_lt (Nat.mod_lt _ (by omega))), Nat.div_add_mod,
    List.range_eq_range']

theorem multi_sound (image : List (List Int)) (width height num_threads : Nat)
    (hn : 1 ≤ num_threads) (p0 : List (List Int)) (hp : Sized width height p0)
    (sched : List Nat) (q : List (List Int))
    (h : applyFilterMultiThread image width height num_threads sched p0 = some q) :
    q = blurred image width height ∧
    (multiRun image width height num_threads sched p0).written.Perm (List.range height) := by
  unfold applyFilterMultiThread at h
  simp only [] at h
  split at h
  · rename_i hdone
    cases h
    obtain ⟨k1, k2⟩ := multiRun_inv image width height p0 sched
      (multiInit height num_threads p0) rfl (multiInit_inv height num_threads hn p0)
    have k1' : (multiRun image width height num_threads sched p0).processed =
        (multiRun image width height num_threads sched p0).written.foldl
          (processRow image width height) p0 := k1
    have k2' : ((multiRun image width height num_threads sched p0).written ++
        remaining (multiRun image width height num_threads sched p0).threads).Perm
          (List.range height) := k2
    rw [remaining_done _ hdone, List.append_nil] at k2'
    refine ⟨?_, k2'⟩
    rw [k1']
    exact rowsFold_all image width height _ p0 hp
      (fun j hj => k2'.symm.subset (List.mem_range.mpr hj))
  · cases h


theorem multiStep_at (image : List (List Int)) (width height : Nat) (st : MultiState)
    (l1 l2 : List (Nat × Nat)) (y e : Nat) (hth : st.threads = l1 ++ (y, e) :: l2)
    (hy : y < e) :
    (multiStep image width height st l1.length).threads = l1 ++ (y + 1, e) :: l2 := by
  unfold multiStep
  have h : st.threads[l1.length]? = some (y, e) := by
    rw [hth, List.getElem?_append_right (Nat.le_refl _)]
    simp
  rw [h]
  simp only [hy, if_true, hth]
  rw [List.set_append_right _ _ (Nat.le_refl _)]
  simp

theorem runOne (image : List (List Int)) (width height : Nat) (l1 l2 : List (Nat × Nat))
    (e : Nat) : ∀ (k y : Nat) (st : MultiState), st.threads = l1 ++ (y, e) :: l2 →
    e - y = k →
    ∃ y', e ≤ y' ∧
      ((List.replicate k l1.length).foldl (multiStep image width height) st).threads
        = l1 ++ (y', e) :: l2 := by
  intro k
  induction k with
  | zero =>
    intro y st hth hk
    exact ⟨y, by omega, by simpa using hth⟩
  | succ k ih =>
    intro y st hth hk
    have hy : y < e := by omega
    have h1 := multiStep_at image width height st l1 l2 y e hth hy
    obtain ⟨y', hy', h2⟩ := ih (y + 1) _ h1 (by omega)
    exact ⟨y', hy', by rw [List.replicate_succ, List.foldl_cons]; exact h2⟩

theorem oneByOne_done (image : List (List Int)) (width height : Nat) :
    ∀ (l2 l1 : List (Nat × Nat)) (st : MultiState), st.threads = l1 ++ l2 →
    l1.all (fun c => decide (c.2 ≤ c.1)) = true →
    ((oneByOne l1.length l2).foldl (multiStep image width height) st).threads.all
      (fun c => decide (c.2 ≤ c.1)) = true := by
  intro l2
  induction l2 with
  | nil =>
    intro l1 st hth hdone
    simp only [oneByOne, List.foldl_nil]
    rw [hth, List.append_nil]
    exact hdone
  | cons c rest ih =>
    intro l1 st hth hdone
    obtain ⟨y, e⟩ := c
    simp only [oneByOne, List.foldl_append]
    obtain ⟨y', hy', h2⟩ := runOne image width height l1 rest e (e - y) y st hth rfl
    have h3 : ((List.replicate (e - y) l1.length).foldl (multiStep image width height) st).threads
        = (l1 ++ [(y', e)]) ++ rest := by
      rw [h2]; simp
    have h4 := ih (l1 ++ [(y', e)]) _ h3 (by simp [hdone, hy'])
    simpa using h4

theorem multi_complete (image : List (List Int)) (width height num_threads : Nat)
    (p0 : List (List Int)) :
    applyFilterMultiThread image width height num_threads
      (oneByOne 0 (multiInit height num_threads p0).threads) p0 ≠ none := by
  unfold applyFilterMultiThread multiRun
  simp only []
  have := oneByOne_done image width height (multiInit height num_threads p0).threads []
    (multiInit height num_threads p0) rfl rfl
  simp only [List.length_nil] at this
  rw [if_pos this]
  simp


theorem perm_take {α : Type} (a b c d : List α) (y : α) :
    (a ++ (b ++ y :: c) ++ d).Perm (a ++ (b ++ c) ++ y :: d) := by
  simp only [List.append_assoc]
  refine List.Perm.append_left a (List.Perm.append_left b ?_)
  simp only [List.cons_append]
  exact List.perm_middle.symm

theorem perm_put {α : Type} (a b c d : List α) (y : α) :
    (a ++ [y] ++ (b ++ c) ++ d).Perm (a ++ (b ++ y :: c) ++ d) := by
  refine List.Perm.append_right d ?_
  exact perm_move a b c y

theorem balancedStep_inv (image : List (List Int)) (width height : Nat)
    (p0 : List (List Int)) (st : BalancedState) (t : Nat)
    (h1 : st.processed = st.written.foldl (processRow image width height) p0)
    (h2 : (st.written ++ st.threads.filterMap heldRow ++
      List.range' st.current_row (height - st.current_row)).Perm (List.range height))
    (h3 : Local.finished ∈ st.threads → height ≤ st.current_row) :
    (balancedStep image width height st t).processed =
      (balancedStep image width height st t).written.foldl (processRow image width height) p0 ∧
    ((balancedStep image width height st t).written ++
      (balancedStep image width height st t).threads.filterMap heldRow ++
      List.range' (balancedStep image width height st t).current_row
        (height - (balancedStep image width height st t).current_row)).Perm
        (List.range height) ∧
    (Local.finished ∈ (balancedStep image width height st t).threads →
      height ≤ (balancedStep image width height st t).current_row) ∧
    (balancedStep image width height st t).threads.length = st.threads.length := by
  unfold balancedStep
  cases ht : st.threads[t]? with
  | none => exact ⟨h1, h2, h3, rfl⟩
  | some l =>
    cases l with
    | fetching =>
      simp only []
      by_cases hrow : st.current_row ≥ height
      · rw [if_pos hrow]
        obtain ⟨l1, l2, e1, _, e3⟩ := split_set Local.finished ht
        refine ⟨h1, ?_, fun _ => by simp only []; omega, by simp⟩
        simp only [e3]
        rw [e1] at h2
        have z1 : height - st.current_row = 0 := by omega
        have z2 : height - (st.current_row + 1) = 0 := by omega
        rw [z1] at h2
        rw [z2]
        simpa [List.filterMap_append, List.filterMap_cons, heldRow] using h2
      · rw [if_neg hrow]
        obtain ⟨l1, l2, e1, _, e3⟩ := split_set (Local.writing st.current_row) ht
        refine ⟨h1, ?_, ?_, by simp⟩
        · simp only [e3]
          rw [e1] at h2
          refine List.Perm.trans ?_ h2
          have hr : List.range' st.current_row (height - st.current_row) =
              st.current_row :: List.range' (st.current_row + 1)
                (height - (st.current_row + 1)) := by
            have : height - st.current_row = (height - (st.current_row + 1)) + 1 := by omega
            rw [this, List.range'_succ]
          rw [hr]
          simp only [List.filterMap_append, List.filterMap_cons, heldRow]
          exact perm_take _ _ _ _ _
        · intro hf
          simp only [e3] at hf
          have : Local.finished ∈ st.threads := by
            rw [e1]
            simp only [List.mem_append, List.mem_cons] at hf ⊢
            rcases hf with h | h | h
            · exact Or.inl h
            · cases h
            · exact Or.inr (Or.inr h)
          have := h3 this
          simp only []
          omega
    | writing row =>
      simp only []
      obtain ⟨l1, l2, e1, _, e3⟩ := split_set Local.fetching ht
      refine ⟨by simp only [List.foldl_append, List.foldl_cons, List.foldl_nil, h1], ?_, ?_,
        by simp⟩
      · simp only [e3]
        rw [e1] at h2
        refine List.Perm.trans ?_ h2
        simp only [List.filterMap_append, List.filterMap_cons, heldRow]
        exact perm_put _ _ _ _ _
      · intro hf
        simp only [e3] at hf
        have : Local.finished ∈ st.threads := by
          rw [e1]
          simp only [List.mem_append, List.mem_cons] at hf ⊢
          rcases hf with h | h | h
          · exact Or.inl h
          · cases h
          · exact Or.inr (Or.inr h)
        exact h3 this
    | finished => exact ⟨h1, h2, h3, rfl⟩

theorem balancedRun_inv (image : List (List Int)) (width height : Nat)
    (p0 : List (List Int)) (sched : List Nat) : ∀ (st : BalancedState),
    st.processed = st.written.foldl (processRow image width height) p0 →
    (st.written ++ st.threads.filterMap heldRow ++
      List.range' st.current_row (height - st.current_row)).Perm (List.range height) →
    (Local.finished ∈ st.threads → height ≤ st.current_row) →
    (sched.foldl (balancedStep image width height) st).processed =
      (sched.foldl (balancedStep image width height) st).written.foldl
        (processRow image width height) p0 ∧
    ((sched.foldl (balancedStep image width height) st).written ++
      (sched.foldl (balancedStep image width height) st).threads.filterMap heldRow ++
      List.range' (sched.foldl (balancedStep image width height) st).current_row
        (height - (sched.foldl (balancedStep image width height) st).current_row)).Perm
        (List.range height) ∧
    (Local.finished ∈ (sched.foldl (balancedStep image width height) st).threads →
      height ≤ (sched.foldl (balancedStep image width height) st).current_row) ∧
    (sched.foldl (balancedStep image width height) st).threads.length = st.threads.length := by
  induction sched with
  | nil => intro st h1 h2 h3; exact ⟨h1, h2, h3, rfl⟩
  | cons t rest ih =>
    intro st h1 h2 h3
    obtain ⟨k1, k2, k3, k4⟩ := balancedStep_inv image width height p0 st t h1 h2 h3
    obtain ⟨m1, m2, m3, m4⟩ := ih _ k1 k2 k3
    exact ⟨m1, m2, m3, m4.trans k4⟩


theorem firstThread (image : List (List Int)) (width height : Nat) (rest : List Local) :
    ∀ (k : Nat) (st : BalancedState), st.threads = .fetching :: rest →
    st.current_row ≤ height → height - st.current_row = k →
    ((List.replicate (2 * k + 1) 0).foldl (balancedStep image width height) st).threads
      = .finished :: rest ∧
    height ≤ ((List.replicate (2 * k + 1) 0).foldl
      (balancedStep image width height) st).current_row := by
  intro k
  induction k with
  | zero =>
    intro st hth hle hk
    have hge : st.current_row ≥ height := by omega
    simp only [Nat.mul_zero, Nat.zero_add, List.replicate_one, List.foldl_cons, List.foldl_nil]
    unfold balancedStep
    simp only [hth, List.getElem?_cons_zero, hge, if_true, List.set_cons_zero]
    exact ⟨trivial, by omega⟩
  | succ k ih =>
    intro st hth hle hk
    have hlt : ¬ st.current_row ≥ height := by omega
    have e : 2 * (k + 1) + 1 = (2 * k + 1) + 1 + 1 := by omega
    rw [e, List.replicate_succ, List.replicate_succ, List.foldl_cons, List.foldl_cons]
    have s1 : (balancedStep image width height st 0).threads
        = .writing st.current_row :: rest ∧
        (balancedStep image width height st 0).current_row = st.current_row + 1 := by
      unfold balancedStep
      simp only [hth, List.getElem?_cons_zero, hlt, if_false, List.set_cons_zero]
      exact ⟨trivial, trivial⟩
    have s2 : (balancedStep image width height (balancedStep image width height st 0) 0).threads
        = .fetching :: rest ∧
        (balancedStep image width height (balancedStep image width height st 0) 0).current_row
          = st.current_row + 1 := by
      generalize balancedStep image width height st 0 = st1 at s1
      unfold balancedStep
      simp only [s1.1, List.getElem?_cons_zero, List.set_cons_zero]
      exact ⟨trivial, s1.2⟩
    exact ih _ s2.1 (by rw [s2.2]; omega) (by rw [s2.2]; omega)

theorem othersFetch (image : List (List Int)) (width height : Nat) :
    ∀ (l2 l1 : List Local) (st : BalancedState), st.threads = l1 ++ l2 →
    (∀ l ∈ l1, l = Local.finished) → (∀ l ∈ l2, l = Local.fetching) →
    height ≤ st.current_row →
    ((List.range' l1.length l2.length).foldl (balancedStep image width height) st).threads.all
      (fun l => decide (l = .finished)) = true := by
  intro l2
  induction l2 with
  | nil =>
    intro l1 st hth h1 _ _
    simp only [List.length_nil, List.range'_zero, List.foldl_nil]
    rw [hth, List.append_nil, List.all_eq_true]
    intro l hl
    simp [h1 l hl]
  | cons c rest ih =>
    intro l1 st hth h1 h2 hc
    have hcf : c = Local.fetching := h2 c (List.mem_cons_self _ _)
    subst hcf
    rw [List.length_cons, List.range'_succ, List.foldl_cons]
    have hget : st.threads[l1.length]? = some Local.fetching := by
      rw [hth, List.getElem?_append_right (Nat.le_refl _)]
      simp
    have s1 : (balancedStep image width height st l1.length).threads
        = (l1 ++ [Local.finished]) ++ rest ∧
        height ≤ (balancedStep image width height st l1.length).current_row := by
      unfold balancedStep
      have hge : st.current_row ≥ height := hc
      rw [hget]
      simp only [hge, if_true]
      rw [hth, List.set_append_right _ _ (Nat.le_refl _)]
      refine ⟨by simp, by omega⟩
    have := ih (l1 ++ [Local.finished]) _ s1.1
      (by
        intro l hl
        rcases List.mem_append.mp hl with h | h
        · exact h1 l h
        · simpa using h)
      (fun l hl => h2 l (List.mem_cons_of_mem _ hl)) s1.2
    simpa using this

theorem balanced_complete (image : List (List Int)) (width height num_threads : Nat)
    (hn : 1 ≤ num_threads) (p0 : List (List Int)) :
    applyFilterMultiThreadBalanced image width height num_threads
      (firstTakesAll height num_threads) p0 ≠ none := by
  unfold applyFilterMultiThreadBalanced balancedRun firstTakesAll
  simp only [List.foldl_append]
  obtain ⟨m, rfl⟩ : ∃ m, num_threads = m + 1 := ⟨num_threads - 1, by omega⟩
  have h0 : (balancedInit (m + 1) p0).threads = .fetching :: List.replicate m .fetching := by
    simp [balancedInit, List.replicate_succ]
  obtain ⟨k1, k2⟩ := firstThread image width height (List.replicate m .fetching) height
    (balancedInit (m + 1) p0) h0 (Nat.zero_le _) rfl
  have k1' : ((List.replicate (2 * height + 1) 0).foldl (balancedStep image width height)
      (balancedInit (m + 1) p0)).threads = [Local.finished] ++ List.replicate m .fetching := k1
  have := othersFetch image width height (List.replicate m .fetching) [Local.finished] _ k1'
    (by simp) (by intro l hl; exact (List.mem_replicate.mp hl).2) k2
  simp only [List.length_singleton, List.length_replicate] at this
  simp only [Nat.add_sub_cancel]
  rw [if_pos this]
  simp

theorem balanced_sound (image : List (List Int)) (width height num_threads : Nat)
    (hn : 1 ≤ num_threads) (p0 : List (List Int)) (hp : Sized width height p0)
    (sched : List Nat) (q : List (List Int))
    (h : applyFilterMultiThreadBalanced image width height num_threads sched p0 = some q) :
    q = blurred image width height ∧
    (balancedRun image width height num_threads sched p0).written.Perm (List.range height) := by
  unfold applyFilterMultiThreadBalanced at h
  simp only [] at h
  split at h
  · rename_i hdone
    cases h
    obtain ⟨k1, k2, k3, k4⟩ := balancedRun_inv image width height p0 sched
      (balancedInit num_threads p0) rfl
      (by simp [balancedInit, heldRow, List.filterMap_replicate, List.range_eq_range'])
      (by
        intro hf
        simp only [balancedInit] at hf
        have := (List.mem_replicate.mp hf).2
        cases this)
    generalize hfin : List.foldl (balancedStep image width height)
      (balancedInit num_threads p0) sched = final at k1 k2 k3 k4
    have hfin' : balancedRun image width height num_threads sched p0 = final := hfin
    rw [hfin'] at hdone ⊢
    have hall : ∀ l ∈ final.threads, l = Local.finished := by
      intro l hl
      have := List.all_eq_true.mp hdone l hl
      simpa using this
    have hlen : final.threads.length = num_threads := by
      rw [k4]; simp [balancedInit]
    have hne : final.threads ≠ [] := by
      intro e; rw [e] at hlen; simp at hlen; omega
    obtain ⟨l, hl⟩ := List.exists_mem_of_ne_nil _ hne
    have hcur : height ≤ final.current_row := k3 (by rw [← hall l hl]; exact hl)
    have hheld : final.threads.filterMap heldRow = [] := by
      rw [List.filterMap_eq_nil_iff]
      intro x hx
      rw [hall x hx]
      rfl
    have z : height - final.current_row = 0 := by omega
    rw [hheld, z] at k2
    simp only [List.append_nil, List.range'_zero] at k2
    refine ⟨?_, k2⟩
    rw [k1]
    exact rowsFold_all image width height _ p0 hp
      (fun j hj => k2.symm.subset (List.mem_range.mpr hj))
  · cases h


theorem getPixel_clamped (image : List (List Int)) (width height : Int) (hw : 1 ≤ width)
    (hh : 1 ≤ height) (x y : Int) :
    getPixel image width height x y =
      (image.getD (max 0 (min y (height - 1))).toNat []).getD
        (max 0 (min x (width - 1))).toNat 0 := by
  unfold getPixel
  simp only []
  have ex : (if (if x < 0 then 0 else x) ≥ width then width - 1 else (if x < 0 then 0 else x))
      = max 0 (min x (width - 1)) := by
    split <;> split <;> omega
  have ey : (if (if y < 0 then 0 else y) ≥ height then height - 1
      else (if y < 0 then 0 else y)) = max 0 (min y (height - 1)) := by
    split <;> split <;> omega
  rw [ex, ey]

/-- C29: let the image have `width >= 1` columns and `height >= 1` rows and let
`num_threads >= 1`.  `applyFilterSingleThread` leaves the blurred image, whose
pixel `(x, y)` is `blurPixel(x, y)`: the truncated quotient by 9 of the sum of
the nine pixels around `(x, y)`, read with clamped coordinates.  Under every
schedule of its threads `applyFilterMultiThread` returns with that same image,
and the rows it wrote are the rows `0, ..., height - 1`, each once; there is a
schedule under which it returns.  The same holds for
`applyFilterMultiThreadBalanced`. -/
theorem multi_threaded_filters_equal_single (image : List (List Int))
    (width height num_threads : Nat) (hw : 1 ≤ width) (hh : 1 ≤ height)
    (hn : 1 ≤ num_threads) (processed : List (List Int))
    (hp : Sized width height processed) :
    applyFilterSingleThread image width height processed = blurred image width height ∧
    (∀ sched q, applyFilterMultiThread image width height num_threads sched processed = some q →
      q = applyFilterSingleThread image width height processed ∧
      (multiRun image width height num_threads sched processed).written.Perm
        (List.range height)) ∧
    (∃ sched, applyFilterMultiThread image width height num_threads sched processed
      = some (applyFilterSingleThread image width height processed)) ∧
    (∀ sched q,
      applyFilterMultiThreadBalanced image width height num_threads sched processed = some q →
      q = applyFilterSingleThread image width height processed ∧
      (balancedRun image width height num_threads sched processed).written.Perm
        (List.range height)) ∧
    (∃ sched, applyFilterMultiThreadBalanced image width height num_threads sched processed
      = some (applyFilterSingleThread image width height processed)) ∧
    (∀ x y : Int, blurPixel image width height x y =
      Int.tdiv
        (getPixel image width height (x + -1) (y + -1) + getPixel image width height (x + 0) (y + -1)
          + getPixel image width height (x + 1) (y + -1)
          + getPixel image width height (x + -1) (y + 0) + getPixel image width height (x + 0) (y + 0)
          + getPixel image width height (x + 1) (y + 0)
          + getPixel image width height (x + -1) (y + 1) + getPixel image width height (x + 0) (y + 1)
          + getPixel image width height (x + 1) (y + 1)) 9) ∧
    (∀ x y : Int, getPixel image width height x y =
      (image.getD (max 0 (min y ((height : Int) - 1))).toNat []).getD
        (max 0 (min x ((width : Int) - 1))).toNat 0) := by
  have hs := single_eq_blurred image width height processed hp
  refine ⟨hs, ?_, ?_, ?_, ?_, ?_, ?_⟩
  · intro sched q h
    rw [hs]
    exact multi_sound image width height num_threads hn processed hp sched q h
  · refine ⟨oneByOne 0 (multiInit height num_threads processed).threads, ?_⟩
    cases h : applyFilterMultiThread image width height num_threads
        (oneByOne 0 (multiInit height num_threads processed).threads) processed with
    | none => exact absurd h (multi_complete image width height num_threads processed)
    | some q =>
      rw [hs, (multi_sound image width height num_threads hn processed hp _ q h).1]
  · intro sched q h
    rw [hs]
    exact balanced_sound image width height num_threads hn processed hp sched q h
  · refine ⟨firstTakesAll height num_threads, ?_⟩
    cases h : applyFilterMultiThreadBalanced image width height num_threads
        (firstTakesAll height num_threads) processed with
    | none => exact absurd h (balanced_complete image width height num_threads hn processed)
    | some q =>
      rw [hs, (balanced_sound image width height num_threads hn processed hp _ q h).1]
  · intro x y
    simp [blurPixel]
  · intro x y
    exact getPixel_clamped image width height (by omega) (by omega) x y

/-- Witness for C29: a 3 x 3 image and two threads; thread 1 writes row 2
first, and the result is the image the single thread leaves. -/
theorem multi_threaded_filters_equal_single_witness :
    applyFilterSingleThread [[1, 2, 3], [4, 5, 6], [7, 8, 9]] 3 3 [[0, 0, 0], [0, 0, 0], [0, 0, 0]]
      = [[2, 3, 3], [4, 5, 5], [6, 7, 7]] ∧
    applyFilterMultiThread [[1, 2, 3], [4, 5, 6], [7, 8, 9]] 3 3 2 [1, 0, 0, 1]
      [[0, 0, 0], [0, 0, 0], [0, 0, 0]] = some [[2, 3, 3], [4, 5, 5], [6, 7, 7]] ∧
    (multiRun [[1, 2, 3], [4, 5, 6], [7, 8, 9]] 3 3 2 [1, 0, 0, 1]
      [[0, 0, 0], [0, 0, 0], [0, 0, 0]]).written = [2, 0, 1] ∧
    applyFilterMultiThreadBalanced [[1, 2, 3], [4, 5, 6], [7, 8, 9]] 3 3 2
      [1, 0, 0, 1, 1, 0, 1, 0, 0, 1] [[0, 0, 0], [0, 0, 0], [0, 0, 0]]
      = some [[2, 3, 3], [4, 5, 5], [6, 7, 7]] ∧
    applyFilterSingleThread [[1, 2, 3], [4, 5, 6], [7, 8, 9]] 3 3 [[0, 0, 0], [0, 0, 0], [0, 0, 0]]
      = blurred [[1, 2, 3], [4, 5, 6], [7, 8, 9]] 3 3 :=
  ⟨by decide, by decide, by decide, by decide,
    (multi_threaded_filters_equal_single [[1, 2, 3], [4, 5, 6], [7, 8, 9]] 3 3 2
      (by decide) (by decide) (by decide) [[0, 0, 0], [0, 0, 0], [0, 0, 0]]
      ⟨rfl, by decide⟩).1⟩

end ImageProcessor
